import Mathlib

/-!
# HCP: discrete logarithms, CRT and ECM

A shallow embedding of the number-theoretic routines of the repository
(`crt.c`, `pollard.c`, `pohling.c`, `ecm.c`) together with theorems about them.

Conventions of the embedding.

* An `mpz_t` value is an `Int`.  A C function writing to output operands is a
  function returning the new values; a routine returning an `int` status and
  writing an output returns the pair `(status, output)`.
* The macros `ERROR` (`log.h`), `ODD` (`common.h`) and `for_each_data`
  (`darray.h`) come from a support library that is not among the sources; they
  are modelled below from their use and from the specification.
* The GMP primitives are modelled from the GMP manual.  GMP raises a
  division-by-zero exception where a divisor or modulus is `0`; the models are
  total and follow the conventions of `Int` there, and the theorems exclude a
  zero divisor by their hypotheses.  Where a statement is about the exception
  itself, a variant with the suffix `_checked` returns `none` for it.
* A C array is a `List Int` read with `getD _ 0`; the length travels separately,
  as in the C code.  A loop is a function of the number of iterations done, or
  takes a bound on the number of iterations as its first argument.
* Random draws, allocation failures that the code tests for, and the outcome of
  the parallel region of the lambda routine are explicit arguments; the lambda
  routine together with its region is `pollard_lambda_parallel_dicsrete_log_run`.
* A parallel region is a state (the shared variables and the private variables
  of every worker) and a move of one worker; an execution is a schedule, the list
  of the workers in the order in which they move.  A move is the private work of
  a worker up to its next access to the shared variables, or a critical section.
  The sorted array of `darray.h`, the function `hash` of `hash.h` and the macro
  `FATAL` of `log.h` belong to the same support library and are modelled where
  they are used.
-/

namespace HCP

/-! ## GMP primitives -/

/-- GMP `mpz_mod (r, n, d)`: `r = n mod d`, the sign of `d` is ignored and the
result is never negative. -/
def mpz_mod (n d : Int) : Int := n % d

/-- GMP `mpz_div (q, n, d)`, the historical name of `mpz_fdiv_q`: the quotient
rounded towards minus infinity. -/
def mpz_div (n d : Int) : Int := Int.fdiv n d

/-- The remainder sequence of the extended Euclidean algorithm.  The state is
two consecutive remainders `r0`, `r1` with the cofactors `s0`, `s1` of the
inverted operand; the result is the last non-zero remainder and its cofactor. -/
def xgcd_loop : Nat → Int → Int → Int → Int → Int × Int
  | 0, r0, _, s0, _ => (r0, s0)
  | fuel + 1, r0, r1, s0, s1 =>
    if r1 = 0 then (r0, s0)
    else xgcd_loop fuel r1 (r0 % r1) s1 (s0 - r0 / r1 * s1)

/-- GMP `mpz_invert (rop, op1, op2)`: the inverse of `op1` modulo `op2`.  The
result is `(return value, rop)`.  When the inverse exists the return value is
non-zero and `0 ≤ rop < |op2|`; when it does not the return value is `0`, and
`rop` (which the manual leaves undefined) keeps the value it had. -/
def mpz_invert (rop op1 op2 : Int) : Int × Int :=
  let m : Int := (op2.natAbs : Int)
  let ds := xgcd_loop (op2.natAbs + 1) m (op1 % m) 0 1
  if ds.1 = 1 then (1, ds.2 % m) else (0, rop)

/-- GMP `mpz_powm (rop, base, exp, mod)`: `rop = base ^ exp mod mod`, never
negative.  For a negative exponent GMP uses the inverse of `base` modulo `mod`
(and raises a division by zero when there is none). -/
def mpz_powm (base exp md : Int) : Int :=
  if exp < 0 then (mpz_invert 0 base md).2 ^ (-exp).toNat % md
  else base ^ exp.toNat % md

/-- GMP `mpz_get_ui (op)` on a 64-bit `unsigned long`: the least significant
bits of the absolute value of `op`. -/
def mpz_get_ui (op : Int) : Nat := op.natAbs % 2 ^ 64

/-! ## Macros of the support library -/

/-- Modelled from the spec: the macro `ERROR (msg, errno)` of `log.h`, which is
not among the sources.  It logs `msg` and makes the enclosing routine return
`errno`; the routines pass `1` ("0 = ok, nonzero = failure") or `NULL`.  The
definition is the value returned. -/
def ERROR (errno : Int) : Int := errno

/-- Modelled from the spec: the macro `ODD (n)` of `common.h`, which is not among
the sources: `n` is odd. -/
def ODD (n : Nat) : Bool := n % 2 = 1

/-! ## `crt.c` -/

/-- The first loop of `crt`: `product = n[0] * ... * n[k - 1]` after `k`
iterations. -/
def crt_product (n : List Int) : Nat → Int
  | 0 => 1
  | k + 1 => crt_product n k * n.getD k 0

/-- The second loop of `crt`: the pair `(x, inv)` after `k` iterations.  Both
variables start at `0` (`mpz_set_ui (x, 0)`, `mpz_init (inv)`); the return value
of `mpz_invert` is not looked at. -/
def crt_acc (r n : List Int) (product : Int) : Nat → Int × Int
  | 0 => (0, 0)
  | k + 1 =>
    let st := crt_acc r n product k
    let temp := mpz_div product (n.getD k 0)
    let inv := (mpz_invert st.2 temp (n.getD k 0)).2
    let temp := temp * inv
    let temp := temp * r.getD k 0
    (st.1 + temp, inv)

/-- The routine `crt (r, n, len, x)` of `crt.c`.  A `NULL` array is `none`; the
last argument is the value of the output operand `x` on entry.  The result is
`(return value, x)`. -/
def crt (r n : Option (List Int)) (len : Nat) (x : Int) : Int × Int :=
  match r with
  | none => (ERROR 1, x)
  | some r =>
    match n with
    | none => (ERROR 1, x)
    | some n =>
      if len = 0 then (ERROR 1, x)
      else
        let product := crt_product n len
        let st := crt_acc r n product len
        (0, mpz_mod st.1 product)


/-! ## `pollard.c` (sequential Pollard rho, `list1`) -/

/-- The walk function `f_f` on the group element: multiply by `g`, multiply by
`h` or square, according to `subgrp`; any other `subgrp` only logs. -/
def f_f (subgrp x g h p : Int) : Int :=
  if subgrp = 0 then mpz_mod (x * g) p
  else if subgrp = 1 then mpz_mod (x * h) p
  else if subgrp = 2 then mpz_mod (x * x) p
  else x

/-- The walk function `g_f` on the exponent of `g`. -/
def g_f (subgrp a q : Int) : Int :=
  if subgrp = 0 then mpz_mod (a + 1) q
  else if subgrp = 1 then a
  else if subgrp = 2 then mpz_mod (a * 2) q
  else a

/-- The walk function `h_f` on the exponent of `h`. -/
def h_f (subgrp b q : Int) : Int :=
  if subgrp = 0 then b
  else if subgrp = 1 then mpz_mod (b + 1) q
  else if subgrp = 2 then mpz_mod (b * 2) q
  else b

/-- A walker of the rho algorithm: the position `x` and the exponents `a`, `b`. -/
structure Walker where
  x : Int
  a : Int
  b : Int
  deriving DecidableEq, Repr

/-- The routine `single_step`: `subgrp = x mod SUBGRP` with `SUBGRP = 3`, then
`f_f`, `g_f` and `h_f` with that `subgrp`. -/
def single_step (w : Walker) (g h p q : Int) : Walker :=
  let subgrp := w.x % 3
  { x := f_f subgrp w.x g h p, a := g_f subgrp w.a q, b := h_f subgrp w.b q }

/-- The two walkers of `pollard_rho_dicsrete_log`: the tortoise `(x, a, b)` and
the rabbit `(X, A, B)`. -/
structure RhoState where
  tortoise : Walker
  rabbit : Walker
  deriving DecidableEq, Repr

/-- The body of the loop before the test: one step of the tortoise, two of the
rabbit. -/
def rho_body (g h p q : Int) (s : RhoState) : RhoState :=
  { tortoise := single_step s.tortoise g h p q,
    rabbit := single_step (single_step s.rabbit g h p q) g h p q }

/-- The loop `for (i = 1; i < p; ++i) { ...; if (X == x) break; }`, the first
argument being the number of values of `i` still to run. -/
def rho_loop (g h p q : Int) : Nat → RhoState → RhoState
  | 0, s => s
  | fuel + 1, s =>
    let s1 := rho_body g h p q s
    if s1.rabbit.x = s1.tortoise.x then s1 else rho_loop g h p q fuel s1

/-- The state of `pollard_rho_dicsrete_log` before its loop: `x = g * h`
(`mpz_mul`, no reduction), `a = 1`, `b = 1`, and `A = a`, `B = b`, `X = x`. -/
def rho_start (g h : Int) : RhoState :=
  let w : Walker := { x := g * h, a := 1, b := 1 }
  { tortoise := w, rabbit := w }

/-- The state of `pollard_rho_dicsrete_log` when its loop ends: `q = (p - 1) / 2`,
both walkers start at `(g * h, 1, 1)` and `i` runs over `1, ..., p - 1`. -/
def rho_walk (g h p : Int) : RhoState :=
  let q := mpz_div (p - 1) 2
  rho_loop g h p q (p - 1).toNat (rho_start g h)

/-- The routine `pollard_rho_dicsrete_log (g, h, p, x)`; the last argument is
the value of the output operand `x` on entry, the result is `(return value, x)`.
The operand `x` is the position of the tortoise during the walk. -/
def pollard_rho_dicsrete_log (g h p _x : Int) : Int × Int :=
  let q := mpz_div (p - 1) 2
  let s := rho_walk g h p
  let x := s.tortoise.x
  let r := s.tortoise.b - s.rabbit.b
  if r = 0 then (ERROR 1, x)
  else
    let a := s.rabbit.a - s.tortoise.a
    let x := (mpz_invert x r q).2
    let x := x * a
    (0, mpz_mod x q)

/-! ## `ecm.c` -/

/-- The `Point` of `ecm.c`: `z = 0` is the point at infinity, `z = 1` an affine
point, and a failed inversion leaves the denominator in `z`. -/
structure Point where
  x : Int
  y : Int
  z : Int
  deriving DecidableEq, Repr

/-- The `ECurve` of `ecm.c`: `y^2 = x^3 + a x + b` over the integers modulo `n`. -/
structure ECurve where
  a : Int
  b : Int
  n : Int
  deriving DecidableEq, Repr

/-- GMP `mpz_urandomm (rop, state, n)`: a value in `0 .. n - 1`.  The generator
is replaced by the raw value `draw` it produces, reduced into the range. -/
def mpz_urandomm (draw n : Int) : Int := draw % n

/-- The routine `point_create`: the point `(0, 1, 0)`. -/
def point_create : Point := { x := 0, y := 1, z := 0 }

/-- The routine `point_create_random (n)`.  The argument `draws` is `none` when
`malloc` fails (the routine returns `NULL`) and otherwise holds the two values
drawn for `x` and `y`; `z` is `1`. -/
def point_create_random (n : Int) (draws : Option (Int × Int)) : Option Point :=
  match draws with
  | none => none
  | some d => some { x := mpz_urandomm d.1 n, y := mpz_urandomm d.2 n, z := 1 }

/-- The routine `ecurve_create (p, n)`.  The argument `draw` is `none` when
`malloc` fails and otherwise the value drawn for `a`;
`b = (y^2 - x^3 - a x) mod n`. -/
def ecurve_create (p : Point) (n : Int) (draw : Option Int) : Option ECurve :=
  match draw with
  | none => none
  | some d =>
    let a := mpz_urandomm d n
    let x3 := p.x ^ 3
    let y2 := p.y ^ 2
    let ax := p.x * a
    some { a := a, b := mpz_mod (y2 - x3 - ax) n, n := n }

/-- The slope computed by `eliptic_add` for two points with `z ≠ 0`: the pair
`(temp1, temp2)` of numerator and denominator, or `none` when the `x` agree and
`y + y' ≡ 0 (mod n)`, where the sum is the point at infinity.  For equal `x` the
tangent at `inout` is taken, `(3 x^2 + a, 2 y)`, otherwise the chord,
`(y' - y, x' - x)`; both reduced modulo `n`. -/
def eliptic_add_slope (inout inp : Point) (ecurve : ECurve) : Option (Int × Int) :=
  if inout.x = inp.x then
    if mpz_mod (inout.y + inp.y) ecurve.n = 0 then none
    else some (mpz_mod (inout.x * inout.x * 3 + ecurve.a) ecurve.n,
               mpz_mod (inout.y * 2) ecurve.n)
  else some (mpz_mod (inp.y - inout.y) ecurve.n, mpz_mod (inp.x - inout.x) ecurve.n)

/-- The routine `eliptic_add (inout, in, ecurve)`; the result is the new value
of `inout`. -/
def eliptic_add (inout inp : Point) (ecurve : ECurve) : Point :=
  if inout.z = 0 then { x := inp.x, y := inp.y, z := inp.z }
  else if inp.z = 0 then inout
  else
    match eliptic_add_slope inout inp ecurve with
    | none => { x := 0, y := 1, z := 0 }
    | some (temp1, temp2) =>
      let res := mpz_invert 0 temp2 ecurve.n
      if res.1 = 0 then { x := 0, y := 0, z := temp2 }
      else
        let inv := res.2
        let temp := mpz_mod (temp1 * temp1 * inv * inv - inout.x - inp.x) ecurve.n
        let temp2 := mpz_mod ((inout.x - temp) * inv * temp1 - inout.y) ecurve.n
        { x := temp, y := temp2, z := 1 }

/-- The loop of `eliptic_mul`: while `k > 0`, stop when `p.z > 1`, otherwise
`r = r + p` for odd `k`, then `p = p + r` and `k >>= 1`.  The first argument
bounds the number of iterations. -/
def eliptic_mul_loop (ecurve : ECurve) : Nat → Nat → Point → Point → Point
  | 0, _, _, p => p
  | fuel + 1, k, r, p =>
    if k = 0 then p
    else if 1 < p.z then p
    else
      let r := if ODD k then eliptic_add r p ecurve else r
      let p := eliptic_add p r ecurve
      eliptic_mul_loop ecurve fuel (k / 2) r p

/-- The routine `eliptic_mul (k, p, ecurve)`; the result is the new value of
`p`.  The accumulator `r` starts at `point_create ()` (the point drawn first by
`point_create_random` is overwritten at once); `k` halves in every iteration,
so `k` iterations always suffice. -/
def eliptic_mul (k : Nat) (p : Point) (ecurve : ECurve) : Point :=
  eliptic_mul_loop ecurve k k point_create p

/-- The inner loop of `lenstra_ecm` for one `prime`:
`for (p = prime; p < limit; p *= prime)`.  The result is the point and, when
`point.z > 1` was seen, the value `gcd (n, z)` written to `factor`.  The first
argument bounds the number of iterations. -/
def ecm_prime_loop (n : Int) (ecurve : ECurve) (prime limit : Nat) :
    Nat → Nat → Point → Point × Option Int
  | 0, _, point => (point, none)
  | fuel + 1, p, point =>
    if p < limit then
      let point := eliptic_mul prime point ecurve
      if 1 < point.z then (point, some (Int.gcd n point.z : Int))
      else ecm_prime_loop n ecurve prime limit fuel (p * prime) point
    else (point, none)

/-- The outer loop of `lenstra_ecm` over the list `primes`.  Modelled from the
spec: the macro `for_each_data` of `darray.h`, which is not among the sources,
visits the entries of the array in order.  For `prime ≥ 2` the inner loop runs
fewer than `limit` times. -/
def ecm_primes_loop (n : Int) (ecurve : ECurve) (limit : Nat) :
    List Nat → Point → Option Int
  | [], _ => none
  | prime :: rest, point =>
    match ecm_prime_loop n ecurve prime limit limit prime point with
    | (_, some f) => some f
    | (point, none) => ecm_primes_loop n ecurve limit rest point

/-- The routine `lenstra_ecm (n, primes, limit, factor)`.  The argument `factor`
is the value of the output operand on entry, `draws` and `draw` are the
outcomes of `point_create_random` and of `ecurve_create`; the result is
`(return value, factor)`. -/
def lenstra_ecm (n : Int) (primes : List Nat) (limit : Nat) (factor : Int)
    (draws : Option (Int × Int)) (draw : Option Int) : Int × Int :=
  match point_create_random n draws with
  | none => (ERROR 1, factor)
  | some point =>
    match ecurve_create point n draw with
    | none => (ERROR 1, factor)
    | some ecurve =>
      match ecm_primes_loop n ecurve limit primes point with
      | some f => (0, f)
      | none => (1, factor)

/-! ## `pollard.c` (Pollard lambda, `list5`): the outer shell -/

/-- The routine `pollard_lambda_parallel_dicsrete_log (g, h, p, res)` around its
parallel region: the early exit `g == h` with `res = 1`, and the final
`mpz_mod (res, res, order_g)` with `order_g = p - 1`.  The argument `published`
is the value a worker wrote to `res` inside the parallel region (`none` when no
worker found a collision, in which case `res` keeps the value it had on entry:
the region writes `res` only together with `finish`, which
`pollard_lambda_run_eq_shell` proves of the routine with its region);
the last argument is `res` on entry and the result is `(return value, res)`. -/
def pollard_lambda_parallel_dicsrete_log (published : Option Int) (g h p res : Int) :
    Int × Int :=
  if g = h then (0, 1)
  else
    match published with
    | some x => (0, mpz_mod x (p - 1))
    | none => (0, mpz_mod res (p - 1))

/-! ## `pohling.c` -/

/-- The inner loop of `calculate_ord` for one factor `f`: at most `max` times,
while `g ^ (ord / f) mod p = 1`, decrement the exponent and divide `ord` by `f`.
The state is `(exponent, ord)`. -/
def calculate_ord_inner (g p f : Int) : Nat → Int → Int → Int × Int
  | 0, e, ord => (e, ord)
  | j + 1, e, ord =>
    if mpz_powm g (mpz_div ord f) p = 1 then
      calculate_ord_inner g p f j (e - 1) (mpz_div ord f)
    else (e, ord)

/-- The outer loop of `calculate_ord`: the pair `(exponents, ord)` after `k`
factors, with `max = (size_t) mpz_get_ui (exponents[i])`. -/
def calculate_ord_loop (g p : Int) (factors exponents : List Int) (ord : Int) :
    Nat → List Int × Int
  | 0 => (exponents, ord)
  | k + 1 =>
    let st := calculate_ord_loop g p factors exponents ord k
    let res := calculate_ord_inner g p (factors.getD k 0)
      (mpz_get_ui (st.1.getD k 0)) (st.1.getD k 0) st.2
    (st.1.set k res.1, res.2)

/-- The routine `calculate_ord (g, p, factors, exponents, len, ord)`; the result
is the new `(exponents, ord)`.  When `ord` has fallen to `1` it is replaced by
the last factor, with exponent `1` (for `len = 0` the C code reads
`factors[len - 1]` out of bounds; the embedding reads `0` there). -/
def calculate_ord (g p : Int) (factors exponents : List Int) (len : Nat) (ord : Int) :
    List Int × Int :=
  let st := calculate_ord_loop g p factors exponents ord len
  if st.2 = 1 then (st.1.set (len - 1) 1, factors.getD (len - 1) 0)
  else st

/-- The effect of `memmove (a + i, a + i + 1, n * sizeof (mpz_t))` on an array:
the `n` entries after position `i` move one place down, the entry at position
`i + n` keeps its old value. -/
def memmove_down (a : List Int) (i n : Nat) : List Int :=
  a.take i ++ (a.drop (i + 1)).take n ++ a.drop (i + n)

/-- The `while (e[i] == 0)` loop of `delete_zeros` at position `i`.  The result
is `none` when the loop runs with `i ≥ len`, where the size `len - i - 1` of the
`memmove` wraps around (undefined behaviour).  The first argument bounds the
number of iterations. -/
def delete_zeros_while (i : Nat) :
    Nat → List Int → List Int → Nat → Option (List Int × List Int × Nat)
  | 0, _, _, _ => none
  | fuel + 1, f, e, len =>
    if e.getD i 0 = 0 then
      if len < i + 1 then none
      else delete_zeros_while i fuel (memmove_down f i (len - i - 1))
        (memmove_down e i (len - i - 1)) (len - 1)
    else some (f, e, len)

/-- The `for (i = 0; i < len; ++i)` loop of `delete_zeros`, from position `i`. -/
def delete_zeros_for :
    Nat → Nat → List Int → List Int → Nat → Option (List Int × List Int × Nat)
  | 0, _, f, e, len => some (f, e, len)
  | fuel + 1, i, f, e, len =>
    if i < len then
      match delete_zeros_while i (len + 1) f e len with
      | none => none
      | some (f1, e1, len1) => delete_zeros_for fuel (i + 1) f1 e1 len1
    else some (f, e, len)

/-- The routine `delete_zeros (f, e, len)`; the result is the new arrays and the
new length, or `none` on undefined behaviour.  The `for` loop runs at most `len`
times. -/
def delete_zeros (f e : List Int) (len : Nat) : Option (List Int × List Int × Nat) :=
  delete_zeros_for len 0 f e len

/-- The loop of `solve_discrete_subproblem`: the pair `(x, temp_x)` after the
iterations `i = 1, ..., k`.  The argument `search j G H` is the outcome of the
parallel region of the `j`-th call of the lambda routine, on `(G, H, p)`. -/
def solve_discrete_subproblem_loop (search : Nat → Int → Int → Option Int)
    (inv new_g h p f e : Int) : Nat → Int × Int
  | 0 => (0, 0)
  | k + 1 =>
    let st := solve_discrete_subproblem_loop search inv new_g h p f e k
    let i : Int := (k : Int) + 1
    let temp_mod := mpz_powm f i p
    let temp1 := mpz_powm inv st.1 p
    let temp1 := temp1 * h
    let temp2 := e - i
    let temp2 := mpz_powm f temp2 p
    let temp1 := mpz_powm temp1 temp2 p
    let res := pollard_lambda_parallel_dicsrete_log (search (k + 1) new_g temp1) new_g temp1 p st.2
    let temp_x := mpz_mod res.2 temp_mod
    let temp2 := i - 1
    let temp1 := mpz_powm f temp2 p
    let temp_x := temp_x * temp1
    (st.1 + temp_x, temp_x)

/-- The routine `solve_discrete_subproblem (g, h, p, f, e, x)`; the result is
`(return value, x)`.  The lambda routine never returns a non-zero value in this
embedding, so the `ERROR` branch is not taken. -/
def solve_discrete_subproblem (search : Nat → Int → Int → Option Int)
    (g h p f e : Int) : Int × Int :=
  let inv := (mpz_invert 0 g p).2
  let less_e := e - 1
  let new_g := mpz_powm f less_e p
  let new_g := mpz_powm g new_g p
  (0, (solve_discrete_subproblem_loop search inv new_g h p f e e.toNat).1)

/-- The main loop of `pohling_discrete_log`: the arrays `(x_array, p_array)`
after `k` prime powers.  The argument `search i j G H` is the outcome of the
parallel region of the `j`-th lambda call made for the factor of index `i`. -/
def pohling_loop (search : Nat → Nat → Int → Int → Option Int)
    (g h p ord_p : Int) (factors exponents : List Int) : Nat → List Int × List Int
  | 0 => ([], [])
  | k + 1 =>
    let st := pohling_loop search g h p ord_p factors exponents k
    let temp1 := mpz_powm (factors.getD k 0) (exponents.getD k 0) p
    let temp2 := mpz_div ord_p temp1
    let new_g := mpz_powm g temp2 p
    let new_h := mpz_powm h temp2 p
    let res := solve_discrete_subproblem (search k) new_g new_h p
      (factors.getD k 0) (exponents.getD k 0)
    (st.1 ++ [res.2], st.2 ++ [temp1])

/-- The outcome of `pohling_discrete_log`: the return value, the output `x`, and
the operands `g` and `h`, which the routine overwrites in place. -/
structure PohlingResult where
  ret : Int
  x : Int
  g : Int
  h : Int
  deriving DecidableEq, Repr

/-- The routine `pohling_discrete_log (g, h, p, factors, exponents, f_len, x)`.
The result is `none` on undefined behaviour: when `delete_zeros` runs into it, or
when no factor is left and `factors[f_len - 1]` is read out of bounds.
Allocation failures are not modelled. -/
def pohling_discrete_log (search : Nat → Nat → Int → Int → Option Int)
    (g h p : Int) (factors exponents : List Int) (f_len : Nat) (x : Int) :
    Option PohlingResult :=
  let ord_p := p - 1
  let st := calculate_ord g p factors exponents f_len ord_p
  let exponents := st.1
  let ord_p := st.2
  match delete_zeros factors exponents f_len with
  | none => none
  | some (factors, exponents, f_len) =>
    if f_len = 0 then none
    else
      let Q := mpz_powm (factors.getD (f_len - 1) 0) (exponents.getD (f_len - 1) 0) p
      let g := if Q ≠ ord_p then mpz_powm g Q p else g
      let h := if Q ≠ ord_p then mpz_powm h Q p else h
      let arrays := pohling_loop search g h p ord_p factors exponents f_len
      let res := crt (some arrays.1) (some arrays.2) f_len x
      if res.1 ≠ 0 then some { ret := ERROR 1, x := res.2, g := g, h := h }
      else some { ret := 0, x := mpz_mod res.2 ord_p, g := g, h := h }

/-- The check of `main` (`list5`) after the call: `mpz_powm (x, g, x, p)` and
`mpz_cmp (x, h) == 0`, with the `g` and `h` the call left; the exit status is `0`
on `SUCCESS!!!` and `1` on `FAILED!!!`. -/
def pohling_main_check (r : PohlingResult) (p : Int) : Int :=
  if mpz_powm r.g r.x p = r.h then 0 else 1

/-- A correct outcome of every parallel search: whenever `H` is a power of `G`
modulo `p` and `G ≠ H`, a worker publishes a value whose reduction modulo `p - 1`
is a logarithm of `H` to the base `G`. -/
def SearchCorrect (search : Nat → Nat → Int → Int → Option Int) (p : Int) : Prop :=
  ∀ (i j : Nat) (G H : Int), G ≠ H → (∃ k : Nat, G ^ k % p = H % p) →
    ∃ y : Int, search i j G H = some y ∧ G ^ (y % (p - 1)).toNat % p = H % p

/-- An exhaustive search for the least logarithm below `bound`, used to run the
routines on concrete inputs. -/
def least_log (G H p : Int) : Nat → Nat → Option Int
  | 0, _ => none
  | fuel + 1, k => if G ^ k % p = H % p then some k else least_log G H p fuel (k + 1)

/-! ## The shared set of triples -/

/-- Modelled from the spec: `darray_search_first` of `darray.h`, which is not
among the sources.  The set is "an ordered collection keyed by position,
supporting insertion and first-match search"; the comparators of both programs
are `mpz_cmp` on one field, here `key`.  The array is the list of its entries in
order; the result is the first entry that compares equal to `t`, `none` when the
C function returns `-1`. -/
def darray_search_first {α : Type} (key : α → Int) (set : List α) (t : α) : Option α :=
  set.find? (fun e => key e = key t)

/-- Modelled from the spec: `darray_insert` of `darray.h` on a `DARRAY_SORTED`
array: the entry is put in front of the first entry with a greater key.  Where it
lands among entries with an equal key is not specified; no theorem below depends
on it. -/
def darray_insert {α : Type} (key : α → Int) : List α → α → List α
  | [], t => [t]
  | e :: rest, t => if key t < key e then t :: e :: rest else e :: darray_insert key rest t

/-- The guard of both critical sections:
`darray_get_num_entries (set) > 0 && darray_search_first (set, &t, &pt_p) != -1`,
with the entry copied to `pt_p`. -/
def set_lookup {α : Type} (key : α → Int) (set : List α) (t : α) : Option α :=
  if 0 < set.length then darray_search_first key set t else none

/-! ## GMP primitives of the parallel programs -/

/-- The digits of a positive number in base `base`, counted with the number itself
as the bound on the divisions. -/
def sizeinbase_loop (base : Nat) : Nat → Nat → Nat
  | 0, _ => 0
  | fuel + 1, n => if n = 0 then 0 else sizeinbase_loop base fuel (n / base) + 1

/-- GMP `mpz_sizeinbase (op, base)` for a base that is a power of `2`: the number
of digits of `|op|`, and `1` for `op = 0`. -/
def mpz_sizeinbase (op : Int) (base : Nat) : Nat :=
  if op = 0 then 1 else sizeinbase_loop base op.natAbs op.natAbs

/-- GMP `mpz_urandomb (rop, state, n)`: a value in `0 .. 2^n - 1`.  The generator
is replaced by the raw value `draw` it produces, reduced into the range. -/
def mpz_urandomb (draw : Int) (n : Nat) : Int := draw % 2 ^ n

/-- The search of `mpz_sqrt`: the candidate `s` grows while `(s + 1)^2 ≤ n`. -/
def sqrt_loop (n : Nat) : Nat → Nat → Nat
  | 0, s => s
  | fuel + 1, s => if (s + 1) * (s + 1) ≤ n then sqrt_loop n fuel (s + 1) else s

/-- GMP `mpz_sqrt (rop, op)`: the truncated integer part of the square root, for
`op ≥ 0`. -/
def mpz_sqrt (op : Int) : Int := (sqrt_loop op.toNat op.toNat 0 : Nat)

/-! ## `pollard.c` (parallel Pollard rho, `list3`) -/

/-- The constant `POLLARD_TRESHOLD`, the same in `list3` and `list5`: a position is
a distinguished point when it has fewer bits. -/
def POLLARD_TRESHOLD : Nat := 40

/-- The constant `POLLARD_RAND_MAX`: the number of bits of a sampled exponent. -/
def POLLARD_RAND_MAX : Nat := 16

/-- The loop of a walk, `for (i = 1; i < p; ++i) { single_step; if (x is a
distinguished point) break; }`, the first argument being the number of values of
`i` still to run.  The functions `f_f`, `g_f`, `h_f` and `single_step` of `list3`
are the ones of `list1`, word for word. -/
def rho_parallel_walk_loop (g h p q : Int) : Nat → Walker → Walker
  | 0, w => w
  | fuel + 1, w =>
    let w1 := single_step w g h p q
    if mpz_sizeinbase w1.x 2 < POLLARD_TRESHOLD then w1
    else rho_parallel_walk_loop g h p q fuel w1

/-- One walk of a worker of `pollard_rho_parallel_dicsrete_log`, from the two raw
draws for `a` and `b` to the triple `(x, a, b)` it takes to the critical section:
`x = (g^a mod p) * (h^b mod p)`, then the loop.  The `Pollard_triple` of `list3`
has the fields `x`, `a`, `b` of a `Walker`. -/
def rho_parallel_walk (g h p draw_a draw_b : Int) : Walker :=
  let q := mpz_div (p - 1) 2
  let a := mpz_urandomb draw_a POLLARD_RAND_MAX
  let b := mpz_urandomb draw_b POLLARD_RAND_MAX
  let temp_g := mpz_powm g a p
  let temp_h := mpz_powm h b p
  rho_parallel_walk_loop g h p q (p - 1).toNat { x := temp_g * temp_h, a := a, b := b }

/-- The shared variables of the parallel region of
`pollard_rho_parallel_dicsrete_log`: the array of triples, the output `res` and
the flag `done`.  The field `writes` is a history variable, not a variable of the
program: the number of times `mpz_set (res, x)` has been executed. -/
structure RhoShared where
  array : List Walker
  res : Int
  done : Bool
  writes : Nat
  deriving DecidableEq, Repr

/-- The critical section of `pollard_rho_parallel_dicsrete_log`, entered with the
triple `(x, a, b)` of the worker.  On a match `pt_p` with `r = b - B ≠ 0` and an
inverse of `r` modulo `q`, `res = inv * (A - a) mod q` and `done = true`; on a
match without these the triple is dropped; without a match it is inserted. -/
def rho_critical (q : Int) (s : RhoShared) (w : Walker) : RhoShared :=
  match set_lookup Walker.x s.array w with
  | some pt_p =>
    let r := w.b - pt_p.b
    if r ≠ 0 then
      let a := pt_p.a - w.a
      let inv := mpz_invert w.x r q
      if inv.1 ≠ 0 then
        { s with res := mpz_mod (inv.2 * a) q, done := true, writes := s.writes + 1 }
      else s
    else s
  | none => { s with array := darray_insert Walker.x s.array w }

/-- The state of the parallel region of `pollard_rho_parallel_dicsrete_log`: the
shared variables and, for each worker, the triple it holds when it has finished a
walk and waits for the critical section (`none` at the head of `while (!done)`). -/
structure RhoRegion where
  shared : RhoShared
  workers : List (Option Walker)
  deriving DecidableEq, Repr

/-- One move of worker `i`.  At the head of the loop it reads `done`, and when the
flag is not set it samples `a`, `b` (the raw draws are given) and walks; holding a
triple, it runs the critical section and is back at the head of the loop. -/
def rho_region_step (g h p : Int) (st : RhoRegion) (i : Nat) (draw_a draw_b : Int) :
    RhoRegion :=
  match st.workers.getD i none with
  | some w =>
    { shared := rho_critical (mpz_div (p - 1) 2) st.shared w,
      workers := st.workers.set i none }
  | none =>
    if st.shared.done then st
    else { st with workers := st.workers.set i (some (rho_parallel_walk g h p draw_a draw_b)) }

/-- An execution of the parallel region of `pollard_rho_parallel_dicsrete_log`
with `nproc` workers: `schedule` lists, in the order in which they happen, the
moves `(worker, draw for a, draw for b)`; `res` is the output operand on
entry. -/
def rho_region (g h p : Int) (nproc : Nat) (schedule : List (Nat × Int × Int)) (res : Int) :
    RhoRegion :=
  schedule.foldl (fun st m => rho_region_step g h p st m.1 m.2.1 m.2.2)
    { shared := { array := [], res := res, done := false, writes := 0 },
      workers := List.replicate nproc none }

/-! ## `pollard.c` (Pollard lambda, `list5`): the parallel region -/

/-- The type of a kangaroo. -/
inductive kangaroo_t where
  | KANGAROO_WILD
  | KANGAROO_TAME
  deriving DecidableEq, Repr

/-- The `Pollard_triple` of `list5`: the type of the kangaroo, the distance it has
jumped and its position. -/
structure Pollard_triple where
  type : kangaroo_t
  dist : Int
  pos : Int
  deriving DecidableEq, Repr

/-- The loop of `calculate_max_jumps`: `do { res = (2^r - 1) / r; ++r; } while
(res < beta)`, the result being the final `r`. -/
def calculate_max_jumps_loop (beta : Int) : Nat → Nat → Nat
  | 0, r => r
  | fuel + 1, r =>
    let res := mpz_div (2 ^ r - 1) r
    if res < beta then calculate_max_jumps_loop beta fuel (r + 1) else r + 1

/-- The routine `calculate_max_jumps (beta)`: the final `r` of the loop, minus `2`.
The quotient `(2^r - 1) / r` is at least `r - 1`, so the loop ends within
`beta + 1` iterations. -/
def calculate_max_jumps (beta : Int) : Nat :=
  calculate_max_jumps_loop beta (beta.toNat + 1) 1 - 2

/-- The values that `pollard_lambda_parallel_dicsrete_log` computes before its
parallel region and shares among the workers. -/
structure LambdaParams where
  a : Int
  b : Int
  order_g : Int
  beta : Int
  v : Int
  r : Nat
  dists : List Int
  jumps : List Int
  deriving DecidableEq, Repr

/-- The set-up of `pollard_lambda_parallel_dicsrete_log` for `nproc` threads:
`order_g = p - 1`, the interval `[a, b] = [0, order_g]`,
`beta = nproc * sqrt (b - a) / 4`, `v = beta / (nproc >> 1)`,
`r = calculate_max_jumps (beta)` and the tables `dists[i] = 2^i`,
`jumps[i] = g^dists[i] mod p` for `i < r`.  (With one thread the C code divides
by `nproc >> 1 = 0`.) -/
def lambda_params (g p : Int) (nproc : Nat) : LambdaParams :=
  let order_g := p - 1
  let a : Int := 0
  let b := order_g
  let beta := mpz_div (mpz_sqrt (b - a) * nproc) 4
  let v := mpz_div beta ((nproc >>> 1 : Nat) : Int)
  let r := calculate_max_jumps beta
  let dists := (List.range r).map (fun i => (2 : Int) ^ i)
  { a := a, b := b, order_g := order_g, beta := beta, v := v, r := r,
    dists := dists, jumps := dists.map (fun d => mpz_powm g d p) }

/-- The private variables of a worker of the lambda routine: its type, `dist`,
`pos`, the loop counter `step`, and whether it has reached the critical section
with the triple `(type, dist, pos)`. -/
structure Kangaroo where
  type : kangaroo_t
  dist : Int
  pos : Int
  step : Int
  waiting : Bool
  deriving DecidableEq, Repr

/-- The start of worker `tid` (`omp_get_thread_num ()`): `WILD` for an odd `tid`
and `TAME` otherwise, `dist = ((tid + 2) >> 1) * v`, and
`pos = g^((a + b) / 2 + dist) mod p` for a tame, `pos = h * g^dist mod p` for a
wild kangaroo. -/
def kangaroo_start (g h p : Int) (P : LambdaParams) (tid : Nat) : Kangaroo :=
  let type := if ODD tid then kangaroo_t.KANGAROO_WILD else kangaroo_t.KANGAROO_TAME
  let dist := (((tid + 2) >>> 1 : Nat) : Int) * P.v
  let pos :=
    if type = kangaroo_t.KANGAROO_TAME then
      mpz_powm g (mpz_div (P.a + P.b) 2 + dist) p
    else mpz_mod (h * mpz_powm g dist p) p
  { type := type, dist := dist, pos := pos, step := 0, waiting := false }

/-- A jump of a worker: `index = hash (pos) % r`, `pos = pos * jumps[index] mod p`
and `dist = dist + dists[index]`.  Modelled from the spec: the function `hash` of
`hash.h` is not among the sources; `hash` here maps the position, whose binary
digits are hashed, to the value of the hash.  (With `r = 0` the C code divides
by zero.) -/
def kangaroo_jump (hash : Int → Nat) (p : Int) (P : LambdaParams) (k : Kangaroo) : Kangaroo :=
  let index := hash k.pos % P.r
  { k with pos := mpz_mod (k.pos * P.jumps.getD index 0) p,
           dist := k.dist + P.dists.getD index 0 }

/-- The shared variables of the parallel region of the lambda routine: the set of
triples, the output `res` and the flag `finish`. -/
structure LambdaShared where
  set : List Pollard_triple
  res : Int
  finish : Bool
  deriving DecidableEq, Repr

/-- The critical section of the lambda routine, entered with the triple of the
worker.  Nothing happens once `finish` is set.  On a match `pt_p` of the other
type, `res = (a + b) / 2 + dTAME - dWILD` and `finish = true`; otherwise the
triple is inserted. -/
def lambda_critical (P : LambdaParams) (s : LambdaShared) (triple : Pollard_triple) :
    LambdaShared :=
  if s.finish then s
  else
    match set_lookup Pollard_triple.pos s.set triple with
    | some pt_p =>
      if pt_p.type ≠ triple.type then
        let x := mpz_div (P.a + P.b) 2
        let x :=
          if triple.type = kangaroo_t.KANGAROO_TAME then x + triple.dist - pt_p.dist
          else x + pt_p.dist - triple.dist
        { s with res := x, finish := true }
      else { s with set := darray_insert Pollard_triple.pos s.set triple }
    | none => { s with set := darray_insert Pollard_triple.pos s.set triple }

/-- The state of the parallel region of the lambda routine. -/
structure LambdaRegion where
  shared : LambdaShared
  workers : List Kangaroo
  deriving DecidableEq, Repr

/-- One move of a worker in
`for (step = 0; step < order_g; ++step) { if (finish) break; jump; if (pos is a
distinguished point) critical section }`.  Waiting at the critical section, the
worker runs it and counts the step.  Otherwise, while `step < order_g` and
`finish` is not set, it jumps, and either waits at the critical section or counts
the step.  A worker that has left the loop does nothing. -/
def kangaroo_move (hash : Int → Nat) (p : Int) (P : LambdaParams) (s : LambdaShared)
    (k : Kangaroo) : LambdaShared × Kangaroo :=
  if k.waiting then
    (lambda_critical P s { type := k.type, dist := k.dist, pos := k.pos },
      { k with waiting := false, step := k.step + 1 })
  else if k.step < P.order_g ∧ ¬ s.finish then
    let k1 := kangaroo_jump hash p P k
    if mpz_sizeinbase k1.pos 2 < POLLARD_TRESHOLD then (s, { k1 with waiting := true })
    else (s, { k1 with step := k1.step + 1 })
  else (s, k)

/-- The move of worker `i` in the region; a number `i` that names no worker
changes nothing. -/
def lambda_region_step (hash : Int → Nat) (p : Int) (P : LambdaParams) (st : LambdaRegion)
    (i : Nat) : LambdaRegion :=
  match st.workers.get? i with
  | none => st
  | some k =>
    let res := kangaroo_move hash p P st.shared k
    { shared := res.1, workers := st.workers.set i res.2 }

/-- An execution of the parallel region of the lambda routine with `nproc`
workers: `schedule` lists the workers in the order in which they move; `res` is
the output operand on entry. -/
def lambda_region (hash : Int → Nat) (g h p : Int) (nproc : Nat) (schedule : List Nat)
    (res : Int) : LambdaRegion :=
  schedule.foldl (lambda_region_step hash p (lambda_params g p nproc))
    { shared := { set := [], res := res, finish := false },
      workers := (List.range nproc).map (kangaroo_start g h p (lambda_params g p nproc)) }

/-- The value that the parallel region hands to the rest of the routine: the
`res` a worker has written, when `finish` is set. -/
def lambda_published (st : LambdaRegion) : Option Int :=
  if st.shared.finish then some st.shared.res else none

/-! ## `main.c` (`list5`): the check of the factor list -/

/-- The loop of `main` that reads the pairs and accumulates `prod`:
`mpz_powm (temp, factors[i], exponents[i], p); mpz_mul (prod, prod, temp)`,
starting from `prod = 1`; the value after `k` pairs. -/
def main_prod (p : Int) (factors exponents : List Int) : Nat → Int
  | 0 => 1
  | k + 1 => main_prod p factors exponents k * mpz_powm (factors.getD k 0) (exponents.getD k 0) p

/-- The test of `main` before the call of `pohling_discrete_log`:
`if (mpz_cmp (ord_p, prod)) FATAL (...)` with `ord_p = p - 1`.  Modelled from the
spec: the macro `FATAL` of `log.h`, which is not among the sources, stops the
program ("otherwise fatal error").  The result is `true` when `main` goes on to
the call and `false` when it stops in `FATAL`. -/
def main_dispatches (p : Int) (factors exponents : List Int) (f_len : Nat) : Bool :=
  decide (p - 1 = main_prod p factors exponents f_len)

/-! ## Specification vocabulary -/

/-- The exponents of a walker are reduced modulo `q`. -/
def Walker.reduced (q : Int) (w : Walker) : Prop :=
  0 ≤ w.a ∧ w.a < q ∧ 0 ≤ w.b ∧ w.b < q

/-- The position component of `single_step`: it depends on the position only. -/
def pos_step (g h p x : Int) : Int := f_f (x % 3) x g h p

/-- The integer `g` has multiplicative order `d` modulo `p`: `d` is the least
positive exponent with `g ^ d ≡ 1 (mod p)`. -/
def HasOrder (g : Int) (d : Nat) (p : Int) : Prop :=
  0 < d ∧ g ^ d % p = 1 % p ∧ ∀ m : Nat, m < d → 0 < m → g ^ m % p ≠ 1 % p

/-- The walker's position is `g ^ a' * h ^ b'` modulo `p` for exponents `a'`,
`b'` congruent to its `a`, `b` modulo `q`. -/
def Walker.tracks (p q : Nat) (g h : Int) (w : Walker) : Prop :=
  ∃ a' b' : Nat, (w.x : ZMod p) = (g : ZMod p) ^ a' * (h : ZMod p) ^ b' ∧
    (a' : Int) ≡ w.a [ZMOD q] ∧ (b' : Int) ≡ w.b [ZMOD q]

/-- The product `factors[0] ^ exponents[0] * ... * factors[k - 1] ^ exponents[k - 1]`. -/
def ord_product (factors exponents : List Int) : Nat → Int
  | 0 => 1
  | k + 1 => ord_product factors exponents k * factors.getD k 0 ^ (exponents.getD k 0).toNat

/-- The arrays `(f, e)` of length `len` are the arrays `(f0, e0)` of length `len0`
with some entries removed, in the same order and with the same product. -/
def Compacted (f0 e0 : List Int) (len0 : Nat) (f e : List Int) (len : Nat) : Prop :=
  len ≤ f.length ∧ len ≤ e.length ∧ ord_product f e len = ord_product f0 e0 len0 ∧
  ∃ σ : Nat → Nat, (∀ s t, s < t → t < len → σ s < σ t) ∧
    ∀ t, t < len → σ t < len0 ∧ f.getD t 0 = f0.getD (σ t) 0 ∧ e.getD t 0 = e0.getD (σ t) 0

/-- The property of a point that `lenstra_ecm` relies on: a `z` above `1` is
below `n` and not coprime to `n`. -/
def Point.carries (n : Int) (P : Point) : Prop :=
  1 < P.z → P.z < n ∧ Int.gcd P.z n ≠ 1

/-- The `k`-fold sum `P + P + ... + P` (`k` terms, summed with `eliptic_add`), the
value `k * p` that the documentation of `eliptic_mul` names; the empty sum is the
point at infinity. -/
def k_fold_sum (P : Point) (E : ECurve) : Nat → Point
  | 0 => point_create
  | k + 1 => eliptic_add (k_fold_sum P E k) P E

/-- The shared variables of the parallel rho region are sound for the logarithm
`k`: every triple of the array tracks its position, and once `done` is set `res`
is the residue of `k` modulo `q`. -/
def RhoShared.sound (p q : Nat) (g h : Int) (k : Nat) (s : RhoShared) : Prop :=
  (∀ t ∈ s.array, t.tracks p q g h) ∧
    (s.done = true → 0 ≤ s.res ∧ s.res < q ∧ s.res ≡ k [ZMOD q])

/-- The parallel rho region is sound: its shared variables are, and every triple
a worker holds tracks its position. -/
def RhoRegion.sound (p q : Nat) (g h : Int) (k : Nat) (st : RhoRegion) : Prop :=
  st.shared.sound p q g h k ∧ ∀ w : Walker, some w ∈ st.workers → w.tracks p q g h

/-- The triple that a worker of the lambda routine takes to the critical
section. -/
def Kangaroo.triple (k : Kangaroo) : Pollard_triple :=
  { type := k.type, dist := k.dist, pos := k.pos }

/-- A triple of the lambda routine tracks its position, `mid` being `(a + b) / 2`:
the distance is not negative, and the position is `g ^ (mid + dist)` modulo `p`
for a tame and `h * g ^ dist` modulo `p` for a wild kangaroo. -/
def Pollard_triple.tracks (p : Nat) (g h mid : Int) (t : Pollard_triple) : Prop :=
  0 ≤ t.dist ∧
    if t.type = kangaroo_t.KANGAROO_TAME then
      (t.pos : ZMod p) = (g : ZMod p) ^ (mid + t.dist).toNat
    else (t.pos : ZMod p) = (h : ZMod p) * (g : ZMod p) ^ t.dist.toNat

/-- The shared variables of the lambda region are sound: every triple of the set
tracks its position, and once `finish` is set the residue of `res` modulo `p - 1`
is a logarithm of `h` to the base `g`. -/
def LambdaShared.sound (p : Nat) (g h mid : Int) (s : LambdaShared) : Prop :=
  (∀ t ∈ s.set, t.tracks p g h mid) ∧
    (s.finish = true → (g : ZMod p) ^ (mpz_mod s.res ((p : Int) - 1)).toNat = (h : ZMod p))

/-- The lambda region is sound: its shared variables are, and every worker
tracks its position. -/
def LambdaRegion.sound (p : Nat) (g h mid : Int) (st : LambdaRegion) : Prop :=
  st.shared.sound p g h mid ∧ ∀ k ∈ st.workers, k.triple.tracks p g h mid

/-- The relation `x ≡ g ^ a * h ^ b (mod p)` between the position of a walker and
its exponents, which are not negative. -/
def Walker.relation (p g h : Int) (w : Walker) : Prop :=
  0 ≤ w.a ∧ 0 ≤ w.b ∧ w.x ≡ g ^ w.a.toNat * h ^ w.b.toNat [ZMOD p]

/-- The worker has left its loop: it is not at the critical section, and the test
`step < order_g` fails or `finish` is set. -/
def Kangaroo.left (P : LambdaParams) (s : LambdaShared) (k : Kangaroo) : Bool :=
  !k.waiting && !(decide (k.step < P.order_g) && !s.finish)

/-- Every worker of the region has left its loop: the parallel region is over. -/
def LambdaRegion.complete (P : LambdaParams) (st : LambdaRegion) : Bool :=
  st.workers.all (fun k => k.left P st.shared)

/-- The number of moves a worker has made in its loop: two for each counted step
and one more while it is at the critical section. -/
def Kangaroo.progress (k : Kangaroo) : Int :=
  2 * k.step + (if k.waiting then 1 else 0)

/-! ## The sequential rho walk with the exception of GMP -/

/-- GMP `mpz_mod (r, n, d)` with its exception: for `d = 0` GMP raises a division
by zero and the program stops, here `none`; otherwise the value of `mpz_mod`. -/
def mpz_mod_checked (n d : Int) : Option Int :=
  if d = 0 then none else some (mpz_mod n d)

/-- The function `f_f` with the exception of `mpz_mod`. -/
def f_f_checked (subgrp x g h p : Int) : Option Int :=
  if subgrp = 0 then mpz_mod_checked (x * g) p
  else if subgrp = 1 then mpz_mod_checked (x * h) p
  else if subgrp = 2 then mpz_mod_checked (x * x) p
  else some x

/-- The function `g_f` with the exception of `mpz_mod`. -/
def g_f_checked (subgrp a q : Int) : Option Int :=
  if subgrp = 0 then mpz_mod_checked (a + 1) q
  else if subgrp = 1 then some a
  else if subgrp = 2 then mpz_mod_checked (a * 2) q
  else some a

/-- The function `h_f` with the exception of `mpz_mod`. -/
def h_f_checked (subgrp b q : Int) : Option Int :=
  if subgrp = 0 then some b
  else if subgrp = 1 then mpz_mod_checked (b + 1) q
  else if subgrp = 2 then mpz_mod_checked (b * 2) q
  else some b

/-- The routine `single_step` with the exception of `mpz_mod`: `f_f`, `g_f` and
`h_f` in this order, `none` when one of them stops the program. -/
def single_step_checked (w : Walker) (g h p q : Int) : Option Walker :=
  let subgrp := w.x % 3
  match f_f_checked subgrp w.x g h p with
  | none => none
  | some x =>
    match g_f_checked subgrp w.a q with
    | none => none
    | some a =>
      match h_f_checked subgrp w.b q with
      | none => none
      | some b => some { x := x, a := a, b := b }

/-- The body of the loop of `pollard_rho_dicsrete_log` with the exception of
`mpz_mod`: one step of the tortoise, then two of the rabbit. -/
def rho_body_checked (g h p q : Int) (s : RhoState) : Option RhoState :=
  match single_step_checked s.tortoise g h p q with
  | none => none
  | some t =>
    match single_step_checked s.rabbit g h p q with
    | none => none
    | some r1 =>
      match single_step_checked r1 g h p q with
      | none => none
      | some r2 => some { tortoise := t, rabbit := r2 }

/-- The loop of `pollard_rho_dicsrete_log` with the exception of `mpz_mod`; the
first argument is the number of values of `i` still to run. -/
def rho_loop_checked (g h p q : Int) : Nat → RhoState → Option RhoState
  | 0, s => some s
  | fuel + 1, s =>
    match rho_body_checked g h p q s with
    | none => none
    | some s1 =>
      if s1.rabbit.x = s1.tortoise.x then some s1 else rho_loop_checked g h p q fuel s1

/-- The state of `pollard_rho_dicsrete_log` when its loop ends, or `none` when a
step of the loop stops the program with a division by zero. -/
def rho_walk_checked (g h p : Int) : Option RhoState :=
  let q := mpz_div (p - 1) 2
  rho_loop_checked g h p q (p - 1).toNat (rho_start g h)

/-! ## The lambda routine with its parallel region -/

/-- The routine `pollard_lambda_parallel_dicsrete_log (g, h, p, res)` with its
parallel region, for `nproc` threads, the hash function `hash` and the workers
moving in the order `schedule`; the last argument is `res` on entry.  For
`g == h` it sets `res = 1` and returns `0`.  Otherwise the region runs, and after
it `mpz_mod (res, res, order_g)` reduces the shared `res` that the region has
left; the routine returns `0`.  The result is `(return value, res)`, and `none`
when the schedule ends before every worker has left its loop: such a schedule is
not an execution of the region.  Allocation failures are not modelled. -/
def pollard_lambda_parallel_dicsrete_log_run (hash : Int → Nat) (g h p : Int) (nproc : Nat)
    (schedule : List Nat) (res : Int) : Option (Int × Int) :=
  if g = h then some (0, 1)
  else
    let P := lambda_params g p nproc
    let st := lambda_region hash g h p nproc schedule res
    if st.complete P then some (0, mpz_mod st.shared.res P.order_g) else none

/-! ## Facts about the GMP primitives -/

theorem xgcd_loop_spec (a m : Int) :
    ∀ (fuel : Nat) (r0 r1 s0 s1 : Int), 0 ≤ r1 → r1 < fuel → 0 ≤ r0 →
      s0 * a ≡ r0 [ZMOD m] → s1 * a ≡ r1 [ZMOD m] →
      (xgcd_loop fuel r0 r1 s0 s1).1 = Int.gcd r0 r1 ∧
      (xgcd_loop fuel r0 r1 s0 s1).2 * a ≡ (xgcd_loop fuel r0 r1 s0 s1).1 [ZMOD m] := by
  intro fuel
  induction fuel with
  | zero => intro r0 r1 s0 s1 h1 h2; exfalso; simp at h2; omega
  | succ k ih =>
    intro r0 r1 s0 s1 h1 h2 h0 e0 e1
    by_cases hr : r1 = 0
    · subst hr
      simp only [xgcd_loop, if_true]
      refine ⟨?_, e0⟩
      simp [Int.gcd_zero_right, abs_of_nonneg h0]
    · have hpos : 0 < r1 := lt_of_le_of_ne h1 (Ne.symm hr)
      simp only [xgcd_loop, if_neg hr]
      have hlt : r0 % r1 < r1 := Int.emod_lt_of_pos _ hpos
      have hnn : 0 ≤ r0 % r1 := Int.emod_nonneg _ hr
      have hk : r0 % r1 < (k : Int) := by push_cast at h2; omega
      have e2 : (s0 - r0 / r1 * s1) * a ≡ r0 % r1 [ZMOD m] := by
        have h3 : r0 % r1 = r0 - r0 / r1 * r1 := by
          have := Int.emod_add_ediv r0 r1
          linarith [mul_comm r1 (r0 / r1)]
        rw [h3, sub_mul, mul_assoc]
        exact Int.ModEq.sub e0 (Int.ModEq.mul_left _ e1)
      obtain ⟨g1, g2⟩ := ih r1 (r0 % r1) s1 (s0 - r0 / r1 * s1) hnn hk h1 e1 e2
      refine ⟨?_, g2⟩
      rw [g1]
      congr 1
      lift r0 to ℕ using h0
      lift r1 to ℕ using h1
      rw [← Int.natCast_mod, Int.gcd_natCast_natCast, Int.gcd_natCast_natCast,
        Nat.gcd_comm r0 r1]
      exact (Nat.gcd_rec r1 r0).symm ▸ Nat.gcd_comm _ _

theorem natAbs_gcd_emod (op1 op2 : Int) :
    Int.gcd (op2.natAbs : Int) (op1 % (op2.natAbs : Int)) = Int.gcd op1 op2 := by
  have hd : op1 = (op2.natAbs : Int) * (op1 / (op2.natAbs : Int)) + op1 % (op2.natAbs : Int) := by
    have := Int.emod_add_ediv op1 (op2.natAbs : Int); linarith
  have hm : ∀ k : Int, k ∣ (op2.natAbs : Int) ↔ k ∣ op2 := fun k => Int.dvd_natAbs
  apply Nat.dvd_antisymm
  · apply Int.natCast_dvd_natCast.mp
    apply Int.dvd_gcd
    · have h3 := dvd_add (Dvd.dvd.mul_right (Int.gcd_dvd_left :
          ((Int.gcd (op2.natAbs : Int) (op1 % (op2.natAbs : Int)) : Nat) : Int) ∣ _)
          (op1 / (op2.natAbs : Int))) Int.gcd_dvd_right
      rw [Int.ediv_add_emod] at h3
      exact h3
    · exact (hm _).mp Int.gcd_dvd_left
  · apply Int.natCast_dvd_natCast.mp
    apply Int.dvd_gcd
    · exact (hm _).mpr Int.gcd_dvd_right
    · have h3 : op1 % (op2.natAbs : Int) = op1 - (op2.natAbs : Int) * (op1 / (op2.natAbs : Int)) := by
        linarith
      rw [h3]
      exact dvd_sub Int.gcd_dvd_left (Dvd.dvd.mul_right ((hm _).mpr Int.gcd_dvd_right) _)

theorem mpz_invert_coprime (rop op1 op2 : Int) (h2 : op2 ≠ 0) (hc : Int.gcd op1 op2 = 1) :
    (mpz_invert rop op1 op2).1 = 1 ∧ 0 ≤ (mpz_invert rop op1 op2).2 ∧
      (mpz_invert rop op1 op2).2 < |op2| ∧
      op1 * (mpz_invert rop op1 op2).2 ≡ 1 [ZMOD op2] := by
  have hm : (0 : Int) < (op2.natAbs : Int) := by
    exact_mod_cast Int.natAbs_pos.mpr h2
  have hm0 : ((op2.natAbs : Int)) ≠ 0 := ne_of_gt hm
  have habs : |op2| = (op2.natAbs : Int) := (Int.natCast_natAbs op2).symm
  have hfuel : op1 % (op2.natAbs : Int) < ((op2.natAbs + 1 : Nat) : Int) := by
    have := Int.emod_lt_of_pos op1 hm
    rw [Nat.cast_succ]; linarith
  have e0 : 0 * op1 ≡ (op2.natAbs : Int) [ZMOD (op2.natAbs : Int)] := by
    rw [zero_mul]; unfold Int.ModEq; simp
  obtain ⟨g1, g2⟩ := xgcd_loop_spec op1 (op2.natAbs : Int) (op2.natAbs + 1)
    (op2.natAbs : Int) (op1 % (op2.natAbs : Int)) 0 1
    (Int.emod_nonneg _ hm0) hfuel (le_of_lt hm) e0
    (by rw [one_mul]; exact (Int.mod_modEq _ _).symm)
  rw [natAbs_gcd_emod, hc] at g1
  have hd : (xgcd_loop (op2.natAbs + 1) (op2.natAbs : Int) (op1 % (op2.natAbs : Int)) 0 1).1 = 1 := by
    simpa using g1
  rw [hd] at g2
  have hres : mpz_invert rop op1 op2 = (1, (xgcd_loop (op2.natAbs + 1) (op2.natAbs : Int)
      (op1 % (op2.natAbs : Int)) 0 1).2 % (op2.natAbs : Int)) := by
    simp only [mpz_invert, hd, if_true]
  rw [hres]
  refine ⟨rfl, Int.emod_nonneg _ hm0, ?_, ?_⟩
  · rw [habs]; exact Int.emod_lt_of_pos _ hm
  · have h3 : op1 * ((xgcd_loop (op2.natAbs + 1) (op2.natAbs : Int)
        (op1 % (op2.natAbs : Int)) 0 1).2 % (op2.natAbs : Int)) ≡ 1 [ZMOD (op2.natAbs : Int)] := by
      refine Int.ModEq.trans ?_ g2
      rw [mul_comm]
      exact Int.ModEq.mul_right _ (Int.mod_modEq _ _)
    have h4 : op2 ∣ (op2.natAbs : Int) := by
      rw [← habs]; exact (dvd_abs op2 op2).mpr (dvd_refl _)
    exact h3.of_dvd h4

theorem mpz_invert_not_coprime (rop op1 op2 : Int) (h2 : op2 ≠ 0) (hc : Int.gcd op1 op2 ≠ 1) :
    mpz_invert rop op1 op2 = (0, rop) := by
  have hm : (0 : Int) < (op2.natAbs : Int) := by
    exact_mod_cast Int.natAbs_pos.mpr h2
  have hm0 : ((op2.natAbs : Int)) ≠ 0 := ne_of_gt hm
  have hfuel : op1 % (op2.natAbs : Int) < ((op2.natAbs + 1 : Nat) : Int) := by
    have := Int.emod_lt_of_pos op1 hm
    rw [Nat.cast_succ]; linarith
  have e0 : 0 * op1 ≡ (op2.natAbs : Int) [ZMOD (op2.natAbs : Int)] := by
    rw [zero_mul]; unfold Int.ModEq; simp
  obtain ⟨g1, -⟩ := xgcd_loop_spec op1 (op2.natAbs : Int) (op2.natAbs + 1)
    (op2.natAbs : Int) (op1 % (op2.natAbs : Int)) 0 1
    (Int.emod_nonneg _ hm0) hfuel (le_of_lt hm) e0
    (by rw [one_mul]; exact (Int.mod_modEq _ _).symm)
  rw [natAbs_gcd_emod] at g1
  have hd : (xgcd_loop (op2.natAbs + 1) (op2.natAbs : Int) (op1 % (op2.natAbs : Int)) 0 1).1 ≠ 1 := by
    rw [g1]; exact_mod_cast hc
  simp only [mpz_invert, if_neg hd]

theorem mpz_powm_of_nonneg (g e p : Int) (he : 0 ≤ e) : mpz_powm g e p = g ^ e.toNat % p := by
  unfold mpz_powm
  rw [if_neg (by omega)]

theorem mpz_powm_natCast (g : Int) (m : Nat) (p : Int) : mpz_powm g m p = g ^ m % p := by
  rw [mpz_powm_of_nonneg _ _ _ (Int.natCast_nonneg m), Int.toNat_natCast]

/-! ## Facts about `crt` -/

theorem crt_product_coprime (n : List Int) (c : Int) :
    ∀ k : Nat, (∀ i, i < k → IsCoprime (n.getD i 0) c) → IsCoprime (crt_product n k) c := by
  intro k
  induction k with
  | zero => intro _; exact isCoprime_one_left
  | succ k ih =>
    intro h
    exact (ih fun i hi => h i (Nat.lt_succ_of_lt hi)).mul_left (h k (Nat.lt_succ_self k))

theorem crt_product_dvd (n : List Int) :
    ∀ m j : Nat, j < m → n.getD j 0 ∣ crt_product n m := by
  intro m
  induction m with
  | zero => intro j hj; omega
  | succ m ih =>
    intro j hj
    rcases Nat.lt_succ_iff_lt_or_eq.mp hj with h | h
    · exact Dvd.dvd.mul_right (ih j h) _
    · subst h; exact Dvd.intro_left _ rfl

theorem crt_product_split (n : List Int) :
    ∀ m k : Nat, k < m →
      (∀ i j, i < m → j < m → i ≠ j → IsCoprime (n.getD i 0) (n.getD j 0)) →
      ∃ t : Int, crt_product n m = n.getD k 0 * t ∧ IsCoprime t (n.getD k 0) ∧
        ∀ j, j < m → j ≠ k → n.getD j 0 ∣ t := by
  intro m
  induction m with
  | zero => intro k hk; omega
  | succ m ih =>
    intro k hk hco
    have hco' : ∀ i j, i < m → j < m → i ≠ j → IsCoprime (n.getD i 0) (n.getD j 0) :=
      fun i j hi hj hij => hco i j (Nat.lt_succ_of_lt hi) (Nat.lt_succ_of_lt hj) hij
    rcases Nat.lt_succ_iff_lt_or_eq.mp hk with h | h
    · obtain ⟨t, ht, hc, hd⟩ := ih k h hco'
      refine ⟨t * n.getD m 0, ?_, ?_, ?_⟩
      · show crt_product n m * n.getD m 0 = _
        rw [ht]; ring
      · exact hc.mul_left (hco m k (Nat.lt_succ_self m) hk (by omega))
      · intro j hj hjk
        rcases Nat.lt_succ_iff_lt_or_eq.mp hj with h' | h'
        · exact Dvd.dvd.mul_right (hd j h' hjk) _
        · subst h'; exact Dvd.intro_left _ rfl
    · subst h
      refine ⟨crt_product n k, ?_, ?_, ?_⟩
      · show crt_product n k * n.getD k 0 = _
        ring
      · exact crt_product_coprime n _ k
          fun i hi => hco i k (Nat.lt_succ_of_lt hi) hk (by omega)
      · intro j hj hjk
        exact crt_product_dvd n k j (by omega)

theorem crt_acc_modEq (r n : List Int) (len : Nat)
    (hgt : ∀ i, i < len → 1 < n.getD i 0)
    (hco : ∀ i, i < len → ∀ j, j < len → i ≠ j → Int.gcd (n.getD i 0) (n.getD j 0) = 1) :
    ∀ k : Nat, k ≤ len → ∀ j, j < len →
      (crt_acc r n (crt_product n len) k).1 ≡ (if j < k then r.getD j 0 else 0)
        [ZMOD n.getD j 0] := by
  have hco' : ∀ i j, i < len → j < len → i ≠ j → IsCoprime (n.getD i 0) (n.getD j 0) :=
    fun i j hi hj hij => Int.isCoprime_iff_gcd_eq_one.mpr (hco i hi j hj hij)
  intro k
  induction k with
  | zero => intro _ j _; simp [crt_acc]
  | succ k ih =>
    intro hk j hj
    have hkl : k < len := hk
    obtain ⟨t, ht, hc, hd⟩ := crt_product_split n len k hkl hco'
    have hnk : n.getD k 0 ≠ 0 := by have := hgt k hkl; omega
    have htemp : mpz_div (crt_product n len) (n.getD k 0) = t := by
      unfold mpz_div
      rw [Int.fdiv_eq_ediv _ (by have := hgt k hkl; omega), ht]
      exact Int.mul_ediv_cancel_left _ hnk
    obtain ⟨-, -, -, hinv⟩ := mpz_invert_coprime (crt_acc r n (crt_product n len) k).2 t
      (n.getD k 0) hnk (Int.isCoprime_iff_gcd_eq_one.mp hc)
    have hstep : (crt_acc r n (crt_product n len) (k + 1)).1 =
        (crt_acc r n (crt_product n len) k).1 +
          t * (mpz_invert (crt_acc r n (crt_product n len) k).2 t (n.getD k 0)).2 *
            r.getD k 0 := by
      simp only [crt_acc, htemp]
    rw [hstep]
    have ihj := ih (Nat.le_of_lt hkl) j hj
    by_cases hjk : j = k
    · subst hjk
      simp only [Nat.lt_succ_self, if_true, lt_irrefl, if_false] at ihj ⊢
      have := (ihj.add (hinv.mul_right (r.getD j 0)))
      simpa using this
    · have hdj : n.getD j 0 ∣ t := hd j hj hjk
      have hz : t * (mpz_invert (crt_acc r n (crt_product n len) k).2 t (n.getD k 0)).2 *
            r.getD k 0 ≡ 0 [ZMOD n.getD j 0] := by
        apply Int.modEq_zero_iff_dvd.mpr
        exact Dvd.dvd.mul_right (Dvd.dvd.mul_right hdj _) _
      have hif : (if j < k + 1 then r.getD j 0 else 0) = (if j < k then r.getD j 0 else 0) := by
        by_cases h : j < k
        · simp [h, Nat.lt_succ_of_lt h]
        · have : ¬ j < k + 1 := by omega
          simp [h, this]
      rw [hif]
      simpa using ihj.add hz

theorem crt_returns_zero (r n : List Int) (len : Nat) (x : Int) (hlen : len ≠ 0) :
    (crt (some r) (some n) len x).1 = 0 := by
  simp only [crt, if_neg hlen]

theorem crt_product_pos (n : List Int) :
    ∀ k : Nat, (∀ i, i < k → 1 < n.getD i 0) → 0 < crt_product n k := by
  intro k
  induction k with
  | zero => intro _; exact Int.one_pos
  | succ k ih =>
    intro h
    exact mul_pos (ih fun i hi => h i (Nat.lt_succ_of_lt hi))
      (lt_trans Int.one_pos (h k (Nat.lt_succ_self k)))

/-- C1: for non-empty arrays of equal length `len`, moduli `n i > 1` that are
pairwise coprime and residues `0 ≤ r i < n i`, `crt` returns `0` and an `x` with
`x mod n i = r i` for every `i` and `0 ≤ x < n 0 * ... * n (len - 1)`. -/
theorem crt_correct (r n : List Int) (len : Nat) (x0 : Int)
    (hlen : 0 < len) (hr : r.length = len) (hn : n.length = len)
    (hgt : ∀ i, i < len → 1 < n.getD i 0)
    (hco : ∀ i, i < len → ∀ j, j < len → i ≠ j → Int.gcd (n.getD i 0) (n.getD j 0) = 1)
    (hres : ∀ i, i < len → 0 ≤ r.getD i 0 ∧ r.getD i 0 < n.getD i 0) :
    (crt (some r) (some n) len x0).1 = 0 ∧
      (∀ i, i < len → (crt (some r) (some n) len x0).2 % n.getD i 0 = r.getD i 0) ∧
      0 ≤ (crt (some r) (some n) len x0).2 ∧
      (crt (some r) (some n) len x0).2 < crt_product n len := by
  have hl0 : len ≠ 0 := by omega
  have hP := crt_product_pos n len hgt
  have hcrt : crt (some r) (some n) len x0 =
      (0, (crt_acc r n (crt_product n len) len).1 % crt_product n len) := by
    simp only [crt, if_neg hl0, mpz_mod]
  rw [hcrt]
  refine ⟨rfl, ?_, Int.emod_nonneg _ (ne_of_gt hP), Int.emod_lt_of_pos _ hP⟩
  intro i hi
  show (crt_acc r n (crt_product n len) len).1 % crt_product n len % n.getD i 0 = r.getD i 0
  rw [Int.emod_emod_of_dvd _ (crt_product_dvd n len i hi)]
  have h := crt_acc_modEq r n len hgt hco len (le_refl _) i hi
  simp only [hi, if_true] at h
  unfold Int.ModEq at h
  rw [h]
  exact Int.emod_eq_of_lt (hres i hi).1 (hres i hi).2

theorem crt_correct_witness :
    crt (some [2, 3, 2]) (some [3, 5, 7]) 3 0 = (0, 23) ∧
    (crt (some [2, 3, 2]) (some [3, 5, 7]) 3 0).1 = 0 ∧
      (∀ i, i < 3 → (crt (some [2, 3, 2]) (some [3, 5, 7]) 3 0).2 % [3, 5, 7].getD i 0
        = [2, 3, 2].getD i 0) ∧
      0 ≤ (crt (some [2, 3, 2]) (some [3, 5, 7]) 3 0).2 ∧
      (crt (some [2, 3, 2]) (some [3, 5, 7]) 3 0).2 < crt_product [3, 5, 7] 3 :=
  ⟨by decide, crt_correct [2, 3, 2] [3, 5, 7] 3 0 (by decide) (by decide) (by decide)
    (by decide) (by decide) (by decide)⟩

/-! ## Cycle detection -/

theorem iterate_mem_of_maps {α : Type} (f : α → α) (S : Finset α) (x0 : α)
    (hS : ∀ x ∈ S, f x ∈ S) (h0 : f x0 ∈ S) : ∀ j : Nat, f^[j + 1] x0 ∈ S := by
  intro j
  induction j with
  | zero => simpa using h0
  | succ j ih =>
    rw [Function.iterate_succ_apply']
    exact hS _ ih

theorem iterate_periodic {α : Type} (f : α → α) (x0 : α) (j L : Nat)
    (hjk : f^[j + L] x0 = f^[j] x0) :
    ∀ c n : Nat, j ≤ n → f^[n + c * L] x0 = f^[n] x0 := by
  have h1 : ∀ n : Nat, j ≤ n → f^[n + L] x0 = f^[n] x0 := by
    intro n hn
    obtain ⟨d, rfl⟩ := Nat.exists_eq_add_of_le hn
    rw [show j + d + L = d + (j + L) by ring, Function.iterate_add_apply, hjk,
      ← Function.iterate_add_apply, Nat.add_comm d j]
  intro c
  induction c with
  | zero => intro n _; simp
  | succ c ih =>
    intro n hn
    rw [show n + (c + 1) * L = (n + c * L) + L by ring, h1 _ (by omega), ih n hn]

/-- Floyd's cycle detection: a walk that enters a finite set `S` and stays in it
meets its double-speed copy at some step `i` with `1 ≤ i ≤ |S|`. -/
theorem floyd_collision {α : Type} [DecidableEq α] (f : α → α) (S : Finset α) (x0 : α)
    (hS : ∀ x ∈ S, f x ∈ S) (h0 : f x0 ∈ S) :
    ∃ i : Nat, 1 ≤ i ∧ i ≤ S.card ∧ f^[2 * i] x0 = f^[i] x0 := by
  have hmem := iterate_mem_of_maps f S x0 hS h0
  obtain ⟨j, hj, k, hk, hne, heq⟩ :=
    Finset.exists_ne_map_eq_of_card_lt_of_maps_to
      (by simp : S.card < (Finset.range (S.card + 1)).card)
      (fun j _ => hmem j)
  have key : ∀ j k : Nat, j < k → k < S.card + 1 → f^[j + 1] x0 = f^[k + 1] x0 →
      ∃ i : Nat, 1 ≤ i ∧ i ≤ S.card ∧ f^[2 * i] x0 = f^[i] x0 := by
    intro j k hjk hk heq
    obtain ⟨L, rfl⟩ := Nat.exists_eq_add_of_lt hjk
    have hper := iterate_periodic f x0 (j + 1) (L + 1)
      (by rw [show j + 1 + (L + 1) = j + L + 1 + 1 by ring]; exact heq.symm)
    have hL : 0 < L + 1 := Nat.succ_pos L
    have hdm := Nat.div_add_mod (j + (L + 1)) (L + 1)
    have hml := Nat.mod_lt (j + (L + 1)) hL
    refine ⟨(L + 1) * ((j + (L + 1)) / (L + 1)), by omega, by omega, ?_⟩
    have := hper ((j + (L + 1)) / (L + 1)) ((L + 1) * ((j + (L + 1)) / (L + 1))) (by omega)
    rw [← this]
    congr 1
    ring
  rcases Nat.lt_or_gt_of_ne hne with h | h
  · exact key j k h (Finset.mem_range.mp hk) heq
  · exact key k j h (Finset.mem_range.mp hj) heq.symm

/-! ## Facts about the sequential rho walk -/

theorem rho_loop_invariant (g h p q : Int) (P : RhoState → Prop)
    (hP : ∀ s, P s → P (rho_body g h p q s)) :
    ∀ (fuel : Nat) (s : RhoState), P s → P (rho_loop g h p q fuel s) := by
  intro fuel
  induction fuel with
  | zero => intro s hs; exact hs
  | succ k ih =>
    intro s hs
    simp only [rho_loop]
    split
    · exact hP s hs
    · exact ih _ (hP s hs)

theorem emod_three_cases (x : Int) : x % 3 = 0 ∨ x % 3 = 1 ∨ x % 3 = 2 := by omega

theorem single_step_reduced (g h p q : Int) (hq : 0 < q) (w : Walker)
    (hw : w.reduced q) : (single_step w g h p q).reduced q := by
  obtain ⟨h1, h2, h3, h4⟩ := hw
  have hq0 : q ≠ 0 := ne_of_gt hq
  have e1 := fun t : Int => Int.emod_nonneg t hq0
  have e2 := fun t : Int => Int.emod_lt_of_pos t hq
  rcases emod_three_cases w.x with hx | hx | hx <;>
    simp [Walker.reduced, single_step, g_f, h_f, hx, mpz_mod, h1, h2, h3, h4, e1, e2]

theorem mpz_div_two (q : Nat) : mpz_div (((2 * q + 1 : Nat) : Int) - 1) 2 = q := by
  unfold mpz_div
  rw [Int.fdiv_eq_ediv _ (by norm_num)]
  push_cast
  omega

theorem rho_walk_reduced (g h : Int) (q : Nat) (hq : 1 < q) :
    (rho_walk g h ((2 * q + 1 : Nat) : Int)).tortoise.reduced q ∧
      (rho_walk g h ((2 * q + 1 : Nat) : Int)).rabbit.reduced q := by
  have hq' : (0 : Int) < q := by exact_mod_cast (by omega : 0 < q)
  have h1 : (1 : Int) < q := by exact_mod_cast hq
  unfold rho_walk
  rw [mpz_div_two]
  apply rho_loop_invariant g h _ q (fun s => s.tortoise.reduced q ∧ s.rabbit.reduced q)
  · intro s hs
    exact ⟨single_step_reduced g h _ q hq' _ hs.1,
      single_step_reduced g h _ q hq' _ (single_step_reduced g h _ q hq' _ hs.2)⟩
  · simp only [Walker.reduced, rho_start]
    omega

theorem prime_gcd_of_small (q : Nat) (hq : q.Prime) (r : Int) (h0 : r ≠ 0)
    (h1 : -(q : Int) < r) (h2 : r < q) : Int.gcd r q = 1 := by
  have h3 : r.natAbs < q := by omega
  have h4 : r.natAbs ≠ 0 := by omega
  have h5 : ¬ q ∣ r.natAbs := fun hd => by
    have := Nat.le_of_dvd (Nat.pos_of_ne_zero h4) hd
    omega
  have h6 : Nat.Coprime q r.natAbs := (Nat.Prime.coprime_iff_not_dvd hq).mpr h5
  unfold Int.gcd
  rw [Int.natAbs_ofNat]
  exact h6.symm

theorem rho_outcome (p q : Nat) (hq : q.Prime) (hpq : p = 2 * q + 1) (g h x0 : Int) :
    ((pollard_rho_dicsrete_log g h p x0).1 ≠ 0 ↔
      (rho_walk g h p).tortoise.b - (rho_walk g h p).rabbit.b ≡ 0 [ZMOD q]) ∧
    (¬ (rho_walk g h p).tortoise.b - (rho_walk g h p).rabbit.b ≡ 0 [ZMOD q] →
      (pollard_rho_dicsrete_log g h p x0).1 = 0 ∧
      ∃ inv : Int, ((rho_walk g h p).tortoise.b - (rho_walk g h p).rabbit.b) * inv ≡ 1 [ZMOD q] ∧
        (pollard_rho_dicsrete_log g h p x0).2 =
          inv * ((rho_walk g h p).rabbit.a - (rho_walk g h p).tortoise.a) % q) := by
  subst hpq
  obtain ⟨⟨-, -, hb0, hb1⟩, ⟨-, -, hB0, hB1⟩⟩ := rho_walk_reduced g h q hq.one_lt
  have hq0 : ((q : Nat) : Int) ≠ 0 := by exact_mod_cast hq.ne_zero
  have hiff : (rho_walk g h ((2 * q + 1 : Nat) : Int)).tortoise.b -
      (rho_walk g h ((2 * q + 1 : Nat) : Int)).rabbit.b ≡ 0 [ZMOD q] ↔
      (rho_walk g h ((2 * q + 1 : Nat) : Int)).tortoise.b -
        (rho_walk g h ((2 * q + 1 : Nat) : Int)).rabbit.b = 0 := by
    constructor
    · intro hm
      obtain ⟨c, hc⟩ := Int.modEq_zero_iff_dvd.mp hm
      have : c = 0 := by nlinarith
      rw [hc, this, mul_zero]
    · intro h0; rw [h0]
  by_cases hr : (rho_walk g h ((2 * q + 1 : Nat) : Int)).tortoise.b -
      (rho_walk g h ((2 * q + 1 : Nat) : Int)).rabbit.b = 0
  · refine ⟨?_, fun hn => absurd (hiff.mpr hr) hn⟩
    simp only [pollard_rho_dicsrete_log, hr, if_true]
    simp [hiff.mpr hr, ERROR]
  · have hco := prime_gcd_of_small q hq _ hr (by omega) (by omega)
    obtain ⟨-, -, -, hinv⟩ := mpz_invert_coprime (rho_walk g h ((2 * q + 1 : Nat) : Int)).tortoise.x _ _ hq0 hco
    have hres : pollard_rho_dicsrete_log g h ((2 * q + 1 : Nat) : Int) x0 = (0,
        (mpz_invert (rho_walk g h ((2 * q + 1 : Nat) : Int)).tortoise.x
          ((rho_walk g h ((2 * q + 1 : Nat) : Int)).tortoise.b -
            (rho_walk g h ((2 * q + 1 : Nat) : Int)).rabbit.b) q).2 *
          ((rho_walk g h ((2 * q + 1 : Nat) : Int)).rabbit.a -
            (rho_walk g h ((2 * q + 1 : Nat) : Int)).tortoise.a) % q) := by
      simp only [pollard_rho_dicsrete_log, if_neg hr, mpz_div_two, mpz_mod]
    rw [hres]
    refine ⟨?_, fun _ => ⟨rfl, _, hinv, rfl⟩⟩
    constructor
    · intro hne; exact absurd rfl hne
    · intro hm; exact absurd (hiff.mp hm) hr


theorem rho_result_range (p q : Nat) (hq : q.Prime) (hpq : p = 2 * q + 1) (g h x0 : Int)
    (hret : (pollard_rho_dicsrete_log g h p x0).1 = 0) :
    0 ≤ (pollard_rho_dicsrete_log g h p x0).2 ∧ (pollard_rho_dicsrete_log g h p x0).2 < q := by
  obtain ⟨hiff, hval⟩ := rho_outcome p q hq hpq g h x0
  have hr : ¬ (rho_walk g h p).tortoise.b - (rho_walk g h p).rabbit.b ≡ 0 [ZMOD q] :=
    fun h0 => (hiff.mpr h0) hret
  obtain ⟨-, inv, -, hx⟩ := hval hr
  have hq0 : (0 : Int) < q := by exact_mod_cast hq.pos
  rw [hx]
  exact ⟨Int.emod_nonneg _ (ne_of_gt hq0), Int.emod_lt_of_pos _ hq0⟩

/-! ## The rho walk meets its double-speed copy -/

theorem single_step_x (g h p q : Int) (w : Walker) :
    (single_step w g h p q).x = pos_step g h p w.x := rfl

theorem iterate_single_step_x (g h p q : Int) (w : Walker) :
    ∀ i : Nat, ((fun v => single_step v g h p q)^[i] w).x = (pos_step g h p)^[i] w.x := by
  intro i
  induction i with
  | zero => rfl
  | succ i ih =>
    rw [Function.iterate_succ_apply', Function.iterate_succ_apply', single_step_x, ih]

theorem rho_body_iterate (g h p q : Int) (s : RhoState) :
    ∀ i : Nat, (rho_body g h p q)^[i] s =
      { tortoise := (fun v => single_step v g h p q)^[i] s.tortoise,
        rabbit := (fun v => single_step v g h p q)^[2 * i] s.rabbit } := by
  intro i
  induction i with
  | zero => rfl
  | succ i ih =>
    rw [Function.iterate_succ_apply', ih, show 2 * (i + 1) = (2 * i + 1) + 1 by ring,
      Function.iterate_succ_apply', Function.iterate_succ_apply',
      Function.iterate_succ_apply']
    rfl

theorem rho_loop_collides (g h p q : Int) :
    ∀ (fuel : Nat) (s : RhoState),
      (∃ i : Nat, 1 ≤ i ∧ i ≤ fuel ∧
        ((rho_body g h p q)^[i] s).rabbit.x = ((rho_body g h p q)^[i] s).tortoise.x) →
      (rho_loop g h p q fuel s).rabbit.x = (rho_loop g h p q fuel s).tortoise.x := by
  intro fuel
  induction fuel with
  | zero => rintro s ⟨i, h1, h2, -⟩; omega
  | succ k ih =>
    rintro s ⟨i, h1, h2, h3⟩
    simp only [rho_loop]
    split
    · assumption
    · rename_i hne
      apply ih
      obtain ⟨j, rfl⟩ := Nat.exists_eq_add_of_le h1
      rw [Nat.add_comm 1 j, Function.iterate_succ_apply] at h3
      rcases Nat.eq_zero_or_pos j with hj | hj
      · subst hj; exact absurd h3 hne
      · exact ⟨j, hj, by omega, h3⟩

theorem not_dvd_of_mem_range (p : Nat) (x : Int) (h1 : 1 ≤ x) (h2 : x < p) : ¬ (p : Int) ∣ x := by
  intro hd
  have := Int.le_of_dvd (by omega) hd
  omega

theorem emod_mem_Icc (p : Nat) (hp : p.Prime) (y : Int) (hy : ¬ (p : Int) ∣ y) :
    y % p ∈ Finset.Icc (1 : Int) (p - 1) := by
  have hp0 : (0 : Int) < p := by exact_mod_cast hp.pos
  have h1 := Int.emod_nonneg y (ne_of_gt hp0)
  have h2 := Int.emod_lt_of_pos y hp0
  have h3 : y % p ≠ 0 := fun h0 => hy (Int.dvd_of_emod_eq_zero h0)
  rw [Finset.mem_Icc]
  omega

theorem pos_step_mem (p : Nat) (hp : p.Prime) (g h : Int) (hg : 1 ≤ g ∧ g < p)
    (hh : 1 ≤ h ∧ h < p) (x : Int) (hx : ¬ (p : Int) ∣ x) :
    pos_step g h p x ∈ Finset.Icc (1 : Int) (p - 1) := by
  have hpi : Prime (p : Int) := Nat.prime_iff_prime_int.mp hp
  have hgd := not_dvd_of_mem_range p g hg.1 hg.2
  have hhd := not_dvd_of_mem_range p h hh.1 hh.2
  have m1 : ¬ (p : Int) ∣ x * g := fun hd => (hpi.dvd_or_dvd hd).elim hx hgd
  have m2 : ¬ (p : Int) ∣ x * h := fun hd => (hpi.dvd_or_dvd hd).elim hx hhd
  have m3 : ¬ (p : Int) ∣ x * x := fun hd => (hpi.dvd_or_dvd hd).elim hx hx
  rcases emod_three_cases x with h3 | h3 | h3
  · simpa [pos_step, f_f, h3, mpz_mod] using emod_mem_Icc p hp _ m1
  · simpa [pos_step, f_f, h3, mpz_mod] using emod_mem_Icc p hp _ m2
  · simpa [pos_step, f_f, h3, mpz_mod] using emod_mem_Icc p hp _ m3

/-- For a prime `p` and `g`, `h` in `[1, p)` the loop of the rho routine always
ends on a collision `X = x`. -/
theorem rho_walk_collides (p : Nat) (hp : p.Prime) (g h : Int) (hg : 1 ≤ g ∧ g < p)
    (hh : 1 ≤ h ∧ h < p) :
    (rho_walk g h p).rabbit.x = (rho_walk g h p).tortoise.x := by
  have hpi : Prime (p : Int) := Nat.prime_iff_prime_int.mp hp
  have hgd := not_dvd_of_mem_range p g hg.1 hg.2
  have hhd := not_dvd_of_mem_range p h hh.1 hh.2
  have h0 : ¬ (p : Int) ∣ g * h := fun hd => (hpi.dvd_or_dvd hd).elim hgd hhd
  have hmaps : ∀ x ∈ Finset.Icc (1 : Int) (p - 1), pos_step g h p x ∈ Finset.Icc (1 : Int) (p - 1) := by
    intro x hx
    rw [Finset.mem_Icc] at hx
    exact pos_step_mem p hp g h hg hh x (not_dvd_of_mem_range p x hx.1 (by omega))
  obtain ⟨i, i1, i2, i3⟩ := floyd_collision (pos_step g h p) (Finset.Icc (1 : Int) (p - 1)) (g * h)
    hmaps (pos_step_mem p hp g h hg hh _ h0)
  unfold rho_walk
  apply rho_loop_collides
  refine ⟨i, i1, ?_, ?_⟩
  · rw [Int.card_Icc] at i2
    have : ((p : Int) - 1 + 1 - 1) = (p : Int) - 1 := by ring
    rw [this] at i2
    exact i2
  · rw [rho_body_iterate]
    simp only [iterate_single_step_x]
    exact i3

/-! ## The algebra of a collision -/

theorem single_step_tracks (p q : Nat) (g h : Int) (w : Walker) (hw : w.tracks p q g h) :
    (single_step w g h p q).tracks p q g h := by
  obtain ⟨a', b', hx, ha, hb⟩ := hw
  rcases emod_three_cases w.x with h3 | h3 | h3
  · refine ⟨a' + 1, b', ?_, ?_, ?_⟩
    · simp only [single_step, f_f, h3, if_true, mpz_mod]
      rw [ZMod.intCast_mod, Int.cast_mul, hx]; ring
    · simp only [single_step, g_f, h3, if_true, mpz_mod]
      push_cast
      exact (ha.add_right 1).trans (Int.mod_modEq _ _).symm
    · simpa [single_step, h_f, h3] using hb
  · refine ⟨a', b' + 1, ?_, ?_, ?_⟩
    · simp only [single_step, f_f, h3, mpz_mod]
      norm_num
      rw [hx]; ring
    · simpa [single_step, g_f, h3] using ha
    · simp only [single_step, h_f, h3, mpz_mod]
      norm_num
      exact (hb.add_right 1).trans (Int.mod_modEq _ _).symm
  · refine ⟨a' * 2, b' * 2, ?_, ?_, ?_⟩
    · simp only [single_step, f_f, h3, mpz_mod]
      norm_num
      rw [hx]; ring
    · simp only [single_step, g_f, h3, mpz_mod]
      norm_num
      exact (ha.mul_right 2).trans (Int.mod_modEq _ _).symm
    · simp only [single_step, h_f, h3, mpz_mod]
      norm_num
      exact (hb.mul_right 2).trans (Int.mod_modEq _ _).symm

theorem rho_walk_tracks (p q : Nat) (hpq : p = 2 * q + 1) (g h : Int) :
    (rho_walk g h p).tortoise.tracks p q g h ∧ (rho_walk g h p).rabbit.tracks p q g h := by
  subst hpq
  unfold rho_walk
  rw [mpz_div_two]
  apply rho_loop_invariant g h _ q
    (fun s => s.tortoise.tracks (2 * q + 1) q g h ∧ s.rabbit.tracks (2 * q + 1) q g h)
  · intro s hs
    exact ⟨single_step_tracks _ q g h _ hs.1,
      single_step_tracks _ q g h _ (single_step_tracks _ q g h _ hs.2)⟩
  · have : Walker.tracks (2 * q + 1) q g h { x := g * h, a := 1, b := 1 } :=
      ⟨1, 1, by simp, by simp, by simp⟩
    exact ⟨this, this⟩

theorem zmod_pow_eq_imp_modEq (p : Nat) [Fact p.Prime] (G : ZMod p) (hG : G ≠ 0) (n m : Nat)
    (h : G ^ n = G ^ m) : n ≡ m [MOD orderOf G] := by
  have hu : (Units.mk0 G hG) ^ n = (Units.mk0 G hG) ^ m := by
    apply Units.ext
    simpa using h
  have := pow_eq_pow_iff_modEq.mp hu
  rw [← orderOf_units] at this
  simpa using this

/-- The value returned by the rho routine is congruent modulo `q` to every
logarithm `k` of `h`, when the order of `g` is a multiple of `q`. -/
theorem rho_result_modEq (p q : Nat) (hp : p.Prime) (hq : q.Prime) (hpq : p = 2 * q + 1)
    (g h x0 : Int) (hg : 1 ≤ g ∧ g < p) (hh : 1 ≤ h ∧ h < p) (k : Nat)
    (hk : (h : ZMod p) = (g : ZMod p) ^ k) (hord : q ∣ orderOf (g : ZMod p))
    (hret : (pollard_rho_dicsrete_log g h p x0).1 = 0) :
    (pollard_rho_dicsrete_log g h p x0).2 ≡ k [ZMOD q] ∧
      0 ≤ (pollard_rho_dicsrete_log g h p x0).2 ∧ (pollard_rho_dicsrete_log g h p x0).2 < q := by
  haveI : Fact p.Prime := ⟨hp⟩
  have hcoll := rho_walk_collides p hp g h hg hh
  obtain ⟨⟨a', b', tx, ta, tb⟩, ⟨A', B', rx, ra, rb⟩⟩ := rho_walk_tracks p q hpq g h
  have hG : (g : ZMod p) ≠ 0 := by
    rw [Ne, ZMod.intCast_zmod_eq_zero_iff_dvd]
    exact not_dvd_of_mem_range p g hg.1 hg.2
  -- the collision in exponents
  have hpow : (g : ZMod p) ^ (a' + k * b') = (g : ZMod p) ^ (A' + k * B') := by
    have : ((rho_walk g h p).tortoise.x : ZMod p) = ((rho_walk g h p).rabbit.x : ZMod p) := by
      rw [hcoll]
    rw [tx, rx, hk] at this
    rw [pow_add, pow_add, pow_mul, pow_mul]
    exact this
  have hmod : (a' + k * b' : Nat) ≡ (A' + k * B' : Nat) [MOD q] :=
    (zmod_pow_eq_imp_modEq p _ hG _ _ hpow).of_dvd hord
  have hmodz : (a' : Int) + k * b' ≡ A' + k * B' [ZMOD q] := by
    have := Int.natCast_modEq_iff.mpr hmod
    push_cast at this
    exact this
  have hz : (rho_walk g h p).tortoise.a + k * (rho_walk g h p).tortoise.b ≡
      (rho_walk g h p).rabbit.a + k * (rho_walk g h p).rabbit.b [ZMOD q] :=
    ((ta.add (tb.mul_left k)).symm.trans hmodz).trans (ra.add (rb.mul_left k))
  have hkr : (k : Int) * ((rho_walk g h p).tortoise.b - (rho_walk g h p).rabbit.b) ≡
      (rho_walk g h p).rabbit.a - (rho_walk g h p).tortoise.a [ZMOD q] := by
    have h1 := (hz.sub_right ((rho_walk g h p).tortoise.a + k * (rho_walk g h p).rabbit.b))
    have e1 : (rho_walk g h p).tortoise.a + k * (rho_walk g h p).tortoise.b -
        ((rho_walk g h p).tortoise.a + k * (rho_walk g h p).rabbit.b) =
        (k : Int) * ((rho_walk g h p).tortoise.b - (rho_walk g h p).rabbit.b) := by ring
    have e2 : (rho_walk g h p).rabbit.a + k * (rho_walk g h p).rabbit.b -
        ((rho_walk g h p).tortoise.a + k * (rho_walk g h p).rabbit.b) =
        (rho_walk g h p).rabbit.a - (rho_walk g h p).tortoise.a := by ring
    rw [e1, e2] at h1
    exact h1
  -- the returned value
  obtain ⟨hiff, hval⟩ := rho_outcome p q hq hpq g h x0
  have hr : ¬ (rho_walk g h p).tortoise.b - (rho_walk g h p).rabbit.b ≡ 0 [ZMOD q] := by
    intro h0
    exact (hiff.mpr h0) hret
  obtain ⟨-, inv, hinv, hx⟩ := hval hr
  have hq0 : (0 : Int) < q := by exact_mod_cast hq.pos
  refine ⟨?_, ?_, ?_⟩
  · rw [hx]
    refine (Int.mod_modEq _ _).trans ?_
    have h2 := (hkr.mul_left inv).symm
    refine h2.trans ?_
    have h3 := hinv.mul_left (k : Int)
    rw [mul_one] at h3
    refine Int.ModEq.trans ?_ h3
    rw [show inv * ((k : Int) * ((rho_walk g h p).tortoise.b - (rho_walk g h p).rabbit.b)) =
      (k : Int) * (((rho_walk g h p).tortoise.b - (rho_walk g h p).rabbit.b) * inv) by ring]
  · rw [hx]; exact Int.emod_nonneg _ (ne_of_gt hq0)
  · rw [hx]; exact Int.emod_lt_of_pos _ hq0

/-! ## Orders modulo a prime -/

theorem pow_emod_eq_iff (p : Nat) (g : Int) (m : Nat) (c : Int) :
    g ^ m % p = c % p ↔ (g : ZMod p) ^ m = (c : ZMod p) := by
  rw [← Int.cast_pow, ZMod.intCast_eq_intCast_iff]
  rfl

theorem hasOrder_iff_orderOf (p : Nat) (hp : p.Prime) (g : Int) (d : Nat) (hd : 0 < d) :
    HasOrder g d p ↔ orderOf (g : ZMod p) = d := by
  haveI : Fact p.Prime := ⟨hp⟩
  have h1 : ∀ m : Nat, g ^ m % p = 1 % p ↔ (g : ZMod p) ^ m = 1 := by
    intro m
    rw [pow_emod_eq_iff, Int.cast_one]
  constructor
  · rintro ⟨-, hpow, hmin⟩
    have hdvd : orderOf (g : ZMod p) ∣ d := orderOf_dvd_of_pow_eq_one ((h1 d).mp hpow)
    have hpos : 0 < orderOf (g : ZMod p) := Nat.pos_of_dvd_of_pos hdvd hd
    have hle := Nat.le_of_dvd hd hdvd
    rcases Nat.lt_or_eq_of_le hle with hlt | heq
    · exact absurd ((h1 _).mpr (pow_orderOf_eq_one _)) (hmin _ hlt hpos)
    · exact heq
  · intro ho
    refine ⟨hd, (h1 d).mpr (ho ▸ pow_orderOf_eq_one _), ?_⟩
    intro m hmd hm hpow
    have := Nat.le_of_dvd hm (orderOf_dvd_of_pow_eq_one ((h1 m).mp hpow))
    omega

theorem intCast_eq_of_range (p : Nat) (a b : Int) (ha : 0 ≤ a ∧ a < p) (hb : 0 ≤ b ∧ b < p)
    (h : (a : ZMod p) = (b : ZMod p)) : a = b := by
  have := (ZMod.intCast_eq_intCast_iff a b p).mp h
  unfold Int.ModEq at this
  rwa [Int.emod_eq_of_lt ha.1 ha.2, Int.emod_eq_of_lt hb.1 hb.2] at this

theorem safe_prime_order (p q : Nat) (hp : p.Prime) (hq : q.Prime) (hpq : p = 2 * q + 1)
    (g : Int) (hg : 1 ≤ g ∧ g < p) (hne1 : g ≠ 1) (hne : g ≠ p - 1 ∨ q = 2) :
    q ∣ orderOf (g : ZMod p) := by
  haveI : Fact p.Prime := ⟨hp⟩
  have hG : (g : ZMod p) ≠ 0 := by
    rw [Ne, ZMod.intCast_zmod_eq_zero_iff_dvd]
    exact not_dvd_of_mem_range p g hg.1 hg.2
  have hp2 : 2 < p := by have := hq.two_le; omega
  have hG1 : (g : ZMod p) ≠ 1 := by
    intro h1
    apply hne1
    apply intCast_eq_of_range p g 1 ⟨by omega, hg.2⟩ ⟨by omega, by exact_mod_cast (by omega : 1 < p)⟩
    simpa using h1
  have hd : orderOf (g : ZMod p) ∣ q * 2 := by
    apply orderOf_dvd_of_pow_eq_one
    have := ZMod.pow_card_sub_one_eq_one hG
    rwa [show p - 1 = q * 2 by omega] at this
  by_contra hnd
  have hco : Nat.Coprime (orderOf (g : ZMod p)) q :=
    ((Nat.Prime.coprime_iff_not_dvd hq).mpr hnd).symm
  have hd2 : orderOf (g : ZMod p) ∣ 2 := hco.dvd_of_dvd_mul_left hd
  have hsq : (g : ZMod p) ^ 2 = 1 := orderOf_dvd_iff_pow_eq_one.mp hd2
  rcases sq_eq_one_iff.mp hsq with h1 | h1
  · exact hG1 h1
  · have hgp : g = p - 1 := by
      apply intCast_eq_of_range p g (p - 1) ⟨by omega, hg.2⟩ ⟨by omega, by omega⟩
      rw [h1]; simp
    rcases hne with h2 | h2
    · exact h2 hgp
    · apply hnd
      rw [h2]
      have : orderOf (g : ZMod p) = 2 := by
        have hpr : Fact (Nat.Prime 2) := ⟨Nat.prime_two⟩
        exact orderOf_eq_prime hsq hG1
      rw [this]

/-! ## Sequential rho: correctness of a returned logarithm -/

theorem rho_solves (p q : Nat) (hp : p.Prime) (hq : q.Prime) (hpq : p = 2 * q + 1)
    (g h x0 : Int) (hg : 1 ≤ g ∧ g < p) (hh : 1 ≤ h ∧ h < p) (k : Nat)
    (hk : h = g ^ k % p) (hord : q ∣ orderOf (g : ZMod p))
    (hret : (pollard_rho_dicsrete_log g h p x0).1 = 0) :
    (pollard_rho_dicsrete_log g h p x0).2 ≡ k [ZMOD q] ∧
      0 ≤ (pollard_rho_dicsrete_log g h p x0).2 ∧ (pollard_rho_dicsrete_log g h p x0).2 < q := by
  apply rho_result_modEq p q hp hq hpq g h x0 hg hh k _ hord hret
  rw [hk, ZMod.intCast_mod, Int.cast_pow]

/-- C3: for a safe prime `p = 2 q + 1`, `g` of multiplicative order `q` modulo
`p` and `h` in the subgroup generated by `g` (`1 ≤ g, h < p`), if the sequential
rho routine returns `0` then its output `x` satisfies `0 ≤ x < q` and
`g ^ x mod p = h`. -/
theorem rho_solves_dlog (p q : Nat) (hp : p.Prime) (hq : q.Prime) (hpq : p = 2 * q + 1)
    (g h x0 : Int) (hg : 1 ≤ g ∧ g < p) (hh : 1 ≤ h ∧ h < p) (hord : HasOrder g q p)
    (hsub : ∃ k : Nat, h = g ^ k % p)
    (hret : (pollard_rho_dicsrete_log g h p x0).1 = 0) :
    0 ≤ (pollard_rho_dicsrete_log g h p x0).2 ∧ (pollard_rho_dicsrete_log g h p x0).2 < q ∧
      mpz_powm g (pollard_rho_dicsrete_log g h p x0).2 p = h := by
  haveI : Fact p.Prime := ⟨hp⟩
  obtain ⟨k, hk⟩ := hsub
  have ho : orderOf (g : ZMod p) = q := (hasOrder_iff_orderOf p hp g q hq.pos).mp hord
  obtain ⟨hm, h0, h1⟩ := rho_solves p q hp hq hpq g h x0 hg hh k hk (ho ▸ dvd_refl _) hret
  refine ⟨h0, h1, ?_⟩
  have hnat : (pollard_rho_dicsrete_log g h p x0).2.toNat ≡ k [MOD q] := by
    apply Int.natCast_modEq_iff.mp
    rw [Int.toNat_of_nonneg h0]
    exact hm
  have hpow : (g : ZMod p) ^ (pollard_rho_dicsrete_log g h p x0).2.toNat = (g : ZMod p) ^ k := by
    rw [← pow_mod_orderOf, ← pow_mod_orderOf _ k, ho]
    exact congrArg _ hnat
  have e : g ^ (pollard_rho_dicsrete_log g h p x0).2.toNat % p = g ^ k % p :=
    (pow_emod_eq_iff p g _ (g ^ k)).mpr (by rw [hpow, Int.cast_pow])
  rw [mpz_powm_of_nonneg _ _ _ h0, e]
  exact hk.symm

/-! ## Facts about `calculate_ord` -/

theorem getD_set_self (l : List Int) (k : Nat) (v : Int) (hk : k < l.length) :
    (l.set k v).getD k 0 = v := by
  simp [List.getD_eq_getElem?_getD, List.getElem?_set_self, hk]

theorem getD_set_ne (l : List Int) (k i : Nat) (v : Int) (hik : k ≠ i) :
    (l.set k v).getD i 0 = l.getD i 0 := by
  simp [List.getD_eq_getElem?_getD, List.getElem?_set_ne hik]

theorem mpz_powm_eq_one_iff (p : Nat) (hp1 : 1 < p) (g : Int) (m : Nat) :
    mpz_powm g m p = 1 ↔ (g : ZMod p) ^ m = 1 := by
  have h1 : (1 : Int) % p = 1 := Int.emod_eq_of_lt (by norm_num) (by exact_mod_cast hp1)
  rw [mpz_powm_natCast]
  have := pow_emod_eq_iff p g m 1
  rw [h1, Int.cast_one] at this
  exact this

theorem mpz_div_natCast (n q : Nat) : mpz_div n q = ((n / q : Nat) : Int) := by
  unfold mpz_div
  rw [Int.fdiv_eq_ediv _ (Int.natCast_nonneg q), Int.natCast_div]

theorem calculate_ord_inner_spec (p : Nat) (hp1 : 1 < p) (g : Int) (q : Nat) (hq : 1 < q) :
    ∀ (j : Nat) (e : Int) (n : Nat), 0 < n → q ^ j ∣ n → (g : ZMod p) ^ n = 1 →
      ∃ c m : Nat, c ≤ j ∧ calculate_ord_inner g p q j e n = (e - c, (m : Int)) ∧
        m * q ^ c = n ∧ 0 < m ∧ (g : ZMod p) ^ m = 1 ∧
        (c = j ∨ (g : ZMod p) ^ (m / q) ≠ 1) := by
  intro j
  induction j with
  | zero =>
    intro e n hn _ hG
    exact ⟨0, n, le_refl _, by simp [calculate_ord_inner], by simp, hn, hG, Or.inl rfl⟩
  | succ j ih =>
    intro e n hn hd hG
    have hq0 : 0 < q := by omega
    by_cases ht : (g : ZMod p) ^ (n / q) = 1
    · have hqn : q ∣ n := Dvd.dvd.trans (dvd_pow_self q (Nat.succ_ne_zero j)) hd
      have hd' : q ^ j ∣ n / q := by
        apply Nat.dvd_div_of_mul_dvd
        rw [mul_comm, ← pow_succ]; exact hd
      have hn' : 0 < n / q := Nat.div_pos (Nat.le_of_dvd hn hqn) hq0
      obtain ⟨c, m, hc, hres, hm, hm0, hGm, hor⟩ := ih (e - 1) (n / q) hn' hd' ht
      refine ⟨c + 1, m, by omega, ?_, ?_, hm0, hGm, ?_⟩
      · simp only [calculate_ord_inner, mpz_div_natCast, (mpz_powm_eq_one_iff p hp1 g _).mpr ht,
          if_true, hres]
        congr 1
        push_cast; ring
      · rw [pow_succ, ← mul_assoc, hm, Nat.div_mul_cancel hqn]
      · rcases hor with h | h
        · exact Or.inl (by omega)
        · exact Or.inr h
    · refine ⟨0, n, by omega, ?_, by simp, hn, hG, Or.inr ht⟩
      have : ¬ mpz_powm g ((n / q : Nat) : Int) p = 1 :=
        fun h => ht ((mpz_powm_eq_one_iff p hp1 g _).mp h)
      simp only [calculate_ord_inner, mpz_div_natCast, this, if_false]
      simp

theorem ord_product_dvd (fs es : List Int) :
    ∀ m i : Nat, i < m → fs.getD i 0 ^ (es.getD i 0).toNat ∣ ord_product fs es m := by
  intro m
  induction m with
  | zero => intro i hi; omega
  | succ m ih =>
    intro i hi
    rcases Nat.lt_succ_iff_lt_or_eq.mp hi with h | h
    · exact Dvd.dvd.mul_right (ih i h) _
    · subst h; exact Dvd.intro_left _ rfl

theorem ord_product_set (fs es : List Int) (k : Nat) (v : Int) (hk : k < es.length)
    (hv0 : 0 ≤ v) (hv : v ≤ es.getD k 0) :
    ∀ m : Nat, ord_product fs (es.set k v) m *
        (if k < m then fs.getD k 0 ^ (es.getD k 0 - v).toNat else 1) =
      ord_product fs es m := by
  intro m
  induction m with
  | zero => simp [ord_product]
  | succ m ih =>
    simp only [ord_product]
    by_cases hkm : k < m
    · have hne : k ≠ m := by omega
      rw [getD_set_ne _ _ _ _ hne, if_pos (by omega)]
      rw [if_pos hkm] at ih
      rw [← ih]; ring
    · by_cases hkm' : k = m
      · subst hkm'
        rw [if_neg (lt_irrefl k)] at ih
        rw [mul_one] at ih
        rw [getD_set_self _ _ _ hk, if_pos (Nat.lt_succ_self k), ih, mul_assoc, ← pow_add]
        congr 2
        omega
      · have hne : k ≠ m := hkm'
        rw [getD_set_ne _ _ _ _ hne, if_neg (by omega)]
        rw [if_neg hkm] at ih
        rw [mul_one] at ih ⊢
        rw [ih]

theorem mpz_get_ui_natCast (j : Nat) (hj : (j : Int) < 2 ^ 64) : mpz_get_ui j = j := by
  unfold mpz_get_ui
  rw [Int.natAbs_ofNat]
  exact Nat.mod_eq_of_lt (by exact_mod_cast hj)

theorem prime_dvd_ord_product (fs es : List Int) (r : Nat) (hr : r.Prime) :
    ∀ m : Nat, (r : Int) ∣ ord_product fs es m →
      ∃ i, i < m ∧ (r : Int) ∣ fs.getD i 0 ^ (es.getD i 0).toNat := by
  have hri : Prime (r : Int) := Nat.prime_iff_prime_int.mp hr
  intro m
  induction m with
  | zero =>
    intro hd
    have h1 : r ∣ 1 := Int.natCast_dvd_natCast.mp (by simpa [ord_product] using hd)
    exact absurd (Nat.dvd_one.mp h1) hr.ne_one
  | succ m ih =>
    intro hd
    rcases hri.dvd_or_dvd hd with h | h
    · obtain ⟨i, hi, hdi⟩ := ih h
      exact ⟨i, Nat.lt_succ_of_lt hi, hdi⟩
    · exact ⟨m, Nat.lt_succ_self m, h⟩

theorem calculate_ord_loop_spec (p : Nat) (hp : p.Prime) (g : Int) (hg0 : ¬ (p : Int) ∣ g)
    (factors exponents : List Int) (len : Nat) (hel : exponents.length = len)
    (hprime : ∀ i, i < len → ∃ q : Nat, q.Prime ∧ factors.getD i 0 = q)
    (hexp : ∀ i, i < len → 1 ≤ exponents.getD i 0)
    (hsmall : ∀ i, i < len → exponents.getD i 0 < 2 ^ 64)
    (hprod : ord_product factors exponents len = p - 1) :
    ∀ k : Nat, k ≤ len →
      (calculate_ord_loop g p factors exponents (p - 1) k).1.length = len ∧
      (∃ n : Nat, 0 < n ∧ (calculate_ord_loop g p factors exponents (p - 1) k).2 = n ∧
        (g : ZMod p) ^ n = 1 ∧
        ∀ i, i < k → 1 ≤ (calculate_ord_loop g p factors exponents (p - 1) k).1.getD i 0 →
          (g : ZMod p) ^ (n / (factors.getD i 0).toNat) ≠ 1) ∧
      (calculate_ord_loop g p factors exponents (p - 1) k).2 =
        ord_product factors (calculate_ord_loop g p factors exponents (p - 1) k).1 len ∧
      (∀ i, i < len → 0 ≤ (calculate_ord_loop g p factors exponents (p - 1) k).1.getD i 0 ∧
        (calculate_ord_loop g p factors exponents (p - 1) k).1.getD i 0 ≤ exponents.getD i 0) ∧
      (∀ i, k ≤ i → i < len →
        (calculate_ord_loop g p factors exponents (p - 1) k).1.getD i 0 = exponents.getD i 0) := by
  haveI : Fact p.Prime := ⟨hp⟩
  have hG : (g : ZMod p) ≠ 0 := by
    rw [Ne, ZMod.intCast_zmod_eq_zero_iff_dvd]; exact hg0
  intro k
  induction k with
  | zero =>
    intro _
    refine ⟨hel, ⟨p - 1, ?_, ?_, ZMod.pow_card_sub_one_eq_one hG, fun i hi => by omega⟩,
      hprod.symm, fun i hi => ⟨le_trans (by norm_num) (hexp i hi), le_refl _⟩,
      fun i _ _ => rfl⟩
    · have := hp.two_le; omega
    · show ((p : Int) - 1) = ((p - 1 : Nat) : Int)
      have := hp.two_le; omega
  | succ k ih =>
    intro hk
    have hkl : k < len := hk
    obtain ⟨hlen, ⟨n, hn, hst2, hGn, hmin⟩, hprodk, hbnd, hunt⟩ := ih (Nat.le_of_lt hkl)
    obtain ⟨q, hq, hFq⟩ := hprime k hkl
    have hEk : (calculate_ord_loop g p factors exponents (p - 1) k).1.getD k 0 =
        exponents.getD k 0 := hunt k (le_refl _) hkl
    obtain ⟨j, hj⟩ : ∃ j : Nat, exponents.getD k 0 = j :=
      ⟨(exponents.getD k 0).toNat, (Int.toNat_of_nonneg (by have := hexp k hkl; omega)).symm⟩
    have hj64 : (j : Int) < 2 ^ 64 := by rw [← hj]; exact hsmall k hkl
    have hqj : q ^ j ∣ n := by
      have := ord_product_dvd factors (calculate_ord_loop g p factors exponents (p - 1) k).1 len k hkl
      rw [← hprodk, hst2, hEk, hj, hFq, Int.toNat_natCast] at this
      exact Int.natCast_dvd_natCast.mp (by push_cast; exact this)
    obtain ⟨c, m, hc, hres, hm, hm0, hGm, hor⟩ :=
      calculate_ord_inner_spec p hp.one_lt g q hq.one_lt j (j : Int) n hn hqj hGn
    have hstep : calculate_ord_loop g p factors exponents (p - 1) (k + 1) =
        ((calculate_ord_loop g p factors exponents (p - 1) k).1.set k ((j : Int) - c), (m : Int)) := by
      simp only [calculate_ord_loop, hEk, hj, hFq, hst2, mpz_get_ui_natCast j hj64, hres]
    rw [hstep]
    have hklen : k < (calculate_ord_loop g p factors exponents (p - 1) k).1.length := by
      rw [hlen]; exact hkl
    have hq0 : (q : Int) ^ c ≠ 0 := pow_ne_zero _ (by exact_mod_cast hq.ne_zero)
    have hprod' : (m : Int) = ord_product factors
        ((calculate_ord_loop g p factors exponents (p - 1) k).1.set k ((j : Int) - c)) len := by
      have h1 := ord_product_set factors (calculate_ord_loop g p factors exponents (p - 1) k).1 k
        ((j : Int) - c) hklen (by omega) (by rw [hEk, hj]; omega) len
      rw [if_pos hkl, ← hprodk, hst2, hEk, hj, hFq] at h1
      have h2 : ((j : Int) - ((j : Int) - c)).toNat = c := by
        rw [show (j : Int) - ((j : Int) - c) = (c : Int) by ring, Int.toNat_natCast]
      rw [h2] at h1
      have h3 : (n : Int) = (m : Int) * (q : Int) ^ c := by
        rw [← hm]; push_cast; ring
      rw [h3] at h1
      exact (mul_right_cancel₀ hq0 h1).symm
    refine ⟨by simp [hlen], ⟨m, hm0, rfl, hGm, ?_⟩, hprod', ?_, ?_⟩
    · intro i hi hge
      rcases Nat.lt_succ_iff_lt_or_eq.mp hi with hik | hik
      · have hne : k ≠ i := by omega
        simp only [getD_set_ne _ _ _ _ hne] at hge
        obtain ⟨qi, hqi, hFqi⟩ := hprime i (by omega)
        have hi1 := hmin i hik hge
        rw [hFqi, Int.toNat_natCast] at hi1 ⊢
        intro hcon
        apply hi1
        have hqim : qi ∣ m := by
          have := ord_product_dvd factors
            ((calculate_ord_loop g p factors exponents (p - 1) k).1.set k ((j : Int) - c)) len i
            (by omega)
          rw [← hprod', getD_set_ne _ _ _ _ hne, hFqi] at this
          have h5 : (qi : Int) ∣ (qi : Int) ^
              ((calculate_ord_loop g p factors exponents (p - 1) k).1.getD i 0).toNat :=
            dvd_pow_self _ (by omega)
          exact Int.natCast_dvd_natCast.mp (h5.trans this)
        obtain ⟨t, ht⟩ := hqim
        have hqi0 : 0 < qi := hqi.pos
        have e1 : m / qi = t := by rw [ht]; exact Nat.mul_div_cancel_left t hqi0
        have e2 : n / qi = t * q ^ c := by
          rw [← hm, ht, mul_assoc]; exact Nat.mul_div_cancel_left _ hqi0
        rw [e1] at hcon
        rw [e2, pow_mul, hcon, one_pow]
      · subst hik
        simp only [getD_set_self _ _ _ hklen] at hge
        rw [hFq, Int.toNat_natCast]
        rcases hor with h | h
        · omega
        · exact h
    · intro i hi
      by_cases hik : k = i
      · subst hik
        rw [getD_set_self _ _ _ hklen, hj]
        omega
      · rw [getD_set_ne _ _ _ _ hik]
        exact hbnd i hi
    · intro i hki hi
      have hne : k ≠ i := by omega
      rw [getD_set_ne _ _ _ _ hne]
      exact hunt i (by omega) hi

theorem exponents_small (p : Nat) (hp : p.Prime) (hbits : Nat.log2 p < 2 ^ 64)
    (factors exponents : List Int) (len : Nat)
    (hprime : ∀ i, i < len → ∃ q : Nat, q.Prime ∧ factors.getD i 0 = q)
    (hprod : ord_product factors exponents len = p - 1) :
    ∀ i, i < len → exponents.getD i 0 < 2 ^ 64 := by
  intro i hi
  obtain ⟨q, hq, hFq⟩ := hprime i hi
  by_contra hcon
  have hE : (2 : Int) ^ 64 ≤ exponents.getD i 0 := not_lt.mp hcon
  have hd := ord_product_dvd factors exponents len i hi
  rw [hprod, hFq] at hd
  have hp1 : ((p : Int) - 1) = ((p - 1 : Nat) : Int) := by have := hp.two_le; omega
  rw [hp1] at hd
  have hd' : q ^ (exponents.getD i 0).toNat ∣ p - 1 :=
    Int.natCast_dvd_natCast.mp (by push_cast; exact hd)
  have hle := Nat.le_of_dvd (by have := hp.two_le; omega) hd'
  have h64 : 2 ^ 64 ≤ (exponents.getD i 0).toNat := by omega
  have h2 : 2 ^ (exponents.getD i 0).toNat ≤ q ^ (exponents.getD i 0).toNat :=
    Nat.pow_le_pow_left hq.two_le _
  have h3 : 2 ^ (exponents.getD i 0).toNat ≤ p := h2.trans (hle.trans (Nat.sub_le p 1))
  have h4 := (Nat.le_log2 hp.ne_zero).mpr h3
  omega

/-- After `calculate_ord`, started at `ord = p - 1`, `ord` is the order of `g` in
the integers modulo `p`, the exponents are the prime factorization of `ord`, and
they lie between `0` and their start values. -/
theorem calculate_ord_spec (p : Nat) (hp : p.Prime) (g : Int) (hg0 : ¬ (p : Int) ∣ g)
    (hg1 : ¬ (p : Int) ∣ g - 1)
    (factors exponents : List Int) (len : Nat) (hel : exponents.length = len)
    (hprime : ∀ i, i < len → ∃ q : Nat, q.Prime ∧ factors.getD i 0 = q)
    (hexp : ∀ i, i < len → 1 ≤ exponents.getD i 0)
    (hsmall : ∀ i, i < len → exponents.getD i 0 < 2 ^ 64)
    (hprod : ord_product factors exponents len = p - 1) :
    (calculate_ord g p factors exponents len (p - 1)).1.length = len ∧
    (∃ n : Nat, 0 < n ∧ (calculate_ord g p factors exponents len (p - 1)).2 = n ∧
      orderOf (g : ZMod p) = n) ∧
    (calculate_ord g p factors exponents len (p - 1)).2 =
      ord_product factors (calculate_ord g p factors exponents len (p - 1)).1 len ∧
    (∀ i, i < len → 0 ≤ (calculate_ord g p factors exponents len (p - 1)).1.getD i 0 ∧
      (calculate_ord g p factors exponents len (p - 1)).1.getD i 0 ≤ exponents.getD i 0) := by
  obtain ⟨hlen, ⟨n, hn, hst2, hGn, hmin⟩, hprodk, hbnd, -⟩ :=
    calculate_ord_loop_spec p hp g hg0 factors exponents len hel hprime hexp hsmall hprod len
      (le_refl _)
  have hG1 : (g : ZMod p) ≠ 1 := by
    intro h1
    apply hg1
    rw [← ZMod.intCast_zmod_eq_zero_iff_dvd]
    simp [h1]
  have hn1 : (calculate_ord_loop g p factors exponents (p - 1) len).2 ≠ 1 := by
    rw [hst2]
    intro h1
    have : n = 1 := by exact_mod_cast h1
    rw [this, pow_one] at hGn
    exact hG1 hGn
  have hco : calculate_ord g p factors exponents len (p - 1) =
      calculate_ord_loop g p factors exponents (p - 1) len := by
    simp only [calculate_ord, if_neg hn1]
  rw [hco]
  refine ⟨hlen, ⟨n, hn, hst2, ?_⟩, hprodk, hbnd⟩
  apply orderOf_eq_of_pow_and_pow_div_prime hn hGn
  intro r hr hrn
  have hrd : (r : Int) ∣ ord_product factors
      (calculate_ord_loop g p factors exponents (p - 1) len).1 len := by
    rw [← hprodk, hst2]; exact Int.natCast_dvd_natCast.mpr hrn
  obtain ⟨i, hi, hdi⟩ := prime_dvd_ord_product _ _ r hr len hrd
  obtain ⟨q, hq, hFq⟩ := hprime i hi
  have hri : Prime (r : Int) := Nat.prime_iff_prime_int.mp hr
  have hE : 1 ≤ (calculate_ord_loop g p factors exponents (p - 1) len).1.getD i 0 := by
    by_contra hcon
    have h0 : ((calculate_ord_loop g p factors exponents (p - 1) len).1.getD i 0).toNat = 0 := by
      omega
    rw [h0, pow_zero] at hdi
    exact hr.ne_one (Nat.dvd_one.mp (Int.natCast_dvd_natCast.mp (by simpa using hdi)))
  have hrq : r = q := by
    have h1 := hri.dvd_of_dvd_pow hdi
    rw [hFq] at h1
    exact (Nat.prime_dvd_prime_iff_eq hr hq).mp (Int.natCast_dvd_natCast.mp h1)
  have := hmin i hi hE
  rw [hFq, Int.toNat_natCast, ← hrq] at this
  exact this

/-- C8: for a prime `p`, `g` with `g ≢ 0` and `g ≢ 1 (mod p)` and primes `f i` with
exponents `e i ≥ 1` whose product of powers is `p - 1`, after `calculate_ord`
started at `ord = p - 1` the value `ord` satisfies `g ^ ord mod p = 1` and no
proper divisor `d` of `ord` satisfies `g ^ d mod p = 1`.  (Every `mpz_t` has
fewer than `2 ^ 64` bits; the primes need not be distinct.) -/
theorem calculate_ord_is_order (p : Nat) (hp : p.Prime) (hbits : Nat.log2 p < 2 ^ 64) (g : Int)
    (hg0 : ¬ (p : Int) ∣ g) (hg1 : ¬ (p : Int) ∣ g - 1)
    (factors exponents : List Int) (len : Nat)
    (hfl : factors.length = len) (hel : exponents.length = len)
    (hprime : ∀ i, i < len → ∃ q : Nat, q.Prime ∧ factors.getD i 0 = q)
    (hexp : ∀ i, i < len → 1 ≤ exponents.getD i 0)
    (hprod : ord_product factors exponents len = p - 1) :
    mpz_powm g (calculate_ord g p factors exponents len (p - 1)).2 p = 1 ∧
    ∀ d : Int, 0 < d → d ∣ (calculate_ord g p factors exponents len (p - 1)).2 →
      d ≠ (calculate_ord g p factors exponents len (p - 1)).2 → mpz_powm g d p ≠ 1 := by
  obtain ⟨-, ⟨n, hn, hord, ho⟩, -, -⟩ := calculate_ord_spec p hp g hg0 hg1 factors exponents len
    hel hprime hexp (exponents_small p hp hbits factors exponents len hprime hprod) hprod
  rw [hord]
  constructor
  · rw [mpz_powm_eq_one_iff p hp.one_lt, ← ho]
    exact pow_orderOf_eq_one _
  · intro d hd0 hdn hne hpow
    obtain ⟨m, rfl⟩ : ∃ m : Nat, d = m := ⟨d.toNat, (Int.toNat_of_nonneg hd0.le).symm⟩
    rw [mpz_powm_eq_one_iff p hp.one_lt] at hpow
    have h1 : n ∣ m := ho ▸ orderOf_dvd_of_pow_eq_one hpow
    have h2 : m ∣ n := Int.natCast_dvd_natCast.mp hdn
    exact hne (by rw [Nat.dvd_antisymm h2 h1])

set_option maxRecDepth 100000 in
theorem calculate_ord_is_order_witness :
    calculate_ord 5 ((251 : Nat) : Int) [2, 5] [1, 3] 2 (((251 : Nat) : Int) - 1) = ([0, 2], 25) ∧
    (mpz_powm 5 (calculate_ord 5 ((251 : Nat) : Int) [2, 5] [1, 3] 2 (((251 : Nat) : Int) - 1)).2
        ((251 : Nat) : Int) = 1 ∧
      ∀ d : Int, 0 < d →
        d ∣ (calculate_ord 5 ((251 : Nat) : Int) [2, 5] [1, 3] 2 (((251 : Nat) : Int) - 1)).2 →
        d ≠ (calculate_ord 5 ((251 : Nat) : Int) [2, 5] [1, 3] 2 (((251 : Nat) : Int) - 1)).2 →
        mpz_powm 5 d ((251 : Nat) : Int) ≠ 1) :=
  ⟨by decide, calculate_ord_is_order 251 (by norm_num)
    (lt_trans ((Nat.log2_lt (by norm_num)).mpr (by norm_num : 251 < 2 ^ 8)) (by norm_num))
    5 (by decide) (by decide) [2, 5] [1, 3] 2 rfl rfl
    (fun i hi => by
      interval_cases i
      · exact ⟨2, by norm_num, rfl⟩
      · exact ⟨5, by norm_num, rfl⟩)
    (by decide) (by decide)⟩

/-! ## Facts about `delete_zeros` -/

theorem getD_memmove_down (a : List Int) (i len : Nat) (hi : i < len) (hlen : len ≤ a.length)
    (t : Nat) (ht : t < len - 1) :
    (memmove_down a i (len - i - 1)).getD t 0 =
      if t < i then a.getD t 0 else a.getD (t + 1) 0 := by
  unfold memmove_down
  simp only [List.getD_eq_getElem?_getD]
  by_cases hti : t < i
  · rw [if_pos hti, List.append_assoc, List.getElem?_append_left (by simp; omega)]
    rw [List.getElem?_take_of_lt hti]
  · rw [if_neg hti, List.append_assoc, List.getElem?_append_right (by simp; omega)]
    have hl : (List.take i a).length = i := by simp; omega
    rw [hl, List.getElem?_append_left (by simp; omega), List.getElem?_take_of_lt (by omega),
      List.getElem?_drop]
    congr 2
    omega

theorem length_memmove_down (a : List Int) (i len : Nat) (hi : i < len) (hlen : len ≤ a.length) :
    (memmove_down a i (len - i - 1)).length = a.length := by
  unfold memmove_down
  simp
  omega

theorem ord_product_congr (f e f1 e1 : List Int) :
    ∀ m : Nat, (∀ t, t < m → f1.getD t 0 = f.getD t 0 ∧ e1.getD t 0 = e.getD t 0) →
      ord_product f1 e1 m = ord_product f e m := by
  intro m
  induction m with
  | zero => intro _; rfl
  | succ m ih =>
    intro h
    simp only [ord_product]
    rw [ih (fun t ht => h t (Nat.lt_succ_of_lt ht)), (h m (Nat.lt_succ_self m)).1,
      (h m (Nat.lt_succ_self m)).2]

theorem ord_product_erase (f e f1 e1 : List Int) (i len : Nat) (hi : i < len)
    (hf : ∀ t, t < len - 1 → f1.getD t 0 = if t < i then f.getD t 0 else f.getD (t + 1) 0)
    (he : ∀ t, t < len - 1 → e1.getD t 0 = if t < i then e.getD t 0 else e.getD (t + 1) 0)
    (hz : e.getD i 0 = 0) :
    ∀ d : Nat, i + d ≤ len - 1 → ord_product f1 e1 (i + d) = ord_product f e (i + d + 1) := by
  intro d
  induction d with
  | zero =>
    intro _
    have h1 : ord_product f1 e1 i = ord_product f e i := by
      apply ord_product_congr
      intro t ht
      rw [hf t (by omega), he t (by omega), if_pos ht, if_pos ht]
      exact ⟨rfl, rfl⟩
    simp only [Nat.add_zero, ord_product, hz, h1]
    simp
  | succ d ih =>
    intro hd
    have h1 := ih (by omega)
    have h2 : ord_product f1 e1 (i + (d + 1)) =
        ord_product f1 e1 (i + d) * f1.getD (i + d) 0 ^ (e1.getD (i + d) 0).toNat := rfl
    have h3 : ord_product f e (i + (d + 1) + 1) =
        ord_product f e (i + d + 1) * f.getD (i + d + 1) 0 ^ (e.getD (i + d + 1) 0).toNat := rfl
    rw [h2, h3, h1, hf (i + d) (by omega), he (i + d) (by omega), if_neg (by omega),
      if_neg (by omega)]

theorem compacted_erase (f0 e0 : List Int) (len0 : Nat) (f e : List Int) (len i : Nat)
    (hc : Compacted f0 e0 len0 f e len) (hi : i < len) (hz : e.getD i 0 = 0) :
    Compacted f0 e0 len0 (memmove_down f i (len - i - 1)) (memmove_down e i (len - i - 1))
      (len - 1) := by
  obtain ⟨hfl, hel, hprod, σ, hmono, hσ⟩ := hc
  have hf := getD_memmove_down f i len hi hfl
  have he := getD_memmove_down e i len hi hel
  refine ⟨?_, ?_, ?_, fun t => if t < i then σ t else σ (t + 1), ?_, ?_⟩
  · rw [length_memmove_down f i len hi hfl]; omega
  · rw [length_memmove_down e i len hi hel]; omega
  · rw [← hprod]
    have := ord_product_erase f e _ _ i len hi hf he hz (len - 1 - i) (by omega)
    rw [show i + (len - 1 - i) = len - 1 by omega] at this
    rw [this, show len - 1 + 1 = len by omega]
  · intro s t hst ht
    by_cases hs : s < i
    · by_cases hti : t < i
      · simp only [if_pos hs, if_pos hti]; exact hmono s t hst (by omega)
      · simp only [if_pos hs, if_neg hti]; exact hmono s (t + 1) (by omega) (by omega)
    · have hti : ¬ t < i := by omega
      simp only [if_neg hs, if_neg hti]; exact hmono (s + 1) (t + 1) (by omega) (by omega)
  · intro t ht
    rw [hf t ht, he t ht]
    by_cases hti : t < i
    · simp only [if_pos hti]; exact hσ t (by omega)
    · simp only [if_neg hti]; exact hσ (t + 1) (by omega)

theorem delete_zeros_while_spec (f0 e0 : List Int) (len0 i : Nat) :
    ∀ (fuel : Nat) (f e : List Int) (len : Nat) (r : List Int × List Int × Nat),
      Compacted f0 e0 len0 f e len → (∀ t, t < i → e.getD t 0 ≠ 0) →
      delete_zeros_while i fuel f e len = some r →
      Compacted f0 e0 len0 r.1 r.2.1 r.2.2 ∧ (∀ t, t < i + 1 → r.2.1.getD t 0 ≠ 0) ∧
        r.2.2 ≤ len := by
  intro fuel
  induction fuel with
  | zero =>
    intro f e len r _ _ h
    simp only [delete_zeros_while] at h
    cases h
  | succ fuel ih =>
    intro f e len r hc hnz h
    by_cases hz : e.getD i 0 = 0
    · by_cases hl : len < i + 1
      · simp only [delete_zeros_while, if_pos hz, if_pos hl] at h
        cases h
      · have hi : i < len := by omega
        simp only [delete_zeros_while, hz, if_true, if_neg hl] at h
        have hc' := compacted_erase f0 e0 len0 f e len i hc hi hz
        have hnz' : ∀ t, t < i → (memmove_down e i (len - i - 1)).getD t 0 ≠ 0 := by
          intro t ht
          rw [getD_memmove_down e i len hi hc.2.1 t (by omega), if_pos ht]
          exact hnz t ht
        obtain ⟨h1, h2, h3⟩ := ih _ _ _ r hc' hnz' h
        exact ⟨h1, h2, by omega⟩
    · simp only [delete_zeros_while, if_neg hz] at h
      have hr : r = (f, e, len) := (Option.some.inj h).symm
      subst hr
      refine ⟨hc, ?_, le_refl _⟩
      intro t ht
      rcases Nat.lt_succ_iff_lt_or_eq.mp ht with h1 | h1
      · exact hnz t h1
      · rw [h1]; exact hz

theorem delete_zeros_for_spec (f0 e0 : List Int) (len0 : Nat) :
    ∀ (fuel i : Nat) (f e : List Int) (len : Nat) (r : List Int × List Int × Nat),
      Compacted f0 e0 len0 f e len → (∀ t, t < i → e.getD t 0 ≠ 0) → len ≤ i + fuel →
      delete_zeros_for fuel i f e len = some r →
      Compacted f0 e0 len0 r.1 r.2.1 r.2.2 ∧ (∀ t, t < r.2.2 → r.2.1.getD t 0 ≠ 0) := by
  intro fuel
  induction fuel with
  | zero =>
    intro i f e len r hc hnz hfuel h
    simp only [delete_zeros_for] at h
    have hr : r = (f, e, len) := (Option.some.inj h).symm
    subst hr
    exact ⟨hc, fun t ht => hnz t (by simp at ht; omega)⟩
  | succ fuel ih =>
    intro i f e len r hc hnz hfuel h
    by_cases hi : i < len
    · simp only [delete_zeros_for, if_pos hi] at h
      cases hw : delete_zeros_while i (len + 1) f e len with
      | none =>
        simp only [hw] at h
        cases h
      | some r1 =>
        obtain ⟨f1, e1, len1⟩ := r1
        simp only [hw] at h
        obtain ⟨h1, h2, h3⟩ := delete_zeros_while_spec f0 e0 len0 i _ f e len _ hc hnz hw
        exact ih (i + 1) f1 e1 len1 r h1 h2 (by simp at h3; omega) h
    · simp only [delete_zeros_for, if_neg hi] at h
      have hr : r = (f, e, len) := (Option.some.inj h).symm
      subst hr
      exact ⟨hc, fun t ht => hnz t (by simp at ht; omega)⟩

theorem delete_zeros_spec (f e : List Int) (len : Nat) (hfl : len ≤ f.length)
    (hel : len ≤ e.length) (r : List Int × List Int × Nat)
    (h : delete_zeros f e len = some r) :
    Compacted f e len r.1 r.2.1 r.2.2 ∧ (∀ t, t < r.2.2 → r.2.1.getD t 0 ≠ 0) := by
  apply delete_zeros_for_spec f e len len 0 f e len r _ (fun t ht => by omega) (by omega) h
  exact ⟨hfl, hel, rfl, id, fun s t hst _ => hst, fun t ht => ⟨ht, rfl, rfl⟩⟩

theorem delete_zeros_while_total (i : Nat) :
    ∀ (fuel : Nat) (f e : List Int) (len : Nat), i < len → len - i ≤ fuel →
      len ≤ f.length → len ≤ e.length → e.getD (len - 1) 0 ≠ 0 →
      ∃ r : List Int × List Int × Nat, delete_zeros_while i fuel f e len = some r ∧
        i < r.2.2 ∧ r.2.2 ≤ len ∧ r.2.2 ≤ r.1.length ∧ r.2.2 ≤ r.2.1.length ∧
        r.2.1.getD (r.2.2 - 1) 0 ≠ 0 := by
  intro fuel
  induction fuel with
  | zero => intro f e len hi hfuel; omega
  | succ fuel ih =>
    intro f e len hi hfuel hfl hel hlast
    by_cases hz : e.getD i 0 = 0
    · have hne : i ≠ len - 1 := fun h => hlast (h ▸ hz)
      have hi' : i < len - 1 := by omega
      simp only [delete_zeros_while, if_pos hz, if_neg (by omega : ¬ len < i + 1)]
      have hlast' : (memmove_down e i (len - i - 1)).getD (len - 1 - 1) 0 ≠ 0 := by
        rw [getD_memmove_down e i len hi hel (len - 1 - 1) (by omega), if_neg (by omega),
          show len - 1 - 1 + 1 = len - 1 by omega]
        exact hlast
      obtain ⟨r, h1, h2, h3, h4, h5, h6⟩ := ih (memmove_down f i (len - i - 1))
        (memmove_down e i (len - i - 1)) (len - 1) hi' (by omega)
        (by rw [length_memmove_down f i len hi hfl]; omega)
        (by rw [length_memmove_down e i len hi hel]; omega) hlast'
      exact ⟨r, h1, h2, by omega, h4, h5, h6⟩
    · exact ⟨(f, e, len), by simp only [delete_zeros_while, if_neg hz], hi, le_refl _, hfl, hel,
        hlast⟩

theorem delete_zeros_for_total :
    ∀ (fuel i : Nat) (f e : List Int) (len : Nat), 0 < len →
      len ≤ f.length → len ≤ e.length → e.getD (len - 1) 0 ≠ 0 →
      ∃ r : List Int × List Int × Nat, delete_zeros_for fuel i f e len = some r ∧
        0 < r.2.2 := by
  intro fuel
  induction fuel with
  | zero => intro i f e len h0 _ _ _; exact ⟨(f, e, len), rfl, h0⟩
  | succ fuel ih =>
    intro i f e len h0 hfl hel hlast
    by_cases hi : i < len
    · obtain ⟨r, h1, h2, h3, h4, h5, h6⟩ :=
        delete_zeros_while_total i (len + 1) f e len hi (by omega) hfl hel hlast
      obtain ⟨f1, e1, len1⟩ := r
      simp only [delete_zeros_for, if_pos hi, h1]
      exact ih (i + 1) f1 e1 len1 (by simp only at h2; omega) h4 h5 h6
    · exact ⟨(f, e, len), by simp only [delete_zeros_for, if_neg hi], h0⟩

/-- When the last exponent is not `0`, `delete_zeros` returns, with at least one
entry left. -/
theorem delete_zeros_total (f e : List Int) (len : Nat) (h0 : 0 < len)
    (hfl : len ≤ f.length) (hel : len ≤ e.length) (hlast : e.getD (len - 1) 0 ≠ 0) :
    ∃ r : List Int × List Int × Nat, delete_zeros f e len = some r ∧ 0 < r.2.2 :=
  delete_zeros_for_total len 0 f e len h0 hfl hel hlast

/-! ## Digit recovery in a group of prime-power order -/

theorem digit_target_mem (p : Nat) [Fact p.Prime] (G1 H1 : ZMod p) (q ee k xn kk : Nat)
    (hk : k < ee) (hq : 0 < q) (hord : orderOf G1 = q ^ ee) (hH : H1 = G1 ^ kk)
    (hinv : (G1 ^ xn) ^ (q ^ (ee - k)) = H1 ^ (q ^ (ee - k))) :
    ∃ m : Nat, (G1⁻¹ ^ xn * H1) ^ (q ^ (ee - k - 1)) = (G1 ^ (q ^ (ee - 1))) ^ m := by
  have hpos : 0 < q ^ ee := pow_pos hq ee
  have hGq : G1 ^ (q ^ ee) = 1 := hord ▸ pow_orderOf_eq_one G1
  have hG0 : G1 ≠ 0 := by
    intro h0
    rw [h0, zero_pow (ne_of_gt hpos)] at hGq
    exact zero_ne_one hGq
  have hGinv : G1⁻¹ = G1 ^ (q ^ ee - 1) := by
    apply inv_eq_of_mul_eq_one_right
    rw [← pow_succ', Nat.sub_add_cancel hpos, hGq]
  obtain ⟨S, hS⟩ : ∃ S : Nat, S = (q ^ ee - 1) * xn + kk := ⟨_, rfl⟩
  have hw : G1⁻¹ ^ xn * H1 = G1 ^ S := by
    rw [hGinv, hH, ← pow_mul, ← pow_add, hS]
  have hw1 : (G1⁻¹ ^ xn * H1) ^ (q ^ (ee - k)) = 1 := by
    rw [mul_pow, ← hinv, inv_pow, inv_pow]
    exact inv_mul_cancel₀ (pow_ne_zero _ (pow_ne_zero _ hG0))
  rw [hw, ← pow_mul] at hw1
  have hdvd : q ^ ee ∣ S * q ^ (ee - k) := by
    have := orderOf_dvd_of_pow_eq_one hw1
    rwa [hord] at this
  have hsplit : q ^ ee = q ^ k * q ^ (ee - k) := by
    rw [← pow_add]; congr 1; omega
  rw [hsplit] at hdvd
  obtain ⟨m, hm⟩ := Nat.dvd_of_mul_dvd_mul_right (pow_pos hq _) hdvd
  refine ⟨m, ?_⟩
  rw [hw, hm, ← pow_mul, ← pow_mul]
  congr 1
  have : q ^ (ee - 1) = q ^ k * q ^ (ee - k - 1) := by
    rw [← pow_add]; congr 1; omega
  rw [this]; ring

theorem digit_step (p : Nat) [Fact p.Prime] (G1 H1 : ZMod p) (q ee k xn y : Nat)
    (hk : k < ee) (hG0 : G1 ≠ 0) (hGq : G1 ^ (q ^ ee) = 1)
    (hy : (G1 ^ (q ^ (ee - 1))) ^ y = (G1⁻¹ ^ xn * H1) ^ (q ^ (ee - k - 1))) :
    (G1 ^ (xn + y % q ^ (k + 1) * q ^ k)) ^ (q ^ (ee - k - 1)) = H1 ^ (q ^ (ee - k - 1)) := by
  have hsplit : q ^ (ee - 1) = q ^ k * q ^ (ee - k - 1) := by
    rw [← pow_add]; congr 1; omega
  have hGhat : (G1 ^ (q ^ (ee - 1))) ^ (q ^ (k + 1)) = 1 := by
    rw [← pow_mul, ← pow_add, show ee - 1 + (k + 1) = ee + k by omega, pow_add, pow_mul, hGq,
      one_pow]
  have hmod : (G1 ^ (q ^ (ee - 1))) ^ (y % q ^ (k + 1)) = (G1 ^ (q ^ (ee - 1))) ^ y := by
    conv_rhs => rw [← Nat.div_add_mod y (q ^ (k + 1)), pow_add, pow_mul, hGhat, one_pow, one_mul]
  have h1 : (G1 ^ (y % q ^ (k + 1) * q ^ k)) ^ (q ^ (ee - k - 1)) =
      (G1 ^ (q ^ (ee - 1))) ^ (y % q ^ (k + 1)) := by
    rw [← pow_mul, ← pow_mul, hsplit]
    congr 1; ring
  have h2 : (G1⁻¹ ^ xn * H1) ^ (q ^ (ee - k - 1)) =
      ((G1 ^ xn) ^ (q ^ (ee - k - 1)))⁻¹ * H1 ^ (q ^ (ee - k - 1)) := by
    rw [mul_pow, inv_pow, inv_pow]
  rw [pow_add, mul_pow, h1, hmod, hy, h2, ← mul_assoc,
    mul_inv_cancel₀ (pow_ne_zero _ (pow_ne_zero _ hG0)), one_mul]

/-! ## Facts about `solve_discrete_subproblem` -/

theorem cast_mpz_powm (p : Nat) (b : Int) (m : Nat) :
    ((mpz_powm b m p : Int) : ZMod p) = (b : ZMod p) ^ m := by
  rw [mpz_powm_natCast, ZMod.intCast_mod, Int.cast_pow]

theorem mpz_powm_small (p q m : Nat) (h : q ^ m < p) :
    mpz_powm (q : Int) (m : Int) p = ((q ^ m : Nat) : Int) := by
  rw [mpz_powm_natCast]
  have h1 : ((q : Int) ^ m) = ((q ^ m : Nat) : Int) := by push_cast; rfl
  rw [h1]
  exact Int.emod_eq_of_lt (Int.natCast_nonneg _) (by exact_mod_cast h)

theorem cast_mpz_invert (p : Nat) (hp : p.Prime) (g1 : Int) (hg : ¬ (p : Int) ∣ g1) (rop : Int) :
    (((mpz_invert rop g1 p).2 : Int) : ZMod p) = (g1 : ZMod p)⁻¹ := by
  haveI : Fact p.Prime := ⟨hp⟩
  have hco : Int.gcd g1 p = 1 := by
    have h1 : Nat.Coprime p g1.natAbs :=
      (Nat.Prime.coprime_iff_not_dvd hp).mpr (fun hd => hg (Int.natCast_dvd.mpr hd))
    unfold Int.gcd
    rw [Int.natAbs_ofNat]
    exact h1.symm
  obtain ⟨-, -, -, hinv⟩ := mpz_invert_coprime rop g1 p (by exact_mod_cast hp.ne_zero) hco
  have h2 := (ZMod.intCast_eq_intCast_iff _ _ p).mpr hinv
  rw [Int.cast_mul, Int.cast_one] at h2
  exact eq_inv_of_mul_eq_one_right h2

theorem lambda_correct (p : Nat) (hp : p.Prime) (published : Option Int) (G H res : Int)
    (hpub : G ≠ H → ∃ y : Int, published = some y ∧ G ^ (y % (p - 1)).toNat % p = H % p) :
    ∃ yn : Nat, (pollard_lambda_parallel_dicsrete_log published G H p res).2 = yn ∧
      (G : ZMod p) ^ yn = (H : ZMod p) := by
  by_cases hGH : G = H
  · refine ⟨1, ?_, ?_⟩
    · simp [pollard_lambda_parallel_dicsrete_log, hGH]
    · rw [pow_one, hGH]
  · obtain ⟨y, hy1, hy2⟩ := hpub hGH
    have hp1 : ((p : Int) - 1) ≠ 0 := by have := hp.two_le; omega
    have hnn : 0 ≤ y % ((p : Int) - 1) := Int.emod_nonneg _ hp1
    refine ⟨(y % ((p : Int) - 1)).toNat, ?_, ?_⟩
    · simp only [pollard_lambda_parallel_dicsrete_log, if_neg hGH, hy1, mpz_mod]
      exact (Int.toNat_of_nonneg hnn).symm
    · have := (pow_emod_eq_iff p G _ H).mp hy2
      exact this

theorem solve_loop_spec (p : Nat) (hp : p.Prime) (q ee kk : Nat) (hq : q.Prime) (hee : 1 ≤ ee)
    (hsmall : q ^ ee < p) (g1 h1 : Int) (hg : ¬ (p : Int) ∣ g1)
    (hord : orderOf (g1 : ZMod p) = q ^ ee) (hH : (h1 : ZMod p) = (g1 : ZMod p) ^ kk)
    (search : Nat → Int → Int → Option Int)
    (hsearch : ∀ (j : Nat) (G H : Int), G ≠ H → (∃ k : Nat, G ^ k % p = H % p) →
      ∃ y : Int, search j G H = some y ∧ G ^ (y % (p - 1)).toNat % p = H % p) :
    ∀ k : Nat, k ≤ ee → ∃ xn : Nat,
      (solve_discrete_subproblem_loop search (mpz_invert 0 g1 p).2
        (mpz_powm g1 (mpz_powm q ((ee : Int) - 1) p) p) h1 p q ee k).1 = xn ∧
      ((g1 : ZMod p) ^ xn) ^ (q ^ (ee - k)) = (h1 : ZMod p) ^ (q ^ (ee - k)) := by
  haveI : Fact p.Prime := ⟨hp⟩
  have hGq : (g1 : ZMod p) ^ (q ^ ee) = 1 := hord ▸ pow_orderOf_eq_one _
  have hG0 : (g1 : ZMod p) ≠ 0 := by
    rw [Ne, ZMod.intCast_zmod_eq_zero_iff_dvd]; exact hg
  have hpow_le : ∀ m : Nat, m ≤ ee → q ^ m < p := fun m hm =>
    lt_of_le_of_lt (Nat.pow_le_pow_right hq.pos hm) hsmall
  have hicast := cast_mpz_invert p hp g1 hg 0
  have hnewg : mpz_powm g1 (mpz_powm q ((ee : Int) - 1) p) p =
      mpz_powm g1 ((q ^ (ee - 1) : Nat) : Int) p := by
    rw [show (ee : Int) - 1 = ((ee - 1 : Nat) : Int) by omega,
      mpz_powm_small p q (ee - 1) (hpow_le _ (by omega))]
  have hgcast : ((mpz_powm g1 ((q ^ (ee - 1) : Nat) : Int) p : Int) : ZMod p) =
      (g1 : ZMod p) ^ (q ^ (ee - 1)) := cast_mpz_powm p g1 _
  rw [hnewg]
  generalize mpz_powm g1 ((q ^ (ee - 1) : Nat) : Int) p = ng at hgcast ⊢
  generalize (mpz_invert 0 g1 p).2 = inv at hicast ⊢
  intro k
  induction k with
  | zero =>
    intro _
    refine ⟨0, rfl, ?_⟩
    rw [pow_zero, one_pow, Nat.sub_zero, hH, ← pow_mul, mul_comm, pow_mul, hGq, one_pow]
  | succ k ih =>
    intro hk
    have hk' : k < ee := hk
    obtain ⟨xn, hx, hinv⟩ := ih (Nat.le_of_lt hk')
    -- the target of the lambda call
    have htgt : ((mpz_powm (mpz_powm inv (xn : Int) p * h1)
        (mpz_powm q ((ee : Int) - ((k : Int) + 1)) p) p : Int) : ZMod p) =
        ((g1 : ZMod p)⁻¹ ^ xn * (h1 : ZMod p)) ^ (q ^ (ee - k - 1)) := by
      rw [show (ee : Int) - ((k : Int) + 1) = ((ee - k - 1 : Nat) : Int) by omega,
        mpz_powm_small p q (ee - k - 1) (hpow_le _ (by omega)), cast_mpz_powm, Int.cast_mul,
        cast_mpz_powm, hicast]
    obtain ⟨m, hm⟩ := digit_target_mem p (g1 : ZMod p) (h1 : ZMod p) q ee k xn kk hk' hq.pos
      hord hH hinv
    obtain ⟨yn, hy1, hy2⟩ := lambda_correct p hp
      (search (k + 1) ng (mpz_powm (mpz_powm inv (xn : Int) p * h1)
          (mpz_powm q ((ee : Int) - ((k : Int) + 1)) p) p))
      ng (mpz_powm (mpz_powm inv (xn : Int) p * h1)
          (mpz_powm q ((ee : Int) - ((k : Int) + 1)) p) p)
      (solve_discrete_subproblem_loop search inv ng h1 p q ee k).2
      (fun hne => hsearch _ _ _ hne ⟨m, (pow_emod_eq_iff p _ m _).mpr (by
        rw [hgcast, htgt, hm])⟩)
    rw [hgcast, htgt] at hy2
    refine ⟨xn + yn % q ^ (k + 1) * q ^ k, ?_, ?_⟩
    · simp only [solve_discrete_subproblem_loop, hx, hy1, mpz_mod]
      rw [show ((k : Int) + 1) = ((k + 1 : Nat) : Int) by push_cast; ring,
        mpz_powm_small p q (k + 1) (hpow_le _ hk),
        show (((k + 1 : Nat) : Int) - 1) = (k : Int) by push_cast; ring,
        mpz_powm_small p q k (hpow_le _ (by omega))]
      push_cast
      rfl
    · rw [show ee - (k + 1) = ee - k - 1 by omega]
      exact digit_step p _ _ q ee k xn yn hk' hG0 hGq hy2

theorem solve_discrete_subproblem_spec (p : Nat) (hp : p.Prime) (q ee kk : Nat) (hq : q.Prime)
    (hee : 1 ≤ ee) (hsmall : q ^ ee < p) (g1 h1 : Int) (hg : ¬ (p : Int) ∣ g1)
    (hord : orderOf (g1 : ZMod p) = q ^ ee) (hH : (h1 : ZMod p) = (g1 : ZMod p) ^ kk)
    (search : Nat → Int → Int → Option Int)
    (hsearch : ∀ (j : Nat) (G H : Int), G ≠ H → (∃ k : Nat, G ^ k % p = H % p) →
      ∃ y : Int, search j G H = some y ∧ G ^ (y % (p - 1)).toNat % p = H % p) :
    ∃ xn : Nat, (solve_discrete_subproblem search g1 h1 p q ee).2 = xn ∧
      (g1 : ZMod p) ^ xn = (h1 : ZMod p) := by
  obtain ⟨xn, hx, hinv⟩ := solve_loop_spec p hp q ee kk hq hee hsmall g1 h1 hg hord hH search
    hsearch ee (le_refl _)
  refine ⟨xn, ?_, ?_⟩
  · simp only [solve_discrete_subproblem, Int.toNat_natCast]
    exact hx
  · simpa using hinv

/-! ## Facts about `pohling_discrete_log` -/

theorem crt_congr (r n : List Int) (len : Nat) (x0 : Int) (hlen : len ≠ 0)
    (hgt : ∀ i, i < len → 1 < n.getD i 0)
    (hco : ∀ i, i < len → ∀ j, j < len → i ≠ j → Int.gcd (n.getD i 0) (n.getD j 0) = 1) :
    (crt (some r) (some n) len x0).1 = 0 ∧ 0 ≤ (crt (some r) (some n) len x0).2 ∧
      ∀ i, i < len → (crt (some r) (some n) len x0).2 ≡ r.getD i 0 [ZMOD n.getD i 0] := by
  have hP := crt_product_pos n len hgt
  have hcrt : crt (some r) (some n) len x0 =
      (0, (crt_acc r n (crt_product n len) len).1 % crt_product n len) := by
    simp only [crt, if_neg hlen, mpz_mod]
  rw [hcrt]
  refine ⟨rfl, Int.emod_nonneg _ (ne_of_gt hP), fun i hi => ?_⟩
  have h := crt_acc_modEq r n len hgt hco len (le_refl _) i hi
  simp only [hi, if_true] at h
  refine Int.ModEq.trans ?_ h
  show (crt_acc r n (crt_product n len) len).1 % crt_product n len % n.getD i 0 = _
  rw [Int.emod_emod_of_dvd _ (crt_product_dvd n len i hi)]

theorem pohling_loop_spec (search : Nat → Nat → Int → Int → Option Int)
    (g h p ord_p : Int) (factors exponents : List Int) :
    ∀ k : Nat,
      (pohling_loop search g h p ord_p factors exponents k).1.length = k ∧
      (pohling_loop search g h p ord_p factors exponents k).2.length = k ∧
      ∀ t, t < k →
        (pohling_loop search g h p ord_p factors exponents k).1.getD t 0 =
          (solve_discrete_subproblem (search t)
            (mpz_powm g (mpz_div ord_p (mpz_powm (factors.getD t 0) (exponents.getD t 0) p)) p)
            (mpz_powm h (mpz_div ord_p (mpz_powm (factors.getD t 0) (exponents.getD t 0) p)) p)
            p (factors.getD t 0) (exponents.getD t 0)).2 ∧
        (pohling_loop search g h p ord_p factors exponents k).2.getD t 0 =
          mpz_powm (factors.getD t 0) (exponents.getD t 0) p := by
  intro k
  induction k with
  | zero => exact ⟨rfl, rfl, fun t ht => by omega⟩
  | succ k ih =>
    obtain ⟨h1, h2, h3⟩ := ih
    refine ⟨by simp [pohling_loop, h1], by simp [pohling_loop, h2], ?_⟩
    intro t ht
    simp only [pohling_loop, List.getD_eq_getElem?_getD]
    rcases Nat.lt_succ_iff_lt_or_eq.mp ht with hlt | heq
    · rw [List.getElem?_append_left (by omega), List.getElem?_append_left (by omega)]
      simpa only [List.getD_eq_getElem?_getD] using h3 t hlt
    · subst heq
      rw [List.getElem?_append_right (by omega), List.getElem?_append_right (by omega), h1, h2]
      simp

theorem pow_eq_of_modEq (p : Nat) (Gp : ZMod p) (M X k : Nat) (hM : Gp ^ M = 1)
    (h : X ≡ k [MOD M]) : Gp ^ X = Gp ^ k := by
  have e1 : Gp ^ X = Gp ^ (X % M) := by
    conv_lhs => rw [← Nat.div_add_mod X M, pow_add, pow_mul, hM, one_pow, one_mul]
  have e2 : Gp ^ k = Gp ^ (k % M) := by
    conv_lhs => rw [← Nat.div_add_mod k M, pow_add, pow_mul, hM, one_pow, one_mul]
  rw [e1, e2, h]

theorem modEq_prod_of_coprime (P : Nat → Nat) (X k : Nat) :
    ∀ m : Nat, (∀ s, s < m → ∀ t, t < m → s ≠ t → Nat.Coprime (P s) (P t)) →
      (∀ t, t < m → X ≡ k [MOD P t]) → X ≡ k [MOD ∏ t in Finset.range m, P t] := by
  intro m
  induction m with
  | zero => intro _ _; simp [Nat.modEq_one]
  | succ m ih =>
    intro hco hX
    rw [Finset.prod_range_succ]
    have h1 := ih (fun s hs t ht hst => hco s (by omega) t (by omega) hst)
      (fun t ht => hX t (by omega))
    have hc : Nat.Coprime (∏ t in Finset.range m, P t) (P m) := by
      apply Nat.Coprime.prod_left
      intro t ht
      exact hco t (by have := Finset.mem_range.mp ht; omega) m (by omega)
        (by have := Finset.mem_range.mp ht; omega)
    exact (Nat.modEq_and_modEq_iff_modEq_mul hc).mp ⟨h1, hX m (by omega)⟩

theorem order_component (p : Nat) (G : ZMod p) (n c D Pt : Nat) (hn : orderOf G = n)
    (hnD : n = Pt * D) (hcop : Nat.Coprime Pt c) (hc : c ≠ 0) (hD : D ≠ 0) :
    orderOf (G ^ (c * D)) = Pt := by
  rw [orderOf_pow' G (Nat.mul_ne_zero hc hD), hn, hnD, Nat.gcd_mul_right, hcop.gcd_eq_one,
    one_mul]
  exact Nat.mul_div_cancel _ (Nat.pos_of_ne_zero hD)

theorem ord_product_eq_prod (f e : List Int) (qf ef : Nat → Nat) (len : Nat)
    (h : ∀ t, t < len → f.getD t 0 = qf t ∧ e.getD t 0 = ef t) :
    ∀ m : Nat, m ≤ len →
      ord_product f e m = ((∏ t in Finset.range m, qf t ^ ef t : Nat) : Int) := by
  intro m
  induction m with
  | zero => intro _; simp [ord_product]
  | succ m ih =>
    intro hm
    rw [Finset.prod_range_succ]
    simp only [ord_product]
    rw [ih (by omega), (h m (by omega)).1, (h m (by omega)).2, Int.toNat_natCast]
    push_cast
    rfl

/-- The factor arrays that `pohling_discrete_log` works with after `calculate_ord`
and `delete_zeros`: distinct primes `qf t` with exponents `ef t ≥ 1` whose product
of powers is the order `n` of `g`. -/
theorem refined_factors (p : Nat) (hp : p.Prime) (hbits : Nat.log2 p < 2 ^ 64) (g : Int)
    (hg0 : ¬ (p : Int) ∣ g) (hg1 : ¬ (p : Int) ∣ g - 1)
    (factors exponents : List Int) (len : Nat)
    (hfl : factors.length = len) (hel : exponents.length = len)
    (hprime : ∀ i, i < len → ∃ q : Nat, q.Prime ∧ factors.getD i 0 = q)
    (hdist : ∀ i, i < len → ∀ j, j < len → i ≠ j → factors.getD i 0 ≠ factors.getD j 0)
    (hexp : ∀ i, i < len → 1 ≤ exponents.getD i 0)
    (hprod : ord_product factors exponents len = p - 1)
    (f1 e1 : List Int) (len1 : Nat)
    (hdz : delete_zeros factors (calculate_ord g p factors exponents len (p - 1)).1 len =
      some (f1, e1, len1)) :
    ∃ (n : Nat) (qf ef : Nat → Nat),
      (calculate_ord g p factors exponents len (p - 1)).2 = n ∧
      orderOf (g : ZMod p) = n ∧ 0 < n ∧
      (∀ t, t < len1 → (qf t).Prime ∧ 1 ≤ ef t ∧ f1.getD t 0 = qf t ∧ e1.getD t 0 = ef t) ∧
      (∀ s, s < len1 → ∀ t, t < len1 → s ≠ t → qf s ≠ qf t) ∧
      (∏ t in Finset.range len1, qf t ^ ef t) = n := by
  obtain ⟨hlen, ⟨n, hn, hord, ho⟩, hprodn, hbnd⟩ := calculate_ord_spec p hp g hg0 hg1 factors
    exponents len hel hprime hexp (exponents_small p hp hbits factors exponents len hprime hprod)
    hprod
  obtain ⟨⟨-, -, hp1, σ, hmono, hσ⟩, hnz⟩ := delete_zeros_spec factors _ len (by omega)
    (by omega) _ hdz
  simp only at hp1 hmono hσ hnz
  have hex : ∀ t, t < len1 → ∃ q ee : Nat, q.Prime ∧ 1 ≤ ee ∧ f1.getD t 0 = q ∧
      e1.getD t 0 = ee := by
    intro t ht
    obtain ⟨hs, hf, he⟩ := hσ t ht
    obtain ⟨q, hq, hFq⟩ := hprime (σ t) hs
    have h0 := (hbnd (σ t) hs).1
    rw [← he] at h0
    have hne := hnz t ht
    refine ⟨q, (e1.getD t 0).toNat, hq, by omega, by rw [hf, hFq], by omega⟩
  choose! qf ef hqf using hex
  refine ⟨n, qf, ef, hord, ho, hn, hqf, ?_, ?_⟩
  · intro s hs t ht hst hcon
    have h1 : σ s ≠ σ t := by
      rcases Nat.lt_or_gt_of_ne hst with h | h
      · exact ne_of_lt (hmono s t h ht)
      · exact (ne_of_lt (hmono t s h hs)).symm
    apply hdist (σ s) (hσ s hs).1 (σ t) (hσ t ht).1 h1
    rw [← (hσ s hs).2.1, ← (hσ t ht).2.1, (hqf s hs).2.2.1, (hqf t ht).2.2.1, hcon]
  · have h2 := ord_product_eq_prod f1 e1 qf ef len1
      (fun t ht => ⟨(hqf t ht).2.2.1, (hqf t ht).2.2.2⟩) len1 (le_refl _)
    rw [hp1, ← hprodn, hord] at h2
    exact_mod_cast h2.symm

theorem pohling_core_spec (search : Nat → Nat → Int → Int → Option Int) (p : Nat)
    (hp : p.Prime) (g h : Int) (kk : Nat) (hg0 : ¬ (p : Int) ∣ g) (hh : h = g ^ kk % p)
    (hs : SearchCorrect search p) (n : Nat) (hn : 0 < n) (ho : orderOf (g : ZMod p) = n)
    (f1 e1 : List Int) (len1 : Nat) (hlen1 : len1 ≠ 0) (qf ef : Nat → Nat)
    (hqf : ∀ t, t < len1 → (qf t).Prime ∧ 1 ≤ ef t ∧ f1.getD t 0 = qf t ∧ e1.getD t 0 = ef t)
    (hdist : ∀ s, s < len1 → ∀ t, t < len1 → s ≠ t → qf s ≠ qf t)
    (hprod : (∏ t in Finset.range len1, qf t ^ ef t) = n) (x0 g' h' : Int)
    (hg' : g' = if mpz_powm (f1.getD (len1 - 1) 0) (e1.getD (len1 - 1) 0) p ≠ (n : Int)
      then mpz_powm g (mpz_powm (f1.getD (len1 - 1) 0) (e1.getD (len1 - 1) 0) p) p else g)
    (hh' : h' = if mpz_powm (f1.getD (len1 - 1) 0) (e1.getD (len1 - 1) 0) p ≠ (n : Int)
      then mpz_powm h (mpz_powm (f1.getD (len1 - 1) 0) (e1.getD (len1 - 1) 0) p) p else h) :
    (crt (some (pohling_loop search g' h' p n f1 e1 len1).1)
        (some (pohling_loop search g' h' p n f1 e1 len1).2) len1 x0).1 = 0 ∧
      mpz_powm g' (mpz_mod (crt (some (pohling_loop search g' h' p n f1 e1 len1).1)
        (some (pohling_loop search g' h' p n f1 e1 len1).2) len1 x0).2 n) p = h' := by
  haveI : Fact p.Prime := ⟨hp⟩
  have hG0 : (g : ZMod p) ≠ 0 := by
    rw [Ne, ZMod.intCast_zmod_eq_zero_iff_dvd]; exact hg0
  have hGn : (g : ZMod p) ^ n = 1 := ho ▸ pow_orderOf_eq_one _
  have hH : (h : ZMod p) = (g : ZMod p) ^ kk := by
    rw [hh, ZMod.intCast_mod, Int.cast_pow]
  have hp0 : (0 : Int) < p := by exact_mod_cast hp.pos
  have hnp : n < p := by
    have h1 : n ∣ p - 1 := ho ▸ orderOf_dvd_of_pow_eq_one (ZMod.pow_card_sub_one_eq_one hG0)
    have := Nat.le_of_dvd (by have := hp.two_le; omega) h1
    have := hp.two_le
    omega
  -- the prime powers
  have hPdvd : ∀ t, t < len1 → qf t ^ ef t ∣ n := fun t ht =>
    hprod ▸ Finset.dvd_prod_of_mem _ (Finset.mem_range.mpr ht)
  have hPlt : ∀ t, t < len1 → qf t ^ ef t < p := fun t ht =>
    lt_of_le_of_lt (Nat.le_of_dvd hn (hPdvd t ht)) hnp
  have hPgt : ∀ t, t < len1 → 1 < qf t ^ ef t := fun t ht =>
    Nat.one_lt_pow (by have := (hqf t ht).2.1; omega) (hqf t ht).1.one_lt
  have hPco : ∀ s, s < len1 → ∀ t, t < len1 → s ≠ t →
      Nat.Coprime (qf s ^ ef s) (qf t ^ ef t) := fun s hs t ht hst =>
    Nat.Coprime.pow _ _ ((Nat.coprime_primes (hqf s hs).1 (hqf t ht).1).mpr (hdist s hs t ht hst))
  have hpowm : ∀ t, t < len1 → mpz_powm (f1.getD t 0) (e1.getD t 0) p =
      ((qf t ^ ef t : Nat) : Int) := fun t ht => by
    rw [(hqf t ht).2.2.1, (hqf t ht).2.2.2]
    exact mpz_powm_small p _ _ (hPlt t ht)
  have hlast : len1 - 1 < len1 := by omega
  rw [hpowm _ hlast] at hg' hh'
  -- the projection
  obtain ⟨c, mg, hc0, hmg, hcM, hgc, hhc, hcop, hh'r⟩ : ∃ c mg : Nat, c ≠ 0 ∧ mg ≤ len1 ∧
      c * (∏ t in Finset.range mg, qf t ^ ef t) = n ∧
      (g' : ZMod p) = (g : ZMod p) ^ c ∧ (h' : ZMod p) = ((g : ZMod p) ^ c) ^ kk ∧
      (∀ t, t < mg → Nat.Coprime (qf t ^ ef t) c) ∧ (0 ≤ h' ∧ h' < p) := by
    by_cases hQ : ((qf (len1 - 1) ^ ef (len1 - 1) : Nat) : Int) ≠ (n : Int)
    · rw [if_pos hQ] at hg' hh'
      refine ⟨qf (len1 - 1) ^ ef (len1 - 1), len1 - 1, ?_, by omega, ?_, ?_, ?_, ?_, ?_⟩
      · have := hPgt _ hlast; omega
      · rw [← hprod]
        conv_rhs => rw [show len1 = (len1 - 1) + 1 by omega, Finset.prod_range_succ]
        ring
      · rw [hg', cast_mpz_powm]
      · rw [hh', cast_mpz_powm, hH, ← pow_mul, ← pow_mul, mul_comm]
      · intro t ht
        exact hPco t (by omega) _ hlast (by omega)
      · rw [hh', mpz_powm_natCast]
        exact ⟨Int.emod_nonneg _ (ne_of_gt hp0), Int.emod_lt_of_pos _ hp0⟩
    · rw [if_neg hQ] at hg' hh'
      refine ⟨1, len1, one_ne_zero, le_refl _, by rw [one_mul, hprod], by rw [hg', pow_one],
        by rw [hh', pow_one, hH], fun t _ => Nat.coprime_one_right _, ?_⟩
      rw [hh', hh]
      exact ⟨Int.emod_nonneg _ (ne_of_gt hp0), Int.emod_lt_of_pos _ hp0⟩
  -- the arrays
  obtain ⟨-, -, harr⟩ := pohling_loop_spec search g' h' p n f1 e1 len1
  have hps : ∀ t, t < len1 →
      (pohling_loop search g' h' p n f1 e1 len1).2.getD t 0 = ((qf t ^ ef t : Nat) : Int) :=
    fun t ht => by rw [(harr t ht).2, hpowm t ht]
  obtain ⟨hret, hX0, hXc⟩ := crt_congr (pohling_loop search g' h' p n f1 e1 len1).1
    (pohling_loop search g' h' p n f1 e1 len1).2 len1 x0 hlen1
    (fun i hi => by rw [hps i hi]; exact_mod_cast hPgt i hi)
    (fun i hi j hj hij => by
      rw [hps i hi, hps j hj, Int.gcd_natCast_natCast]
      exact hPco i hi j hj hij)
  refine ⟨hret, ?_⟩
  generalize (crt (some (pohling_loop search g' h' p n f1 e1 len1).1)
    (some (pohling_loop search g' h' p n f1 e1 len1).2) len1 x0).2 = X at hX0 hXc ⊢
  have hn0 : (n : Int) ≠ 0 := by exact_mod_cast (ne_of_gt hn)
  have hXf0 : 0 ≤ X % (n : Int) := Int.emod_nonneg _ hn0
  -- every good index gives a congruence
  have hcong : ∀ t, t < mg → (X % (n : Int)).toNat ≡ kk [MOD qf t ^ ef t] := by
    intro t ht
    have htl : t < len1 := by omega
    obtain ⟨D, hD⟩ := hPdvd t htl
    have hD0 : D ≠ 0 := by
      rintro rfl
      rw [mul_zero] at hD
      omega
    have hdiv : mpz_div (n : Int) ((qf t ^ ef t : Nat) : Int) = (D : Int) := by
      rw [mpz_div_natCast, hD, Nat.mul_div_cancel_left _ (by have := hPgt t htl; omega)]
    have hng : ((mpz_powm g' (D : Int) p : Int) : ZMod p) = (g : ZMod p) ^ (c * D) := by
      rw [cast_mpz_powm, hgc, ← pow_mul]
    have hnh : ((mpz_powm h' (D : Int) p : Int) : ZMod p) =
        ((mpz_powm g' (D : Int) p : Int) : ZMod p) ^ kk := by
      rw [hng, cast_mpz_powm, hhc, ← pow_mul, ← pow_mul, ← pow_mul]
      congr 1; ring
    have hord : orderOf ((mpz_powm g' (D : Int) p : Int) : ZMod p) = qf t ^ ef t := by
      rw [hng]
      exact order_component p _ n c D _ ho hD (hcop t ht) hc0 hD0
    have hndvd : ¬ (p : Int) ∣ mpz_powm g' (D : Int) p := by
      rw [← ZMod.intCast_zmod_eq_zero_iff_dvd, hng]
      exact pow_ne_zero _ hG0
    obtain ⟨xn, hx1, hx2⟩ := solve_discrete_subproblem_spec p hp (qf t) (ef t) kk (hqf t htl).1
      (hqf t htl).2.1 (hPlt t htl) _ _ hndvd hord hnh (search t) (fun j G H => hs t j G H)
    have hxt : (pohling_loop search g' h' p n f1 e1 len1).1.getD t 0 = xn := by
      rw [(harr t htl).1, hpowm t htl, hdiv, (hqf t htl).2.2.1, (hqf t htl).2.2.2]
      exact hx1
    have hne0 : ((mpz_powm g' (D : Int) p : Int) : ZMod p) ≠ 0 := by
      rw [hng]; exact pow_ne_zero _ hG0
    have h1 : xn ≡ kk [MOD qf t ^ ef t] := by
      have := zmod_pow_eq_imp_modEq p _ hne0 xn kk (by rw [hx2, hnh])
      rwa [hord] at this
    have h2 := hXc t htl
    rw [hxt, hps t htl] at h2
    have h3 : X % (n : Int) ≡ X [ZMOD ((qf t ^ ef t : Nat) : Int)] :=
      (Int.mod_modEq X n).of_dvd (Int.natCast_dvd_natCast.mpr (hPdvd t htl))
    have h4 : (((X % (n : Int)).toNat : Nat) : Int) ≡ (xn : Int)
        [ZMOD ((qf t ^ ef t : Nat) : Int)] := by
      rw [Int.toNat_of_nonneg hXf0]
      exact h3.trans h2
    exact (Int.natCast_modEq_iff.mp h4).trans h1
  have hmod := modEq_prod_of_coprime (fun t => qf t ^ ef t) (X % (n : Int)).toNat kk mg
    (fun s hs t ht hst => hPco s (by omega) t (by omega) hst) hcong
  have hM : ((g : ZMod p) ^ c) ^ (∏ t in Finset.range mg, qf t ^ ef t) = 1 := by
    rw [← pow_mul, hcM, hGn]
  have hfin := pow_eq_of_modEq p _ _ _ _ hM hmod
  -- back to the integers
  have hcast : ((mpz_powm g' (mpz_mod X n) p : Int) : ZMod p) = (h' : ZMod p) := by
    unfold mpz_mod
    rw [← Int.toNat_of_nonneg hXf0, cast_mpz_powm, hgc, hhc]
    exact hfin
  apply intCast_eq_of_range p _ _ ?_ hh'r hcast
  unfold mpz_mod
  rw [mpz_powm_of_nonneg _ _ _ hXf0]
  exact ⟨Int.emod_nonneg _ (ne_of_gt hp0), Int.emod_lt_of_pos _ hp0⟩

theorem calculate_ord_pos (p : Nat) (hp : p.Prime) (hbits : Nat.log2 p < 2 ^ 64) (g : Int)
    (hg0 : ¬ (p : Int) ∣ g) (factors exponents : List Int) (len : Nat) (hlen : len ≠ 0)
    (hel : exponents.length = len)
    (hprime : ∀ i, i < len → ∃ q : Nat, q.Prime ∧ factors.getD i 0 = q)
    (hexp : ∀ i, i < len → 1 ≤ exponents.getD i 0)
    (hprod : ord_product factors exponents len = p - 1) :
    0 < (calculate_ord g p factors exponents len (p - 1)).2 := by
  obtain ⟨-, ⟨n, hn, hst2, -, -⟩, -, -, -⟩ :=
    calculate_ord_loop_spec p hp g hg0 factors exponents len hel hprime hexp
      (exponents_small p hp hbits factors exponents len hprime hprod) hprod len (le_refl _)
  unfold calculate_ord
  by_cases h1 : (calculate_ord_loop g p factors exponents (p - 1) len).2 = 1
  · simp only [h1, if_true]
    obtain ⟨q, hq, hFq⟩ := hprime (len - 1) (by omega)
    rw [hFq]
    exact_mod_cast hq.pos
  · simp only [h1, if_false]
    rw [hst2]
    exact_mod_cast hn

/-- The check of `main` passes on whatever `pohling_discrete_log` returns. -/
theorem pohling_check_spec (search : Nat → Nat → Int → Int → Option Int) (p : Nat)
    (hp : p.Prime) (hbits : Nat.log2 p < 2 ^ 64) (g h : Int) (kk : Nat)
    (hg0 : ¬ (p : Int) ∣ g) (hh : h = g ^ kk % p)
    (factors exponents : List Int) (len : Nat)
    (hfl : factors.length = len) (hel : exponents.length = len)
    (hprime : ∀ i, i < len → ∃ q : Nat, q.Prime ∧ factors.getD i 0 = q)
    (hdist : ∀ i, i < len → ∀ j, j < len → i ≠ j → factors.getD i 0 ≠ factors.getD j 0)
    (hexp : ∀ i, i < len → 1 ≤ exponents.getD i 0)
    (hprod : ord_product factors exponents len = p - 1)
    (hs : SearchCorrect search p) (x0 : Int) (r : PohlingResult)
    (hr : pohling_discrete_log search g h p factors exponents len x0 = some r) :
    r.ret = 0 ∧ mpz_powm r.g r.x p = r.h := by
  haveI : Fact p.Prime := ⟨hp⟩
  have hp0 : (0 : Int) < p := by exact_mod_cast hp.pos
  unfold pohling_discrete_log at hr
  simp only at hr
  cases hdz : delete_zeros factors (calculate_ord g p factors exponents len (p - 1)).1 len with
  | none =>
    rw [hdz] at hr
    cases hr
  | some res =>
    obtain ⟨f1, e1, len1⟩ := res
    rw [hdz] at hr
    simp only at hr
    by_cases hl1 : len1 = 0
    · rw [if_pos hl1] at hr
      cases hr
    · rw [if_neg hl1] at hr
      by_cases hg1 : (p : Int) ∣ g - 1
      · -- the group element is `1`
        have hG : (g : ZMod p) = 1 := by
          have := (ZMod.intCast_zmod_eq_zero_iff_dvd (g - 1) p).mpr hg1
          rw [Int.cast_sub, Int.cast_one, sub_eq_zero] at this
          exact this
        have hlen : len ≠ 0 := by
          rintro rfl
          have hf : factors = [] := List.length_eq_zero.mp hfl
          simp only [delete_zeros, delete_zeros_for] at hdz
          have := (Option.some.inj hdz)
          simp only [Prod.mk.injEq] at this
          exact hl1 this.2.2.symm
        have hord := calculate_ord_pos p hp hbits g hg0 factors exponents len hlen hel hprime
          hexp hprod
        have hQ0 : 0 ≤ mpz_powm (f1.getD (len1 - 1) 0) (e1.getD (len1 - 1) 0) p := by
          unfold mpz_powm
          split <;> exact Int.emod_nonneg _ (ne_of_gt hp0)
        obtain ⟨Qn, hQn⟩ : ∃ Qn : Nat,
            mpz_powm (f1.getD (len1 - 1) 0) (e1.getD (len1 - 1) 0) p = Qn :=
          ⟨_, (Int.toNat_of_nonneg hQ0).symm⟩
        have hH : (h : ZMod p) = 1 := by
          rw [hh, ZMod.intCast_mod, Int.cast_pow, hG, one_pow]
        have hhr : 0 ≤ h ∧ h < p := by
          rw [hh]; exact ⟨Int.emod_nonneg _ (ne_of_gt hp0), Int.emod_lt_of_pos _ hp0⟩
        rw [hQn] at hr
        have hg' : ∀ g' : Int, g' = (if (Qn : Int) ≠
            (calculate_ord g p factors exponents len (p - 1)).2 then mpz_powm g Qn p else g) →
            (g' : ZMod p) = 1 := by
          intro g' hg'
          by_cases hQ : (Qn : Int) ≠ (calculate_ord g p factors exponents len (p - 1)).2
          · rw [hg', if_pos hQ, cast_mpz_powm, hG, one_pow]
          · rw [hg', if_neg hQ, hG]
        have hh' : ∀ h' : Int, h' = (if (Qn : Int) ≠
            (calculate_ord g p factors exponents len (p - 1)).2 then mpz_powm h Qn p else h) →
            (h' : ZMod p) = 1 ∧ 0 ≤ h' ∧ h' < p := by
          intro h' hh'
          by_cases hQ : (Qn : Int) ≠ (calculate_ord g p factors exponents len (p - 1)).2
          · rw [hh', if_pos hQ, cast_mpz_powm, hH, one_pow, mpz_powm_natCast]
            exact ⟨rfl, Int.emod_nonneg _ (ne_of_gt hp0), Int.emod_lt_of_pos _ hp0⟩
          · rw [hh', if_neg hQ]
            exact ⟨hH, hhr⟩
        generalize hgd : (if (Qn : Int) ≠ (calculate_ord g p factors exponents len (p - 1)).2
          then mpz_powm g Qn p else g) = g' at hr
        generalize hhd : (if (Qn : Int) ≠ (calculate_ord g p factors exponents len (p - 1)).2
          then mpz_powm h Qn p else h) = h' at hr
        have hcrt := crt_returns_zero
          (pohling_loop search g' h' p (calculate_ord g p factors exponents len (p - 1)).2
            f1 e1 len1).1
          (pohling_loop search g' h' p (calculate_ord g p factors exponents len (p - 1)).2
            f1 e1 len1).2 len1 x0 hl1
        rw [if_neg (by rw [hcrt]; simp)] at hr
        have hr' := (Option.some.inj hr).symm
        subst hr'
        refine ⟨rfl, ?_⟩
        simp only
        have hX := Int.emod_nonneg
          (crt (some (pohling_loop search g' h' p
            (calculate_ord g p factors exponents len (p - 1)).2 f1 e1 len1).1)
            (some (pohling_loop search g' h' p
            (calculate_ord g p factors exponents len (p - 1)).2 f1 e1 len1).2) len1 x0).2
          (ne_of_gt hord)
        unfold mpz_mod
        generalize (crt _ _ len1 x0).2 % (calculate_ord g p factors exponents len (p - 1)).2 = Y
          at hX ⊢
        obtain ⟨Yn, rfl⟩ : ∃ Yn : Nat, Y = Yn := ⟨Y.toNat, (Int.toNat_of_nonneg hX).symm⟩
        obtain ⟨hh1, hh2⟩ := hh' h' hhd.symm
        apply intCast_eq_of_range p _ _ _ hh2
        · rw [cast_mpz_powm, hg' g' hgd.symm, one_pow, hh1]
        · rw [mpz_powm_natCast]
          exact ⟨Int.emod_nonneg _ (ne_of_gt hp0), Int.emod_lt_of_pos _ hp0⟩
      · -- the general case
        obtain ⟨n, qf, ef, hord, ho, hn, hqf, hqd, hpr⟩ := refined_factors p hp hbits g hg0 hg1
          factors exponents len hfl hel hprime hdist hexp hprod f1 e1 len1 hdz
        rw [hord] at hr
        obtain ⟨c1, c2⟩ := pohling_core_spec search p hp g h kk hg0 hh hs n hn ho f1 e1 len1 hl1
          qf ef hqf hqd hpr x0 _ _ rfl rfl
        rw [if_neg (by rw [c1]; simp)] at hr
        have hr' := (Option.some.inj hr).symm
        subst hr'
        exact ⟨rfl, c2⟩

/-! ## An exhaustive search as the outcome of the parallel region -/

theorem least_log_spec (G H p : Int) :
    ∀ (fuel k : Nat), (∃ m : Nat, k ≤ m ∧ m < k + fuel ∧ G ^ m % p = H % p) →
      ∃ y : Nat, least_log G H p fuel k = some (y : Int) ∧ y < k + fuel ∧
        G ^ y % p = H % p := by
  intro fuel
  induction fuel with
  | zero => rintro k ⟨m, h1, h2, -⟩; omega
  | succ fuel ih =>
    rintro k ⟨m, h1, h2, h3⟩
    by_cases hk : G ^ k % p = H % p
    · exact ⟨k, by simp [least_log, hk], by omega, hk⟩
    · have hmk : m ≠ k := fun h => hk (h ▸ h3)
      obtain ⟨y, hy1, hy2, hy3⟩ := ih (k + 1) ⟨m, by omega, by omega, h3⟩
      exact ⟨y, by simp only [least_log, if_neg hk, hy1], by omega, hy3⟩

theorem least_log_searchCorrect (p : Nat) (hp : p.Prime) (hp3 : 3 ≤ p) :
    SearchCorrect (fun _ _ G H => least_log G H p (p - 1) 0) p := by
  haveI : Fact p.Prime := ⟨hp⟩
  intro i j G H _ hex
  obtain ⟨k, hk⟩ := hex
  have hsmall : ∃ m : Nat, 0 ≤ m ∧ m < 0 + (p - 1) ∧ G ^ m % p = H % p := by
    by_cases hG : (G : ZMod p) = 0
    · rcases Nat.eq_zero_or_pos k with h0 | h0
      · exact ⟨0, le_refl _, by omega, by rw [← hk, h0]⟩
      · refine ⟨1, by omega, by omega, ?_⟩
        rw [← hk, pow_emod_eq_iff, hG, Int.cast_pow, hG, zero_pow (by omega), zero_pow (by omega)]
    · refine ⟨k % (p - 1), Nat.zero_le _, ?_, ?_⟩
      · have := Nat.mod_lt k (by omega : 0 < p - 1)
        omega
      · rw [← hk, pow_emod_eq_iff, Int.cast_pow]
        exact pow_eq_of_modEq p _ (p - 1) _ _ (ZMod.pow_card_sub_one_eq_one hG)
          (Nat.mod_modEq k (p - 1))
  obtain ⟨y, hy1, hy2, hy3⟩ := least_log_spec G H p (p - 1) 0 hsmall
  refine ⟨y, hy1, ?_⟩
  have h1 : ((y : Int)) % ((p : Int) - 1) = y :=
    Int.emod_eq_of_lt (Int.natCast_nonneg y) (by omega)
  rw [h1, Int.toNat_natCast]
  exact hy3

theorem calculate_ord_length (p : Nat) (hp : p.Prime) (hbits : Nat.log2 p < 2 ^ 64) (g : Int)
    (hg0 : ¬ (p : Int) ∣ g) (factors exponents : List Int) (len : Nat)
    (hel : exponents.length = len)
    (hprime : ∀ i, i < len → ∃ q : Nat, q.Prime ∧ factors.getD i 0 = q)
    (hexp : ∀ i, i < len → 1 ≤ exponents.getD i 0)
    (hprod : ord_product factors exponents len = p - 1) :
    (calculate_ord g p factors exponents len (p - 1)).1.length = len := by
  obtain ⟨hl, -, -, -, -⟩ :=
    calculate_ord_loop_spec p hp g hg0 factors exponents len hel hprime hexp
      (exponents_small p hp hbits factors exponents len hprime hprod) hprod len (le_refl _)
  by_cases h1 : (calculate_ord_loop g p factors exponents (p - 1) len).2 = 1
  · simp only [calculate_ord, h1, if_true, List.length_set]
    exact hl
  · simp only [calculate_ord, h1, if_false]
    exact hl

/-- When the exponent that `calculate_ord` leaves for the last factor is not `0`,
`pohling_discrete_log` returns. -/
theorem pohling_returns (search : Nat → Nat → Int → Int → Option Int) (p : Nat)
    (hp : p.Prime) (hbits : Nat.log2 p < 2 ^ 64) (g h : Int) (hg0 : ¬ (p : Int) ∣ g)
    (factors exponents : List Int) (len : Nat) (hlen : 0 < len)
    (hfl : factors.length = len) (hel : exponents.length = len)
    (hprime : ∀ i, i < len → ∃ q : Nat, q.Prime ∧ factors.getD i 0 = q)
    (hexp : ∀ i, i < len → 1 ≤ exponents.getD i 0)
    (hprod : ord_product factors exponents len = p - 1) (x0 : Int)
    (hlast : (calculate_ord g p factors exponents len (p - 1)).1.getD (len - 1) 0 ≠ 0) :
    ∃ r : PohlingResult,
      pohling_discrete_log search g h p factors exponents len x0 = some r := by
  have hl := calculate_ord_length p hp hbits g hg0 factors exponents len hel hprime hexp hprod
  obtain ⟨⟨f1, e1, len1⟩, hdz, hpos⟩ := delete_zeros_total factors
    (calculate_ord g p factors exponents len (p - 1)).1 len hlen (by omega) (by omega) hlast
  simp only at hpos
  have key : ∀ (c : Prop) [Decidable c] (a b : PohlingResult),
      ∃ r : PohlingResult, (if c then some a else some b) = some r := by
    intro c _ a b
    by_cases hc : c
    · exact ⟨a, by rw [if_pos hc]⟩
    · exact ⟨b, by rw [if_neg hc]⟩
  simp only [pohling_discrete_log, hdz, if_neg (by omega : ¬ len1 = 0)]
  exact key _ _ _

/-- On `p = 7`, `g = 6`, `h = 6` with the factor list `{(2, 1), (3, 1)}` the
exponent of the last factor is refined to `0` and `delete_zeros` runs into its
out-of-range `memmove`. -/
theorem pohling_undefined_7 (search : Nat → Nat → Int → Int → Option Int) (x0 : Int) :
    pohling_discrete_log search 6 6 7 [2, 3] [1, 1] 2 x0 = none := by
  have h1 : calculate_ord 6 7 [2, 3] [1, 1] 2 (7 - 1) = ([1, 0], 2) := by rfl
  have h2 : delete_zeros [2, 3] [1, 0] 2 = none := by rfl
  simp only [pohling_discrete_log, h1, h2]

/-! ## Facts about `ecm.c` -/

theorem eliptic_add_slope_range (P Q : Point) (E : ECurve) (hn : 0 < E.n) (t1 t2 : Int)
    (hs : eliptic_add_slope P Q E = some (t1, t2)) : 0 ≤ t2 ∧ t2 < E.n := by
  have e1 := fun t : Int => Int.emod_nonneg t (ne_of_gt hn)
  have e2 := fun t : Int => Int.emod_lt_of_pos t hn
  unfold eliptic_add_slope at hs
  by_cases hx : P.x = Q.x
  · by_cases hy : mpz_mod (P.y + Q.y) E.n = 0
    · simp [hx, hy] at hs
    · simp only [hx, hy, if_true, if_false, Option.some.injEq, Prod.mk.injEq] at hs
      rw [← hs.2]
      exact ⟨e1 _, e2 _⟩
  · simp only [hx, if_false, Option.some.injEq, Prod.mk.injEq] at hs
    rw [← hs.2]
    exact ⟨e1 _, e2 _⟩

theorem mpz_invert_fails (rop d n : Int) (hn : n ≠ 0) (hf : (mpz_invert rop d n).1 = 0) :
    Int.gcd d n ≠ 1 := by
  intro hc
  have := (mpz_invert_coprime rop d n hn hc).1
  rw [this] at hf
  exact one_ne_zero hf

/-- The outcome of `eliptic_add` on two points with `z ≠ 0`, by the slope and the
inversion. -/
theorem eliptic_add_cases (P Q : Point) (E : ECurve) (hP : P.z ≠ 0) (hQ : Q.z ≠ 0) :
    (eliptic_add_slope P Q E = none ∧ eliptic_add P Q E = { x := 0, y := 1, z := 0 }) ∨
    (∃ t1 t2, eliptic_add_slope P Q E = some (t1, t2) ∧ (mpz_invert 0 t2 E.n).1 = 0 ∧
      eliptic_add P Q E = { x := 0, y := 0, z := t2 }) ∨
    (∃ t1 t2, eliptic_add_slope P Q E = some (t1, t2) ∧ (mpz_invert 0 t2 E.n).1 ≠ 0 ∧
      (eliptic_add P Q E).z = 1) := by
  unfold eliptic_add
  simp only [hP, hQ, if_false]
  cases hs : eliptic_add_slope P Q E with
  | none => exact Or.inl ⟨rfl, rfl⟩
  | some s =>
    obtain ⟨t1, t2⟩ := s
    by_cases hi : (mpz_invert 0 t2 E.n).1 = 0
    · exact Or.inr (Or.inl ⟨t1, t2, rfl, hi, by simp only [hi, if_true]⟩)
    · exact Or.inr (Or.inr ⟨t1, t2, rfl, hi, by simp only [hi, if_false]⟩)

theorem eliptic_add_carries (n : Int) (hn : 0 < n) (P Q : Point) (E : ECurve) (hE : E.n = n)
    (hP : P.carries n) (hQ : Q.carries n) : (eliptic_add P Q E).carries n := by
  by_cases hPz : P.z = 0
  · have : eliptic_add P Q E = { x := Q.x, y := Q.y, z := Q.z } := by
      simp only [eliptic_add, hPz, if_true]
    rw [this]
    exact hQ
  · by_cases hQz : Q.z = 0
    · have : eliptic_add P Q E = P := by
        simp only [eliptic_add, hPz, hQz, if_true, if_false]
      rw [this]
      exact hP
    · rcases eliptic_add_cases P Q E hPz hQz with ⟨-, h⟩ | ⟨t1, t2, hs, hi, h⟩ | ⟨t1, t2, -, -, h⟩
      · rw [h]
        intro hz
        exact absurd hz (by decide)
      · rw [h]
        intro _
        have hr := eliptic_add_slope_range P Q E (by rw [hE]; exact hn) t1 t2 hs
        rw [hE] at hr hi
        exact ⟨hr.2, mpz_invert_fails 0 t2 n (ne_of_gt hn) hi⟩
      · intro hz
        rw [h] at hz
        exact absurd hz (by decide)

theorem eliptic_mul_loop_carries (n : Int) (hn : 0 < n) (E : ECurve) (hE : E.n = n) :
    ∀ (fuel k : Nat) (r p : Point), r.carries n → p.carries n →
      (eliptic_mul_loop E fuel k r p).carries n := by
  intro fuel
  induction fuel with
  | zero => intro k r p _ hp; exact hp
  | succ fuel ih =>
    intro k r p hr hp
    unfold eliptic_mul_loop
    by_cases hk : k = 0
    · simp only [hk, if_true]; exact hp
    · by_cases hz : 1 < p.z
      · simp only [hk, hz, if_true, if_false]; exact hp
      · simp only [hk, hz, if_false]
        have hr1 : (if ODD k = true then eliptic_add r p E else r).carries n := by
          by_cases ho : ODD k = true
          · simp only [ho, if_true]; exact eliptic_add_carries n hn r p E hE hr hp
          · simp only [ho, if_false]; exact hr
        exact ih _ _ _ hr1 (eliptic_add_carries n hn p _ E hE hp hr1)

theorem eliptic_mul_carries (n : Int) (hn : 0 < n) (E : ECurve) (hE : E.n = n) (k : Nat)
    (p : Point) (hp : p.carries n) : (eliptic_mul k p E).carries n :=
  eliptic_mul_loop_carries n hn E hE k k point_create p
    (fun hz => absurd hz (by decide)) hp

/-- The value `gcd (n, z)` for a `z` above `1` that a point carries is a
non-trivial factor of `n`. -/
theorem gcd_carried (n z : Int) (hz : 1 < z) (hzn : z < n) (hg : Int.gcd z n ≠ 1) :
    1 < (Int.gcd n z : Int) ∧ (Int.gcd n z : Int) < n ∧ n % (Int.gcd n z : Int) = 0 := by
  have hpos : 0 < Int.gcd n z := Int.gcd_pos_of_ne_zero_right n (by omega)
  have hne : Int.gcd n z ≠ 1 := by rw [Int.gcd_comm]; exact hg
  have hle : Int.gcd n z ≤ z.natAbs := Nat.le_of_dvd (by omega) (Int.natCast_dvd.mp Int.gcd_dvd_right)
  refine ⟨by omega, by omega, ?_⟩
  exact Int.emod_eq_zero_of_dvd (Int.gcd_dvd_left)

theorem ecm_prime_loop_spec (n : Int) (hn : 0 < n) (E : ECurve) (hE : E.n = n)
    (prime limit : Nat) :
    ∀ (fuel p : Nat) (point : Point), point.carries n →
      ∀ f, (ecm_prime_loop n E prime limit fuel p point).2 = some f →
        ∃ z : Int, 1 < z ∧ z < n ∧ Int.gcd z n ≠ 1 ∧ f = (Int.gcd n z : Int) := by
  intro fuel
  induction fuel with
  | zero => intro p point _ f hf; simp [ecm_prime_loop] at hf
  | succ fuel ih =>
    intro p point hpt f hf
    unfold ecm_prime_loop at hf
    by_cases hpl : p < limit
    · have hc := eliptic_mul_carries n hn E hE prime point hpt
      by_cases hz : 1 < (eliptic_mul prime point E).z
      · simp only [hpl, hz, if_true, Option.some.injEq] at hf
        exact ⟨_, hz, (hc hz).1, (hc hz).2, hf.symm⟩
      · simp only [hpl, hz, if_true, if_false] at hf
        exact ih _ _ hc f hf
    · simp [hpl] at hf

theorem ecm_prime_loop_carries (n : Int) (hn : 0 < n) (E : ECurve) (hE : E.n = n)
    (prime limit : Nat) :
    ∀ (fuel p : Nat) (point : Point), point.carries n →
      (ecm_prime_loop n E prime limit fuel p point).1.carries n := by
  intro fuel
  induction fuel with
  | zero => intro p point hpt; exact hpt
  | succ fuel ih =>
    intro p point hpt
    unfold ecm_prime_loop
    by_cases hpl : p < limit
    · have hc := eliptic_mul_carries n hn E hE prime point hpt
      by_cases hz : 1 < (eliptic_mul prime point E).z
      · simp only [hpl, hz, if_true]; exact hc
      · simp only [hpl, hz, if_true, if_false]
        exact ih _ _ hc
    · simp only [hpl, if_false]; exact hpt

theorem ecm_primes_loop_spec (n : Int) (hn : 0 < n) (E : ECurve) (hE : E.n = n) (limit : Nat) :
    ∀ (primes : List Nat) (point : Point), point.carries n →
      ∀ f, ecm_primes_loop n E limit primes point = some f →
        ∃ z : Int, 1 < z ∧ z < n ∧ Int.gcd z n ≠ 1 ∧ f = (Int.gcd n z : Int) := by
  intro primes
  induction primes with
  | nil => intro point _ f hf; simp [ecm_primes_loop] at hf
  | cons prime rest ih =>
    intro point hpt f hf
    unfold ecm_primes_loop at hf
    have h1 := ecm_prime_loop_spec n hn E hE prime limit limit prime point hpt
    have h2 := ecm_prime_loop_carries n hn E hE prime limit limit prime point hpt
    cases hres : ecm_prime_loop n E prime limit limit prime point with
    | mk pt o =>
      rw [hres] at hf h1 h2
      cases o with
      | none => exact ih pt h2 f hf
      | some f1 =>
        simp only [Option.some.injEq] at hf
        subst hf
        exact h1 f1 rfl

/-- The inner loop of `lenstra_ecm` for a `prime ≥ 2` ends by its own test within
`limit` iterations: more fuel does not change the result. -/
theorem ecm_prime_loop_fuel (n : Int) (E : ECurve) (prime limit : Nat) (hprime : 2 ≤ prime) :
    ∀ (fuel extra p : Nat) (point : Point), 1 ≤ p → limit ≤ p + fuel →
      ecm_prime_loop n E prime limit (fuel + extra) p point =
        ecm_prime_loop n E prime limit fuel p point := by
  intro fuel
  induction fuel with
  | zero =>
    intro extra p point _ hl
    cases extra with
    | zero => rfl
    | succ e =>
      have : ¬ p < limit := by omega
      simp only [Nat.zero_add, ecm_prime_loop, this, if_false]
  | succ fuel ih =>
    intro extra p point hp hl
    have : fuel + 1 + extra = (fuel + extra) + 1 := by omega
    rw [this]
    unfold ecm_prime_loop
    by_cases hpl : p < limit
    · have hpp : p + 1 ≤ p * prime := by nlinarith
      simp only [hpl, if_true]
      by_cases hz : 1 < (eliptic_mul prime point E).z
      · simp only [hz, if_true]
      · simp only [hz, if_false]
        exact ih extra _ _ (by omega) (by omega)
    · simp only [hpl, if_false]
/-- For `k = 1` the routine `eliptic_mul` leaves `p + (O + p)`: the accumulator
`r` becomes `p` and is then added to `p`. -/
theorem eliptic_mul_one (P : Point) (E : ECurve) (hz : ¬ 1 < P.z) :
    eliptic_mul 1 P E = eliptic_add P (eliptic_add point_create P E) E := by
  simp [eliptic_mul, eliptic_mul_loop, hz, ODD]

/-! ## The shared set -/

theorem mem_darray_insert {α : Type} (key : α → Int) (t x : α) :
    ∀ l : List α, x ∈ darray_insert key l t ↔ x = t ∨ x ∈ l := by
  intro l
  induction l with
  | nil => simp [darray_insert]
  | cons e rest ih =>
    unfold darray_insert
    by_cases hk : key t < key e
    · simp [hk]
    · simp only [hk, if_false, List.mem_cons, ih]
      tauto

theorem set_lookup_some {α : Type} (key : α → Int) (l : List α) (t pt : α)
    (h : set_lookup key l t = some pt) : pt ∈ l ∧ key pt = key t := by
  unfold set_lookup at h
  by_cases hl : 0 < l.length
  · simp only [hl, if_true, darray_search_first] at h
    exact ⟨List.mem_of_find?_eq_some h, by simpa using List.find?_some h⟩
  · simp [hl] at h

/-! ## Parallel rho: the walks and the critical section -/

theorem rho_parallel_walk_loop_tracks (p q : Nat) (g h : Int) :
    ∀ (fuel : Nat) (w : Walker), w.tracks p q g h →
      (rho_parallel_walk_loop g h p q fuel w).tracks p q g h := by
  intro fuel
  induction fuel with
  | zero => intro w hw; exact hw
  | succ fuel ih =>
    intro w hw
    unfold rho_parallel_walk_loop
    have h1 := single_step_tracks p q g h w hw
    by_cases hd : mpz_sizeinbase (single_step w g h p q).x 2 < POLLARD_TRESHOLD
    · simp only [hd, if_true]; exact h1
    · simp only [hd, if_false]; exact ih _ h1

theorem mpz_urandomb_nonneg (draw : Int) (n : Nat) : 0 ≤ mpz_urandomb draw n :=
  Int.emod_nonneg _ (pow_ne_zero n (by norm_num))

theorem rho_parallel_walk_tracks (p q : Nat) (hpq : p = 2 * q + 1) (g h draw_a draw_b : Int) :
    (rho_parallel_walk g h p draw_a draw_b).tracks p q g h := by
  unfold rho_parallel_walk
  simp only
  rw [hpq, mpz_div_two]
  apply rho_parallel_walk_loop_tracks
  have ha := mpz_urandomb_nonneg draw_a POLLARD_RAND_MAX
  have hb := mpz_urandomb_nonneg draw_b POLLARD_RAND_MAX
  refine ⟨(mpz_urandomb draw_a POLLARD_RAND_MAX).toNat,
    (mpz_urandomb draw_b POLLARD_RAND_MAX).toNat, ?_, ?_, ?_⟩
  · simp only
    rw [mpz_powm_of_nonneg _ _ _ ha, mpz_powm_of_nonneg _ _ _ hb, Int.cast_mul,
      ZMod.intCast_mod, ZMod.intCast_mod, Int.cast_pow, Int.cast_pow]
  · simp only [Int.toNat_of_nonneg ha]; exact Int.ModEq.refl _
  · simp only [Int.toNat_of_nonneg hb]; exact Int.ModEq.refl _

/-- Two triples at the same position give the logarithm: with `r = b - B`
invertible modulo `q`, the value `inv * (A - a) mod q` is the residue of every
logarithm `k` of `h` modulo `q`. -/
theorem rho_collision_solves (p q : Nat) (hp : p.Prime) (hq : q.Prime) (g h : Int)
    (hG : (g : ZMod p) ≠ 0) (k : Nat) (hk : (h : ZMod p) = (g : ZMod p) ^ k)
    (hord : q ∣ orderOf (g : ZMod p)) (w pt : Walker) (hw : w.tracks p q g h)
    (hpt : pt.tracks p q g h) (hx : pt.x = w.x) (rop : Int)
    (hi : (mpz_invert rop (w.b - pt.b) q).1 ≠ 0) :
    0 ≤ mpz_mod ((mpz_invert rop (w.b - pt.b) q).2 * (pt.a - w.a)) q ∧
      mpz_mod ((mpz_invert rop (w.b - pt.b) q).2 * (pt.a - w.a)) q < q ∧
      mpz_mod ((mpz_invert rop (w.b - pt.b) q).2 * (pt.a - w.a)) q ≡ k [ZMOD q] := by
  haveI : Fact p.Prime := ⟨hp⟩
  have hq0 : (0 : Int) < q := by exact_mod_cast hq.pos
  obtain ⟨a', b', tx, ta, tb⟩ := hw
  obtain ⟨A', B', rx, ra, rb⟩ := hpt
  have hpow : (g : ZMod p) ^ (a' + k * b') = (g : ZMod p) ^ (A' + k * B') := by
    have : (w.x : ZMod p) = (pt.x : ZMod p) := by rw [hx]
    rw [tx, rx, hk] at this
    rw [pow_add, pow_add, pow_mul, pow_mul]
    exact this
  have hmod : (a' + k * b' : Nat) ≡ (A' + k * B' : Nat) [MOD q] :=
    (zmod_pow_eq_imp_modEq p _ hG _ _ hpow).of_dvd hord
  have hmodz : (a' : Int) + k * b' ≡ A' + k * B' [ZMOD q] := by
    have := Int.natCast_modEq_iff.mpr hmod
    push_cast at this
    exact this
  have hz : w.a + k * w.b ≡ pt.a + k * pt.b [ZMOD q] :=
    ((ta.add (tb.mul_left k)).symm.trans hmodz).trans (ra.add (rb.mul_left k))
  have hkr : (k : Int) * (w.b - pt.b) ≡ pt.a - w.a [ZMOD q] := by
    have h1 := hz.sub_right (w.a + k * pt.b)
    have e1 : w.a + k * w.b - (w.a + k * pt.b) = (k : Int) * (w.b - pt.b) := by ring
    have e2 : pt.a + k * pt.b - (w.a + k * pt.b) = pt.a - w.a := by ring
    rw [e1, e2] at h1
    exact h1
  have hco : Int.gcd (w.b - pt.b) q = 1 := by
    by_contra hne
    rw [mpz_invert_not_coprime rop _ _ (ne_of_gt hq0) hne] at hi
    exact hi rfl
  obtain ⟨-, -, -, hinv⟩ := mpz_invert_coprime rop (w.b - pt.b) q (ne_of_gt hq0) hco
  refine ⟨Int.emod_nonneg _ (ne_of_gt hq0), Int.emod_lt_of_pos _ hq0, ?_⟩
  have h2 : (mpz_invert rop (w.b - pt.b) q).2 * (pt.a - w.a) ≡
      (mpz_invert rop (w.b - pt.b) q).2 * ((k : Int) * (w.b - pt.b)) [ZMOD q] :=
    (hkr.mul_left _).symm
  have h3 : (mpz_invert rop (w.b - pt.b) q).2 * ((k : Int) * (w.b - pt.b)) =
      (k : Int) * ((w.b - pt.b) * (mpz_invert rop (w.b - pt.b) q).2) := by ring
  have h4 : (k : Int) * ((w.b - pt.b) * (mpz_invert rop (w.b - pt.b) q).2) ≡ k * 1 [ZMOD q] :=
    hinv.mul_left _
  rw [h3] at h2
  rw [mul_one] at h4
  exact (Int.mod_modEq _ _).trans (h2.trans h4)

theorem rho_critical_sound (p q : Nat) (hp : p.Prime) (hq : q.Prime) (g h : Int)
    (hG : (g : ZMod p) ≠ 0) (k : Nat) (hk : (h : ZMod p) = (g : ZMod p) ^ k)
    (hord : q ∣ orderOf (g : ZMod p)) (s : RhoShared) (w : Walker)
    (hs : s.sound p q g h k) (hw : w.tracks p q g h) :
    (rho_critical q s w).sound p q g h k := by
  unfold rho_critical
  cases hl : set_lookup Walker.x s.array w with
  | none =>
    refine ⟨fun t ht => ?_, hs.2⟩
    rcases (mem_darray_insert Walker.x w t s.array).mp ht with rfl | h1
    · exact hw
    · exact hs.1 t h1
  | some pt =>
    obtain ⟨hmem, hx⟩ := set_lookup_some Walker.x s.array w pt hl
    simp only
    by_cases hr : w.b - pt.b ≠ 0
    · by_cases hi : (mpz_invert w.x (w.b - pt.b) q).1 ≠ 0
      · rw [if_pos hr, if_pos hi]
        exact ⟨hs.1, fun _ => rho_collision_solves p q hp hq g h hG k hk hord w pt hw
          (hs.1 pt hmem) hx w.x hi⟩
      · rw [if_pos hr, if_neg hi]
        exact hs
    · rw [if_neg hr]
      exact hs

theorem rho_region_step_sound (p q : Nat) (hp : p.Prime) (hq : q.Prime) (hpq : p = 2 * q + 1)
    (g h : Int) (hG : (g : ZMod p) ≠ 0) (k : Nat) (hk : (h : ZMod p) = (g : ZMod p) ^ k)
    (hord : q ∣ orderOf (g : ZMod p)) (st : RhoRegion) (i : Nat) (draw_a draw_b : Int)
    (hst : st.sound p q g h k) : (rho_region_step g h p st i draw_a draw_b).sound p q g h k := by
  subst hpq
  unfold rho_region_step
  cases hwi : st.workers.getD i none with
  | some w =>
    have hmem : some w ∈ st.workers := by
      rw [List.getD_eq_getElem?_getD] at hwi
      cases hg : st.workers[i]? with
      | none => rw [hg] at hwi; simp at hwi
      | some o =>
        rw [hg] at hwi
        simp only [Option.getD_some] at hwi
        rw [hwi] at hg
        exact List.mem_iff_getElem?.mpr ⟨i, hg⟩
    refine ⟨?_, fun w1 hw1 => ?_⟩
    · simp only
      rw [mpz_div_two]
      exact rho_critical_sound _ q hp hq g h hG k hk hord _ w hst.1 (hst.2 w hmem)
    · rcases List.mem_or_eq_of_mem_set hw1 with h1 | h1
      · exact hst.2 w1 h1
      · cases h1
  | none =>
    simp only
    by_cases hd : st.shared.done = true
    · simp only [hd, if_true]; exact hst
    · simp only [hd]
      refine ⟨hst.1, fun w1 hw1 => ?_⟩
      rcases List.mem_or_eq_of_mem_set hw1 with h1 | h1
      · exact hst.2 w1 h1
      · simp only [Option.some.injEq] at h1
        rw [h1]
        exact rho_parallel_walk_tracks _ q rfl g h draw_a draw_b

theorem rho_region_sound (p q : Nat) (hp : p.Prime) (hq : q.Prime) (hpq : p = 2 * q + 1)
    (g h : Int) (hG : (g : ZMod p) ≠ 0) (k : Nat) (hk : (h : ZMod p) = (g : ZMod p) ^ k)
    (hord : q ∣ orderOf (g : ZMod p)) (nproc : Nat) (schedule : List (Nat × Int × Int))
    (res : Int) : (rho_region g h p nproc schedule res).sound p q g h k := by
  unfold rho_region
  have key : ∀ (l : List (Nat × Int × Int)) (st : RhoRegion), st.sound p q g h k →
      (l.foldl (fun st m => rho_region_step g h p st m.1 m.2.1 m.2.2) st).sound p q g h k := by
    intro l
    induction l with
    | nil => intro st hst; exact hst
    | cons m rest ih =>
      intro st hst
      exact ih _ (rho_region_step_sound p q hp hq hpq g h hG k hk hord st _ _ _ hst)
  apply key
  refine ⟨⟨fun t ht => ?_, fun hd => ?_⟩, fun w hw => ?_⟩
  · simp at ht
  · simp at hd
  · simp only [List.mem_replicate] at hw
    exact absurd hw.2 (by simp)

/-- A residue of the logarithm modulo the order `q` of `g`, in `[0, q)`, is a
logarithm. -/
theorem powm_of_residue (p q : Nat) (hp : p.Prime) (g h : Int) (hh : 1 ≤ h ∧ h < p)
    (k : Nat) (hk : h = g ^ k % p) (ho : orderOf (g : ZMod p) = q) (x : Int)
    (h0 : 0 ≤ x) (hm : x ≡ k [ZMOD q]) : mpz_powm g x p = h := by
  haveI : Fact p.Prime := ⟨hp⟩
  have hnat : x.toNat ≡ k [MOD q] := by
    apply Int.natCast_modEq_iff.mp
    rw [Int.toNat_of_nonneg h0]
    exact hm
  have hpow : (g : ZMod p) ^ x.toNat = (g : ZMod p) ^ k := by
    rw [← pow_mod_orderOf, ← pow_mod_orderOf _ k, ho]
    exact congrArg _ hnat
  have e : g ^ x.toNat % p = g ^ k % p :=
    (pow_emod_eq_iff p g _ (g ^ k)).mpr (by rw [hpow, Int.cast_pow])
  rw [mpz_powm_of_nonneg _ _ _ h0, e]
  exact hk.symm

/-! ## Pollard lambda: the set-up, the jumps and the critical section -/

theorem lambda_params_tables (g p : Int) (nproc i : Nat) (hi : i < (lambda_params g p nproc).r) :
    (lambda_params g p nproc).dists.getD i 0 = 2 ^ i ∧
      (lambda_params g p nproc).jumps.getD i 0 = mpz_powm g (2 ^ i) p := by
  unfold lambda_params at hi ⊢
  simp only at hi ⊢
  constructor
  · rw [List.getD_eq_getElem?_getD, List.getElem?_map, List.getElem?_range hi]
    rfl
  · rw [List.getD_eq_getElem?_getD, List.getElem?_map, List.getElem?_map,
      List.getElem?_range hi]
    rfl

theorem mpz_sqrt_nonneg (op : Int) : 0 ≤ mpz_sqrt op := Int.natCast_nonneg _

theorem mpz_div_nonneg (a b : Int) (ha : 0 ≤ a) (hb : 0 ≤ b) : 0 ≤ mpz_div a b :=
  Int.fdiv_nonneg ha hb

theorem lambda_params_v_nonneg (g p : Int) (nproc : Nat) : 0 ≤ (lambda_params g p nproc).v := by
  unfold lambda_params
  simp only
  apply mpz_div_nonneg _ _ _ (Int.natCast_nonneg _)
  apply mpz_div_nonneg _ _ _ (by norm_num)
  exact mul_nonneg (mpz_sqrt_nonneg _) (Int.natCast_nonneg _)

theorem lambda_params_mid (g : Int) (p nproc : Nat) (hp : 1 ≤ p) :
    0 ≤ mpz_div ((lambda_params g p nproc).a + (lambda_params g p nproc).b) 2 := by
  unfold lambda_params
  simp only
  apply mpz_div_nonneg _ _ _ (by norm_num)
  have : (1 : Int) ≤ p := by exact_mod_cast hp
  omega

theorem kangaroo_start_tracks (g h : Int) (p nproc tid : Nat) (hp : 1 ≤ p) :
    (kangaroo_start g h p (lambda_params g p nproc) tid).triple.tracks p g h
      (mpz_div ((lambda_params g p nproc).a + (lambda_params g p nproc).b) 2) := by
  have hv := lambda_params_v_nonneg g p nproc
  have hm := lambda_params_mid g p nproc hp
  have hd : 0 ≤ (((tid + 2) >>> 1 : Nat) : Int) * (lambda_params g p nproc).v :=
    mul_nonneg (Int.natCast_nonneg _) hv
  unfold kangaroo_start Kangaroo.triple Pollard_triple.tracks
  simp only
  refine ⟨hd, ?_⟩
  by_cases ho : ODD tid = true
  · simp only [ho, if_true]
    rw [if_neg (by decide), if_neg (by decide)]
    simp only [mpz_mod]
    rw [ZMod.intCast_mod, Int.cast_mul, mpz_powm_of_nonneg _ _ _ hd, ZMod.intCast_mod,
      Int.cast_pow]
  · have ho1 : ODD tid = false := by simpa using ho
    simp only [ho1, Bool.false_eq_true, if_false, if_true]
    rw [mpz_powm_of_nonneg _ _ _ (by omega), ZMod.intCast_mod, Int.cast_pow]

theorem kangaroo_jump_tracks (hash : Int → Nat) (g h mid : Int) (p nproc : Nat)
    (hr : 0 < (lambda_params g p nproc).r) (hmid : 0 ≤ mid) (k : Kangaroo)
    (hk : k.triple.tracks p g h mid) :
    (kangaroo_jump hash p (lambda_params g p nproc) k).triple.tracks p g h mid := by
  obtain ⟨hd, hpos⟩ := hk
  have hi : hash k.pos % (lambda_params g p nproc).r < (lambda_params g p nproc).r :=
    Nat.mod_lt _ hr
  obtain ⟨e1, e2⟩ := lambda_params_tables g p nproc _ hi
  have e3 : ((2 : Int) ^ (hash k.pos % (lambda_params g p nproc).r)) =
      ((2 ^ (hash k.pos % (lambda_params g p nproc).r) : Nat) : Int) := by push_cast; rfl
  have hcast : ((mpz_powm g (2 ^ (hash k.pos % (lambda_params g p nproc).r)) p : Int) : ZMod p) =
      (g : ZMod p) ^ (2 ^ (hash k.pos % (lambda_params g p nproc).r)) := by
    rw [e3, cast_mpz_powm]
  unfold kangaroo_jump Kangaroo.triple Pollard_triple.tracks
  simp only [Kangaroo.triple] at hd hpos ⊢
  rw [e1, e2]
  have h2 : (0 : Int) ≤ 2 ^ (hash k.pos % (lambda_params g p nproc).r) := by positivity
  refine ⟨by omega, ?_⟩
  by_cases ht : k.type = kangaroo_t.KANGAROO_TAME
  · simp only [ht, if_true] at hpos ⊢
    simp only [mpz_mod]
    rw [ZMod.intCast_mod, Int.cast_mul, hpos, hcast, ← pow_add]
    congr 1
    rw [e3] at h2 ⊢
    omega
  · simp only [ht, if_false] at hpos ⊢
    simp only [mpz_mod]
    rw [ZMod.intCast_mod, Int.cast_mul, hpos, hcast, mul_assoc, ← pow_add]
    congr 2
    rw [e3] at h2 ⊢
    omega

/-- A tame and a wild kangaroo at the same position give the logarithm:
`mid + dTAME - dWILD`, reduced modulo `p - 1`. -/
theorem kangaroo_collision (p : Nat) (hp : p.Prime) (g h : Int) (hG : (g : ZMod p) ≠ 0)
    (mid dT dW : Int) (hmT : 0 ≤ mid + dT) (hW : 0 ≤ dW)
    (hcol : (g : ZMod p) ^ (mid + dT).toNat = (h : ZMod p) * (g : ZMod p) ^ dW.toNat) :
    (g : ZMod p) ^ (mpz_mod (mid + dT - dW) ((p : Int) - 1)).toNat = (h : ZMod p) := by
  haveI : Fact p.Prime := ⟨hp⟩
  have hp1 : (0 : Int) < (p : Int) - 1 := by
    have := hp.two_le
    have : (2 : Int) ≤ p := by exact_mod_cast this
    omega
  have hy0 : 0 ≤ mpz_mod (mid + dT - dW) ((p : Int) - 1) := Int.emod_nonneg _ (ne_of_gt hp1)
  have hM : (g : ZMod p) ^ (p - 1) = 1 := ZMod.pow_card_sub_one_eq_one hG
  have hmod : (mpz_mod (mid + dT - dW) ((p : Int) - 1)).toNat + dW.toNat ≡ (mid + dT).toNat
      [MOD (p - 1)] := by
    apply Int.natCast_modEq_iff.mp
    push_cast
    rw [Int.toNat_of_nonneg hy0, Int.toNat_of_nonneg hW, Int.toNat_of_nonneg hmT,
      Nat.cast_sub hp.one_le]
    have h1 : mpz_mod (mid + dT - dW) ((p : Int) - 1) ≡ mid + dT - dW [ZMOD ((p : Int) - 1)] :=
      Int.mod_modEq _ _
    have h2 := h1.add_right dW
    have e : mid + dT - dW + dW = mid + dT := by ring
    rw [e] at h2
    exact_mod_cast h2
  have hpow := pow_eq_of_modEq p (g : ZMod p) (p - 1) _ _ hM hmod
  rw [pow_add, hcol] at hpow
  exact mul_right_cancel₀ (pow_ne_zero _ hG) hpow

theorem lambda_critical_finished (P : LambdaParams) (s : LambdaShared) (t : Pollard_triple)
    (hf : s.finish = true) : lambda_critical P s t = s := by
  unfold lambda_critical
  rw [if_pos hf]

theorem lambda_critical_sound (p : Nat) (hp : p.Prime) (g h : Int) (hG : (g : ZMod p) ≠ 0)
    (P : LambdaParams) (hmid : 0 ≤ mpz_div (P.a + P.b) 2) (s : LambdaShared)
    (t : Pollard_triple) (hs : s.sound p g h (mpz_div (P.a + P.b) 2))
    (ht : t.tracks p g h (mpz_div (P.a + P.b) 2)) :
    (lambda_critical P s t).sound p g h (mpz_div (P.a + P.b) 2) := by
  have hins : LambdaShared.sound p g h (mpz_div (P.a + P.b) 2)
      { s with set := darray_insert Pollard_triple.pos s.set t } := by
    refine ⟨fun t1 ht1 => ?_, hs.2⟩
    rcases (mem_darray_insert Pollard_triple.pos t t1 s.set).mp ht1 with rfl | h1
    · exact ht
    · exact hs.1 t1 h1
  unfold lambda_critical
  by_cases hf : s.finish = true
  · rw [if_pos hf]; exact hs
  · rw [if_neg hf]
    cases hl : set_lookup Pollard_triple.pos s.set t with
    | none => exact hins
    | some pt =>
      obtain ⟨hmem, hx⟩ := set_lookup_some Pollard_triple.pos s.set t pt hl
      have hpt := hs.1 pt hmem
      simp only
      by_cases hty : pt.type ≠ t.type
      · rw [if_pos hty]
        refine ⟨hs.1, fun _ => ?_⟩
        simp only
        obtain ⟨hd1, hp1⟩ := ht
        obtain ⟨hd2, hp2⟩ := hpt
        by_cases htame : t.type = kangaroo_t.KANGAROO_TAME
        · have hwild : ¬ pt.type = kangaroo_t.KANGAROO_TAME := fun e => hty (by rw [e, htame])
          rw [if_pos htame] at hp1 ⊢
          rw [if_neg hwild] at hp2
          apply kangaroo_collision p hp g h hG _ _ _ (by omega) hd2
          rw [← hp1, ← hp2, hx]
        · have htame2 : pt.type = kangaroo_t.KANGAROO_TAME := by
            cases h1 : pt.type with
            | KANGAROO_TAME => rfl
            | KANGAROO_WILD =>
              cases h2 : t.type with
              | KANGAROO_TAME => exact absurd h2 htame
              | KANGAROO_WILD => exact absurd (h1.trans h2.symm) hty
          rw [if_neg htame] at hp1 ⊢
          rw [if_pos htame2] at hp2
          apply kangaroo_collision p hp g h hG _ _ _ (by omega) hd1
          rw [← hp1, ← hp2, hx]
      · rw [if_neg hty]
        exact hins

theorem kangaroo_move_sound (hash : Int → Nat) (p : Nat) (hp : p.Prime) (g h : Int)
    (hG : (g : ZMod p) ≠ 0) (nproc : Nat) (hr : 0 < (lambda_params g p nproc).r)
    (s : LambdaShared) (k : Kangaroo)
    (hs : s.sound p g h
      (mpz_div ((lambda_params g p nproc).a + (lambda_params g p nproc).b) 2))
    (hk : k.triple.tracks p g h
      (mpz_div ((lambda_params g p nproc).a + (lambda_params g p nproc).b) 2)) :
    (kangaroo_move hash p (lambda_params g p nproc) s k).1.sound p g h
        (mpz_div ((lambda_params g p nproc).a + (lambda_params g p nproc).b) 2) ∧
      (kangaroo_move hash p (lambda_params g p nproc) s k).2.triple.tracks p g h
        (mpz_div ((lambda_params g p nproc).a + (lambda_params g p nproc).b) 2) := by
  have hmid := lambda_params_mid g p nproc hp.one_le
  unfold kangaroo_move
  by_cases hw : k.waiting = true
  · rw [if_pos hw]
    exact ⟨lambda_critical_sound p hp g h hG _ hmid s _ hs hk, hk⟩
  · rw [if_neg hw]
    by_cases hc : k.step < (lambda_params g p nproc).order_g ∧ ¬ s.finish = true
    · rw [if_pos hc]
      have hj := kangaroo_jump_tracks hash g h _ p nproc hr hmid k hk
      simp only
      by_cases hd : mpz_sizeinbase (kangaroo_jump hash p (lambda_params g p nproc) k).pos 2 <
          POLLARD_TRESHOLD
      · rw [if_pos hd]; exact ⟨hs, hj⟩
      · rw [if_neg hd]; exact ⟨hs, hj⟩
    · rw [if_neg hc]; exact ⟨hs, hk⟩

theorem lambda_region_step_sound (hash : Int → Nat) (p : Nat) (hp : p.Prime) (g h : Int)
    (hG : (g : ZMod p) ≠ 0) (nproc : Nat) (hr : 0 < (lambda_params g p nproc).r)
    (st : LambdaRegion) (i : Nat)
    (hst : st.sound p g h
      (mpz_div ((lambda_params g p nproc).a + (lambda_params g p nproc).b) 2)) :
    (lambda_region_step hash p (lambda_params g p nproc) st i).sound p g h
      (mpz_div ((lambda_params g p nproc).a + (lambda_params g p nproc).b) 2) := by
  unfold lambda_region_step
  cases hk : st.workers.get? i with
  | none => exact hst
  | some k =>
    have hmem : k ∈ st.workers := List.get?_mem hk
    obtain ⟨h1, h2⟩ := kangaroo_move_sound hash p hp g h hG nproc hr st.shared k hst.1
      (hst.2 k hmem)
    refine ⟨h1, fun k1 hk1 => ?_⟩
    rcases List.mem_or_eq_of_mem_set hk1 with h3 | h3
    · exact hst.2 k1 h3
    · rw [h3]; exact h2

theorem lambda_region_sound (hash : Int → Nat) (p : Nat) (hp : p.Prime) (g h : Int)
    (hG : (g : ZMod p) ≠ 0) (nproc : Nat) (hr : 0 < (lambda_params g p nproc).r)
    (schedule : List Nat) (res : Int) :
    (lambda_region hash g h p nproc schedule res).sound p g h
      (mpz_div ((lambda_params g p nproc).a + (lambda_params g p nproc).b) 2) := by
  unfold lambda_region
  have key : ∀ (l : List Nat) (st : LambdaRegion),
      st.sound p g h (mpz_div ((lambda_params g p nproc).a + (lambda_params g p nproc).b) 2) →
      (l.foldl (lambda_region_step hash p (lambda_params g p nproc)) st).sound p g h
        (mpz_div ((lambda_params g p nproc).a + (lambda_params g p nproc).b) 2) := by
    intro l
    induction l with
    | nil => intro st hst; exact hst
    | cons m rest ih =>
      intro st hst
      exact ih _ (lambda_region_step_sound hash p hp g h hG nproc hr st m hst)
  apply key
  refine ⟨⟨fun t ht => ?_, fun hd => ?_⟩, fun k hk => ?_⟩
  · simp at ht
  · simp at hd
  · simp only [List.mem_map, List.mem_range] at hk
    obtain ⟨tid, -, rfl⟩ := hk
    exact kangaroo_start_tracks g h p nproc tid hp.one_le

/-! ## The check of the factor list in `main` -/

/-- On a list of positive factors with exponents `≥ 0` whose product of powers is
`p - 1`, the product of the residues that `main` accumulates is that product, and
`main` goes on to the call. -/
theorem main_dispatches_of_product (p : Int) (hp : 2 ≤ p) (factors exponents : List Int)
    (len : Nat) (hpos : ∀ i, i < len → 1 ≤ factors.getD i 0)
    (hexp : ∀ i, i < len → 0 ≤ exponents.getD i 0)
    (hprod : ord_product factors exponents len = p - 1) :
    main_dispatches p factors exponents len = true := by
  have hsmall : ∀ i, i < len →
      mpz_powm (factors.getD i 0) (exponents.getD i 0) p =
        factors.getD i 0 ^ (exponents.getD i 0).toNat := by
    intro i hi
    have hd := ord_product_dvd factors exponents len i hi
    rw [hprod] at hd
    have hle := Int.le_of_dvd (by omega) hd
    have h0 : 0 ≤ factors.getD i 0 ^ (exponents.getD i 0).toNat :=
      pow_nonneg (by have := hpos i hi; omega) _
    rw [mpz_powm_of_nonneg _ _ _ (hexp i hi)]
    exact Int.emod_eq_of_lt h0 (by omega)
  have heq : ∀ k, k ≤ len → main_prod p factors exponents k = ord_product factors exponents k := by
    intro k
    induction k with
    | zero => intro _; rfl
    | succ k ih =>
      intro hk
      simp only [main_prod, ord_product]
      rw [ih (by omega), hsmall k (by omega)]
  unfold main_dispatches
  rw [heq len (le_refl _), hprod]
  simp

/-! ## The walk: the relation between position and exponents, and the first collision -/

/-- Exponents may be reduced modulo `q` when `g ^ q ≡ 1 (mod p)`. -/
theorem pow_emod_of_pow_eq_one (p q g : Int) (hq : 1 ≤ q) (hgq : g ^ q.toNat ≡ 1 [ZMOD p])
    (n : Int) (hn : 0 ≤ n) : g ^ (n % q).toNat ≡ g ^ n.toNat [ZMOD p] := by
  have hq0 : q ≠ 0 := by omega
  have h1 : 0 ≤ n % q := Int.emod_nonneg n hq0
  have h2 : 0 ≤ n / q := Int.ediv_nonneg hn (by omega)
  have hsplit : n.toNat = q.toNat * (n / q).toNat + (n % q).toNat := by
    have e := Int.ediv_add_emod n q
    have hmul : 0 ≤ q * (n / q) := mul_nonneg (by omega) h2
    apply Int.ofNat_inj.mp
    push_cast
    rw [Int.toNat_of_nonneg hn, Int.toNat_of_nonneg (by omega : 0 ≤ q), Int.toNat_of_nonneg h2,
      Int.toNat_of_nonneg h1]
    exact e.symm
  rw [hsplit, pow_add, pow_mul]
  have h3 : (g ^ q.toNat) ^ (n / q).toNat ≡ 1 ^ (n / q).toNat [ZMOD p] := hgq.pow _
  rw [one_pow] at h3
  have h4 := h3.mul_right (g ^ (n % q).toNat)
  rw [one_mul] at h4
  exact h4.symm

theorem single_step_relation (p q g h : Int) (hq : 1 ≤ q) (hgq : g ^ q.toNat ≡ 1 [ZMOD p])
    (hhq : h ^ q.toNat ≡ 1 [ZMOD p]) (w : Walker) (hw : w.relation p g h) :
    (single_step w g h p q).relation p g h := by
  obtain ⟨ha, hb, hx⟩ := hw
  have hq0 : q ≠ 0 := by omega
  rcases emod_three_cases w.x with h3 | h3 | h3
  · have ha1 : 0 ≤ w.a + 1 := by omega
    refine ⟨?_, ?_, ?_⟩
    · simp only [single_step, g_f, h3, if_true, mpz_mod]
      exact Int.emod_nonneg _ hq0
    · simpa [single_step, h_f, h3] using hb
    · simp only [single_step, f_f, g_f, h_f, h3, if_true, mpz_mod]
      have e1 := pow_emod_of_pow_eq_one p q g hq hgq (w.a + 1) ha1
      have e2 : (w.a + 1).toNat = w.a.toNat + 1 := by omega
      rw [e2, pow_succ] at e1
      have e3 : w.x * g ≡ g ^ w.a.toNat * g * h ^ w.b.toNat [ZMOD p] := by
        have := hx.mul_right g
        have e : g ^ w.a.toNat * h ^ w.b.toNat * g = g ^ w.a.toNat * g * h ^ w.b.toNat := by ring
        rw [e] at this
        exact this
      exact (Int.mod_modEq _ _).trans (e3.trans (e1.symm.mul_right _))
  · have hb1 : 0 ≤ w.b + 1 := by omega
    refine ⟨?_, ?_, ?_⟩
    · simpa [single_step, g_f, h3] using ha
    · simp only [single_step, h_f, h3, mpz_mod]
      norm_num
      exact Int.emod_nonneg _ hq0
    · simp only [single_step, f_f, g_f, h_f, h3, mpz_mod]
      norm_num
      have e1 := pow_emod_of_pow_eq_one p q h hq hhq (w.b + 1) hb1
      have e2 : (w.b + 1).toNat = w.b.toNat + 1 := by omega
      rw [e2, pow_succ] at e1
      have e3 : w.x * h ≡ g ^ w.a.toNat * (h ^ w.b.toNat * h) [ZMOD p] := by
        have := hx.mul_right h
        rw [mul_assoc] at this
        exact this
      exact (Int.mod_modEq _ _).trans (e3.trans (e1.symm.mul_left _))
  · have ha2 : 0 ≤ w.a * 2 := by omega
    have hb2 : 0 ≤ w.b * 2 := by omega
    refine ⟨?_, ?_, ?_⟩
    · simp only [single_step, g_f, h3, mpz_mod]
      norm_num
      exact Int.emod_nonneg _ hq0
    · simp only [single_step, h_f, h3, mpz_mod]
      norm_num
      exact Int.emod_nonneg _ hq0
    · simp only [single_step, f_f, g_f, h_f, h3, mpz_mod]
      norm_num
      have e1 := pow_emod_of_pow_eq_one p q g hq hgq (w.a * 2) ha2
      have e2 := pow_emod_of_pow_eq_one p q h hq hhq (w.b * 2) hb2
      have e3 : (w.a * 2).toNat = w.a.toNat * 2 := by omega
      have e4 : (w.b * 2).toNat = w.b.toNat * 2 := by omega
      rw [e3] at e1
      rw [e4] at e2
      have e5 : w.x * w.x ≡ g ^ (w.a.toNat * 2) * h ^ (w.b.toNat * 2) [ZMOD p] := by
        have := hx.mul hx
        have e : g ^ w.a.toNat * h ^ w.b.toNat * (g ^ w.a.toNat * h ^ w.b.toNat) =
            g ^ (w.a.toNat * 2) * h ^ (w.b.toNat * 2) := by ring
        rw [e] at this
        exact this
      exact (Int.mod_modEq _ _).trans (e5.trans (e1.symm.mul e2.symm))

/-- The loop ends at the first iteration after which the positions agree, when
there is one within the bound. -/
theorem rho_loop_first_collision (g h p q : Int) :
    ∀ (fuel : Nat) (s : RhoState),
      (∃ i : Nat, 1 ≤ i ∧ i ≤ fuel ∧
        ((rho_body g h p q)^[i] s).rabbit.x = ((rho_body g h p q)^[i] s).tortoise.x) →
      ∃ i : Nat, 1 ≤ i ∧ i ≤ fuel ∧ rho_loop g h p q fuel s = (rho_body g h p q)^[i] s ∧
        ((rho_body g h p q)^[i] s).rabbit.x = ((rho_body g h p q)^[i] s).tortoise.x ∧
        ∀ j : Nat, 1 ≤ j → j < i →
          ((rho_body g h p q)^[j] s).rabbit.x ≠ ((rho_body g h p q)^[j] s).tortoise.x := by
  intro fuel
  induction fuel with
  | zero => rintro s ⟨i, h1, h2, -⟩; omega
  | succ k ih =>
    rintro s ⟨i, h1, h2, h3⟩
    by_cases hc : (rho_body g h p q s).rabbit.x = (rho_body g h p q s).tortoise.x
    · refine ⟨1, le_refl _, by omega, ?_, hc, fun j hj1 hj2 => by omega⟩
      simp only [rho_loop, hc, if_true, Function.iterate_one]
    · have hex : ∃ i : Nat, 1 ≤ i ∧ i ≤ k ∧
          ((rho_body g h p q)^[i] (rho_body g h p q s)).rabbit.x =
            ((rho_body g h p q)^[i] (rho_body g h p q s)).tortoise.x := by
        obtain ⟨j, rfl⟩ := Nat.exists_eq_add_of_le h1
        rw [Nat.add_comm 1 j, Function.iterate_succ_apply] at h3
        rcases Nat.eq_zero_or_pos j with hj | hj
        · subst hj; exact absurd h3 hc
        · exact ⟨j, hj, by omega, h3⟩
      obtain ⟨i1, a1, a2, a3, a4, a5⟩ := ih (rho_body g h p q s) hex
      refine ⟨i1 + 1, by omega, by omega, ?_, ?_, ?_⟩
      · simp only [rho_loop, hc, if_false]
        rw [a3, Function.iterate_succ_apply]
      · rw [Function.iterate_succ_apply]; exact a4
      · intro j hj1 hj2
        obtain ⟨j1, rfl⟩ := Nat.exists_eq_add_of_le hj1
        rw [Nat.add_comm 1 j1, Function.iterate_succ_apply]
        rcases Nat.eq_zero_or_pos j1 with hj | hj
        · subst hj; exact hc
        · exact a5 j1 hj (by omega)

/-- Floyd: for a prime `p` and `g`, `h` in `[1, p)`, within `p - 1` iterations the
rabbit meets the tortoise. -/
theorem rho_collision_exists (p : Nat) (hp : p.Prime) (g h : Int) (hg : 1 ≤ g ∧ g < p)
    (hh : 1 ≤ h ∧ h < p) (q : Int) :
    ∃ i : Nat, 1 ≤ i ∧ i ≤ ((p : Int) - 1).toNat ∧
      ((rho_body g h p q)^[i] (rho_start g h)).rabbit.x =
        ((rho_body g h p q)^[i] (rho_start g h)).tortoise.x := by
  have hpi : Prime (p : Int) := Nat.prime_iff_prime_int.mp hp
  have hgd := not_dvd_of_mem_range p g hg.1 hg.2
  have hhd := not_dvd_of_mem_range p h hh.1 hh.2
  have h0 : ¬ (p : Int) ∣ g * h := fun hd => (hpi.dvd_or_dvd hd).elim hgd hhd
  have hmaps : ∀ x ∈ Finset.Icc (1 : Int) (p - 1),
      pos_step g h p x ∈ Finset.Icc (1 : Int) (p - 1) := by
    intro x hx
    rw [Finset.mem_Icc] at hx
    exact pos_step_mem p hp g h hg hh x (not_dvd_of_mem_range p x hx.1 (by omega))
  obtain ⟨i, i1, i2, i3⟩ := floyd_collision (pos_step g h p) (Finset.Icc (1 : Int) (p - 1))
    (g * h) hmaps (pos_step_mem p hp g h hg hh _ h0)
  refine ⟨i, i1, ?_, ?_⟩
  · rw [Int.card_Icc] at i2
    have : ((p : Int) - 1 + 1 - 1) = (p : Int) - 1 := by ring
    rw [this] at i2
    exact i2
  · rw [rho_body_iterate]
    simp only [iterate_single_step_x]
    exact i3

/-! ## Parallel rho: the range of a triple -/

theorem single_step_x_range (g h p q : Int) (hp : 0 < p) (w : Walker) :
    0 ≤ (single_step w g h p q).x ∧ (single_step w g h p q).x < p := by
  have e1 := fun t : Int => Int.emod_nonneg t (ne_of_gt hp)
  have e2 := fun t : Int => Int.emod_lt_of_pos t hp
  rcases emod_three_cases w.x with h3 | h3 | h3 <;>
    simp [single_step, f_f, h3, mpz_mod, e1, e2]

/-- After a step an exponent is reduced modulo `q`, or it is the exponent the
walk started with. -/
theorem single_step_exponents (g h p q : Int) (hq : 0 < q) (a0 b0 : Int) (w : Walker)
    (ha : (0 ≤ w.a ∧ w.a < q) ∨ w.a = a0) (hb : (0 ≤ w.b ∧ w.b < q) ∨ w.b = b0) :
    ((0 ≤ (single_step w g h p q).a ∧ (single_step w g h p q).a < q) ∨
        (single_step w g h p q).a = a0) ∧
      ((0 ≤ (single_step w g h p q).b ∧ (single_step w g h p q).b < q) ∨
        (single_step w g h p q).b = b0) := by
  have e1 := fun t : Int => Int.emod_nonneg t (ne_of_gt hq)
  have e2 := fun t : Int => Int.emod_lt_of_pos t hq
  rcases emod_three_cases w.x with h3 | h3 | h3 <;>
    simp [single_step, g_f, h_f, h3, mpz_mod, e1, e2, ha, hb]

theorem rho_parallel_walk_loop_range (g h p q : Int) (hp : 0 < p) (hq : 0 < q) (a0 b0 : Int) :
    ∀ (fuel : Nat) (w : Walker), 0 < fuel →
      ((0 ≤ w.a ∧ w.a < q) ∨ w.a = a0) → ((0 ≤ w.b ∧ w.b < q) ∨ w.b = b0) →
      (0 ≤ (rho_parallel_walk_loop g h p q fuel w).x ∧
        (rho_parallel_walk_loop g h p q fuel w).x < p) ∧
      ((0 ≤ (rho_parallel_walk_loop g h p q fuel w).a ∧
          (rho_parallel_walk_loop g h p q fuel w).a < q) ∨
        (rho_parallel_walk_loop g h p q fuel w).a = a0) ∧
      ((0 ≤ (rho_parallel_walk_loop g h p q fuel w).b ∧
          (rho_parallel_walk_loop g h p q fuel w).b < q) ∨
        (rho_parallel_walk_loop g h p q fuel w).b = b0) := by
  intro fuel
  induction fuel with
  | zero => intro w h0; omega
  | succ fuel ih =>
    intro w _ ha hb
    have hx := single_step_x_range g h p q hp w
    obtain ⟨ha1, hb1⟩ := single_step_exponents g h p q hq a0 b0 w ha hb
    unfold rho_parallel_walk_loop
    by_cases hd : mpz_sizeinbase (single_step w g h p q).x 2 < POLLARD_TRESHOLD
    · simp only [hd, if_true]
      exact ⟨hx, ha1, hb1⟩
    · simp only [hd, if_false]
      rcases Nat.eq_zero_or_pos fuel with h0 | h0
      · subst h0
        simp only [rho_parallel_walk_loop]
        exact ⟨hx, ha1, hb1⟩
      · exact ih _ h0 ha1 hb1

theorem mpz_urandomb_lt (draw : Int) (n : Nat) : mpz_urandomb draw n < 2 ^ n :=
  Int.emod_lt_of_pos _ (by positivity)

/-! ## Pollard lambda: every triple of the set tracks its position -/

theorem lambda_critical_tracked (p : Nat) (g h mid : Int) (P : LambdaParams) (s : LambdaShared)
    (t : Pollard_triple) (hs : ∀ t1 ∈ s.set, t1.tracks p g h mid) (ht : t.tracks p g h mid) :
    ∀ t1 ∈ (lambda_critical P s t).set, t1.tracks p g h mid := by
  have hins : ∀ t1 ∈ darray_insert Pollard_triple.pos s.set t, t1.tracks p g h mid := by
    intro t1 ht1
    rcases (mem_darray_insert Pollard_triple.pos t t1 s.set).mp ht1 with rfl | h1
    · exact ht
    · exact hs t1 h1
  unfold lambda_critical
  by_cases hf : s.finish = true
  · rw [if_pos hf]; exact hs
  · rw [if_neg hf]
    cases hl : set_lookup Pollard_triple.pos s.set t with
    | none => exact hins
    | some pt =>
      simp only
      by_cases hty : pt.type ≠ t.type
      · rw [if_pos hty]; exact hs
      · rw [if_neg hty]; exact hins

theorem kangaroo_move_tracked (hash : Int → Nat) (p : Nat) (hp : 1 ≤ p) (g h : Int)
    (nproc : Nat) (hr : 0 < (lambda_params g p nproc).r) (s : LambdaShared) (k : Kangaroo)
    (hs : ∀ t ∈ s.set, t.tracks p g h
      (mpz_div ((lambda_params g p nproc).a + (lambda_params g p nproc).b) 2))
    (hk : k.triple.tracks p g h
      (mpz_div ((lambda_params g p nproc).a + (lambda_params g p nproc).b) 2)) :
    (∀ t ∈ (kangaroo_move hash p (lambda_params g p nproc) s k).1.set, t.tracks p g h
        (mpz_div ((lambda_params g p nproc).a + (lambda_params g p nproc).b) 2)) ∧
      (kangaroo_move hash p (lambda_params g p nproc) s k).2.triple.tracks p g h
        (mpz_div ((lambda_params g p nproc).a + (lambda_params g p nproc).b) 2) := by
  have hmid := lambda_params_mid g p nproc hp
  unfold kangaroo_move
  by_cases hw : k.waiting = true
  · rw [if_pos hw]
    exact ⟨lambda_critical_tracked p g h _ _ s _ hs hk, hk⟩
  · rw [if_neg hw]
    by_cases hc : k.step < (lambda_params g p nproc).order_g ∧ ¬ s.finish = true
    · rw [if_pos hc]
      have hj := kangaroo_jump_tracks hash g h _ p nproc hr hmid k hk
      simp only
      by_cases hd : mpz_sizeinbase (kangaroo_jump hash p (lambda_params g p nproc) k).pos 2 <
          POLLARD_TRESHOLD
      · rw [if_pos hd]; exact ⟨hs, hj⟩
      · rw [if_neg hd]; exact ⟨hs, hj⟩
    · rw [if_neg hc]; exact ⟨hs, hk⟩

theorem lambda_region_tracked (hash : Int → Nat) (p : Nat) (hp : 1 ≤ p) (g h : Int)
    (nproc : Nat) (hr : 0 < (lambda_params g p nproc).r) (schedule : List Nat) (res : Int) :
    (∀ t ∈ (lambda_region hash g h p nproc schedule res).shared.set, t.tracks p g h
        (mpz_div ((lambda_params g p nproc).a + (lambda_params g p nproc).b) 2)) ∧
      ∀ k ∈ (lambda_region hash g h p nproc schedule res).workers, k.triple.tracks p g h
        (mpz_div ((lambda_params g p nproc).a + (lambda_params g p nproc).b) 2) := by
  unfold lambda_region
  have key : ∀ (l : List Nat) (st : LambdaRegion),
      ((∀ t ∈ st.shared.set, t.tracks p g h
          (mpz_div ((lambda_params g p nproc).a + (lambda_params g p nproc).b) 2)) ∧
        ∀ k ∈ st.workers, k.triple.tracks p g h
          (mpz_div ((lambda_params g p nproc).a + (lambda_params g p nproc).b) 2)) →
      ((∀ t ∈ (l.foldl (lambda_region_step hash p (lambda_params g p nproc)) st).shared.set,
          t.tracks p g h
            (mpz_div ((lambda_params g p nproc).a + (lambda_params g p nproc).b) 2)) ∧
        ∀ k ∈ (l.foldl (lambda_region_step hash p (lambda_params g p nproc)) st).workers,
          k.triple.tracks p g h
            (mpz_div ((lambda_params g p nproc).a + (lambda_params g p nproc).b) 2)) := by
    intro l
    induction l with
    | nil => intro st hst; exact hst
    | cons m rest ih =>
      intro st hst
      apply ih
      unfold lambda_region_step
      cases hk : st.workers.get? m with
      | none => exact hst
      | some k =>
        have hmem : k ∈ st.workers := List.get?_mem hk
        obtain ⟨h1, h2⟩ := kangaroo_move_tracked hash p hp g h nproc hr st.shared k hst.1
          (hst.2 k hmem)
        refine ⟨h1, fun k1 hk1 => ?_⟩
        rcases List.mem_or_eq_of_mem_set hk1 with h3 | h3
        · exact hst.2 k1 h3
        · rw [h3]; exact h2
  apply key
  refine ⟨fun t ht => ?_, fun k hk => ?_⟩
  · simp at ht
  · simp only [List.mem_map, List.mem_range] at hk
    obtain ⟨tid, -, rfl⟩ := hk
    exact kangaroo_start_tracks g h p nproc tid hp

/-! ## The order of `g`, from `calculate_ord` -/

/-- The value that `calculate_ord` leaves in `ord` is the order of `g`, for
`g ≢ 0, 1 (mod p)` and a list of primes with product of powers `p - 1`. -/
theorem hasOrder_of_calculate_ord (p : Nat) (hp : p.Prime) (hbits : Nat.log2 p < 2 ^ 64)
    (g : Int) (hg0 : ¬ (p : Int) ∣ g) (hg1 : ¬ (p : Int) ∣ g - 1)
    (factors exponents : List Int) (len : Nat) (hel : exponents.length = len)
    (hprime : ∀ i, i < len → ∃ q : Nat, q.Prime ∧ factors.getD i 0 = q)
    (hexp : ∀ i, i < len → 1 ≤ exponents.getD i 0)
    (hprod : ord_product factors exponents len = p - 1) (n : Nat)
    (hn : (calculate_ord g p factors exponents len (p - 1)).2 = n) : HasOrder g n p := by
  obtain ⟨-, ⟨m, hm, hord, ho⟩, -, -⟩ := calculate_ord_spec p hp g hg0 hg1 factors exponents len
    hel hprime hexp (exponents_small p hp hbits factors exponents len hprime hprod) hprod
  have hmn : m = n := by
    have : (m : Int) = n := by rw [← hord, hn]
    exact_mod_cast this
  subst hmn
  exact (hasOrder_iff_orderOf p hp g m hm).mpr ho

/-- What `pohling_discrete_log` does to `g` and `h`: with `n` the order of `g` and
`Q` the last prime power of the compacted list, it replaces them by their `Q`-th
powers when `Q ≠ n` and leaves them when `Q = n`. -/
theorem pohling_projection (search : Nat → Nat → Int → Int → Option Int) (p : Nat)
    (hp : p.Prime) (hbits : Nat.log2 p < 2 ^ 64) (g h : Int)
    (hg0 : ¬ (p : Int) ∣ g) (hg1 : ¬ (p : Int) ∣ g - 1)
    (factors exponents : List Int) (len : Nat)
    (hfl : factors.length = len) (hel : exponents.length = len)
    (hprime : ∀ i, i < len → ∃ q : Nat, q.Prime ∧ factors.getD i 0 = q)
    (hdist : ∀ i, i < len → ∀ j, j < len → i ≠ j → factors.getD i 0 ≠ factors.getD j 0)
    (hexp : ∀ i, i < len → 1 ≤ exponents.getD i 0)
    (hprod : ord_product factors exponents len = p - 1) (x0 : Int) (r : PohlingResult)
    (hr : pohling_discrete_log search g h p factors exponents len x0 = some r) :
    ∃ (n Q : Nat) (f1 e1 : List Int) (len1 : Nat),
      delete_zeros factors (calculate_ord g p factors exponents len (p - 1)).1 len =
        some (f1, e1, len1) ∧
      HasOrder g n p ∧
      (Q : Int) = f1.getD (len1 - 1) 0 ^ (e1.getD (len1 - 1) 0).toNat ∧
      (Q ≠ n → r.g = mpz_powm g Q p ∧ r.h = mpz_powm h Q p) ∧
      (Q = n → r.g = g ∧ r.h = h) := by
  haveI : Fact p.Prime := ⟨hp⟩
  unfold pohling_discrete_log at hr
  simp only at hr
  cases hdz : delete_zeros factors (calculate_ord g p factors exponents len (p - 1)).1 len with
  | none =>
    rw [hdz] at hr
    cases hr
  | some res =>
    obtain ⟨f1, e1, len1⟩ := res
    rw [hdz] at hr
    simp only at hr
    by_cases hl1 : len1 = 0
    · rw [if_pos hl1] at hr
      cases hr
    · rw [if_neg hl1] at hr
      obtain ⟨n, qf, ef, hord, ho, hn, hqf, -, hpr⟩ := refined_factors p hp hbits g hg0 hg1
        factors exponents len hfl hel hprime hdist hexp hprod f1 e1 len1 hdz
      have hG0 : (g : ZMod p) ≠ 0 := by
        rw [Ne, ZMod.intCast_zmod_eq_zero_iff_dvd]; exact hg0
      have hnp : n < p := by
        have h1 : n ∣ p - 1 := ho ▸ orderOf_dvd_of_pow_eq_one (ZMod.pow_card_sub_one_eq_one hG0)
        have := Nat.le_of_dvd (by have := hp.two_le; omega) h1
        have := hp.two_le
        omega
      have hlast : len1 - 1 < len1 := by omega
      have hQdvd : qf (len1 - 1) ^ ef (len1 - 1) ∣ n :=
        hpr ▸ Finset.dvd_prod_of_mem _ (Finset.mem_range.mpr hlast)
      have hQlt : qf (len1 - 1) ^ ef (len1 - 1) < p :=
        lt_of_le_of_lt (Nat.le_of_dvd hn hQdvd) hnp
      have hpowm : mpz_powm (f1.getD (len1 - 1) 0) (e1.getD (len1 - 1) 0) p =
          ((qf (len1 - 1) ^ ef (len1 - 1) : Nat) : Int) := by
        rw [(hqf _ hlast).2.2.1, (hqf _ hlast).2.2.2]
        exact mpz_powm_small p _ _ hQlt
      rw [hpowm, hord] at hr
      refine ⟨n, qf (len1 - 1) ^ ef (len1 - 1), f1, e1, len1, rfl,
        (hasOrder_iff_orderOf p hp g n hn).mpr ho, ?_, ?_, ?_⟩
      · rw [(hqf _ hlast).2.2.1, (hqf _ hlast).2.2.2, Int.toNat_natCast]
        push_cast
        rfl
      · intro hQ
        have hQz : ((qf (len1 - 1) ^ ef (len1 - 1) : Nat) : Int) ≠ (n : Int) := by
          exact_mod_cast hQ
        rw [if_pos hQz, if_pos hQz] at hr
        by_cases hc : (crt (some (pohling_loop search
            (mpz_powm g ((qf (len1 - 1) ^ ef (len1 - 1) : Nat) : Int) p)
            (mpz_powm h ((qf (len1 - 1) ^ ef (len1 - 1) : Nat) : Int) p) p n f1 e1 len1).1)
            (some (pohling_loop search
            (mpz_powm g ((qf (len1 - 1) ^ ef (len1 - 1) : Nat) : Int) p)
            (mpz_powm h ((qf (len1 - 1) ^ ef (len1 - 1) : Nat) : Int) p) p n f1 e1 len1).2)
            len1 x0).1 ≠ 0
        · rw [if_pos hc] at hr
          have hr1 := (Option.some.inj hr).symm
          subst hr1
          exact ⟨rfl, rfl⟩
        · rw [if_neg hc] at hr
          have hr1 := (Option.some.inj hr).symm
          subst hr1
          exact ⟨rfl, rfl⟩
      · intro hQ
        have hQz : ¬ ((qf (len1 - 1) ^ ef (len1 - 1) : Nat) : Int) ≠ (n : Int) := by
          rw [hQ]; simp
        rw [if_neg hQz, if_neg hQz] at hr
        by_cases hc : (crt (some (pohling_loop search g h p n f1 e1 len1).1)
            (some (pohling_loop search g h p n f1 e1 len1).2) len1 x0).1 ≠ 0
        · rw [if_pos hc] at hr
          have hr1 := (Option.some.inj hr).symm
          subst hr1
          exact ⟨rfl, rfl⟩
        · rw [if_neg hc] at hr
          have hr1 := (Option.some.inj hr).symm
          subst hr1
          exact ⟨rfl, rfl⟩

/-! ## The addition law on a curve over a commutative ring -/

/-- The chord: the third point of the line through `(x1, y1)` and
`(x1 + d, y1 + lam * d)`, reflected, is on the curve when `d` is a unit. -/
theorem chord_on_curve {R : Type} [CommRing R] (x1 y1 d lam a b : R)
    (h1 : y1 ^ 2 = x1 ^ 3 + a * x1 + b)
    (h2 : (y1 + lam * d) ^ 2 = (x1 + d) ^ 3 + a * (x1 + d) + b) (hu : IsUnit d) :
    ((x1 - (lam * lam - x1 - (x1 + d))) * lam - y1) ^ 2 =
      (lam * lam - x1 - (x1 + d)) ^ 3 + a * (lam * lam - x1 - (x1 + d)) + b := by
  have hdZ : d * (2 * y1 * lam + lam ^ 2 * d - (3 * x1 ^ 2 + 3 * x1 * d + d ^ 2) - a) = 0 := by
    linear_combination h2 - h1
  have hZ := (hu.mul_right_eq_zero).mp hdZ
  have ha : a = 2 * y1 * lam + lam ^ 2 * d - (3 * x1 ^ 2 + 3 * x1 * d + d ^ 2) := by
    linear_combination -hZ
  have hb : b = y1 ^ 2 - x1 ^ 3 - a * x1 := by linear_combination -h1
  rw [hb, ha]
  ring

/-- The tangent: the second point of the tangent at `(x1, y1)` with slope `lam`,
reflected, is on the curve when `2 y1 lam = 3 x1^2 + a`. -/
theorem tangent_on_curve {R : Type} [CommRing R] (x1 y1 lam a b : R)
    (h1 : y1 ^ 2 = x1 ^ 3 + a * x1 + b) (hl : 2 * y1 * lam = 3 * x1 ^ 2 + a) :
    ((x1 - (lam * lam - x1 - x1)) * lam - y1) ^ 2 =
      (lam * lam - x1 - x1) ^ 3 + a * (lam * lam - x1 - x1) + b := by
  have ha : a = 2 * y1 * lam - 3 * x1 ^ 2 := by linear_combination -hl
  have hb : b = y1 ^ 2 - x1 ^ 3 - a * x1 := by linear_combination -h1
  rw [hb, ha]
  ring

/-! ## When `calculate_ord` takes its fallback -/

theorem ord_product_of_zero (fs es : List Int) :
    ∀ m : Nat, (∀ i, i < m → es.getD i 0 ≤ 0) → ord_product fs es m = 1 := by
  intro m
  induction m with
  | zero => intro _; rfl
  | succ m ih =>
    intro h
    have h0 : (es.getD m 0).toNat = 0 := by
      have := h m (Nat.lt_succ_self m)
      omega
    simp only [ord_product, h0, pow_zero, mul_one]
    exact ih (fun i hi => h i (Nat.lt_succ_of_lt hi))

/-- On a correct factorisation of `p - 1` the loop of `calculate_ord` ends with
`ord = 1` exactly when `g ≡ 1 (mod p)`. -/
theorem calculate_ord_loop_eq_one_iff (p : Nat) (hp : p.Prime) (g : Int) (hg0 : ¬ (p : Int) ∣ g)
    (factors exponents : List Int) (len : Nat) (hel : exponents.length = len)
    (hprime : ∀ i, i < len → ∃ q : Nat, q.Prime ∧ factors.getD i 0 = q)
    (hexp : ∀ i, i < len → 1 ≤ exponents.getD i 0)
    (hsmall : ∀ i, i < len → exponents.getD i 0 < 2 ^ 64)
    (hprod : ord_product factors exponents len = p - 1) :
    (calculate_ord_loop g p factors exponents (p - 1) len).2 = 1 ↔ (p : Int) ∣ g - 1 := by
  obtain ⟨-, ⟨n, -, hst2, hGn, hmin⟩, hprodk, hbnd, -⟩ :=
    calculate_ord_loop_spec p hp g hg0 factors exponents len hel hprime hexp hsmall hprod len
      (le_refl _)
  constructor
  · intro h1
    rw [hst2] at h1
    have hn1 : n = 1 := by exact_mod_cast h1
    rw [hn1, pow_one] at hGn
    rw [← ZMod.intCast_zmod_eq_zero_iff_dvd]
    simp [hGn]
  · intro hd
    have hG1 : (g : ZMod p) = 1 := by
      have := (ZMod.intCast_zmod_eq_zero_iff_dvd (g - 1) p).mpr hd
      push_cast at this
      exact sub_eq_zero.mp this
    rw [hprodk]
    apply ord_product_of_zero
    intro i hi
    by_contra hcon
    exact hmin i hi (by omega) (by rw [hG1, one_pow])

/-! ## The lambda region without a publication, and its end -/

theorem lambda_critical_unfinished (P : LambdaParams) (s : LambdaShared) (t : Pollard_triple)
    (hf : (lambda_critical P s t).finish = false) :
    (lambda_critical P s t).res = s.res ∧ s.finish = false := by
  by_cases hs : s.finish = true
  · rw [lambda_critical_finished P s t hs, hs] at hf
    exact absurd hf (by decide)
  · have hs1 : s.finish = false := by simpa using hs
    refine ⟨?_, hs1⟩
    revert hf
    unfold lambda_critical
    rw [if_neg hs]
    cases set_lookup Pollard_triple.pos s.set t with
    | none => intro _; rfl
    | some pt =>
      simp only
      by_cases hty : pt.type ≠ t.type
      · rw [if_pos hty]
        intro hf
        exact absurd hf (by simp)
      · rw [if_neg hty]
        intro _; rfl

theorem kangaroo_move_shared (hash : Int → Nat) (p : Int) (P : LambdaParams) (s : LambdaShared)
    (k : Kangaroo) :
    (kangaroo_move hash p P s k).1 = s ∨
      (kangaroo_move hash p P s k).1 = lambda_critical P s k.triple := by
  unfold kangaroo_move
  by_cases hw : k.waiting = true
  · rw [if_pos hw]; exact Or.inr rfl
  · rw [if_neg hw]
    by_cases hc : k.step < P.order_g ∧ ¬ s.finish = true
    · rw [if_pos hc]
      simp only
      by_cases hd : mpz_sizeinbase (kangaroo_jump hash p P k).pos 2 < POLLARD_TRESHOLD
      · rw [if_pos hd]; exact Or.inl rfl
      · rw [if_neg hd]; exact Or.inl rfl
    · rw [if_neg hc]; exact Or.inl rfl

theorem kangaroo_move_unfinished (hash : Int → Nat) (p : Int) (P : LambdaParams)
    (s : LambdaShared) (k : Kangaroo)
    (hf : (kangaroo_move hash p P s k).1.finish = false) :
    (kangaroo_move hash p P s k).1.res = s.res ∧ s.finish = false := by
  rcases kangaroo_move_shared hash p P s k with h | h
  · rw [h] at hf ⊢; exact ⟨rfl, hf⟩
  · rw [h] at hf ⊢; exact lambda_critical_unfinished P s _ hf

theorem kangaroo_move_finish_mono (hash : Int → Nat) (p : Int) (P : LambdaParams)
    (s : LambdaShared) (k : Kangaroo) (hf : s.finish = true) :
    (kangaroo_move hash p P s k).1.finish = true := by
  rcases kangaroo_move_shared hash p P s k with h | h
  · rw [h]; exact hf
  · rw [h, lambda_critical_finished P s _ hf]; exact hf

theorem lambda_region_step_unfinished (hash : Int → Nat) (p : Int) (P : LambdaParams)
    (st : LambdaRegion) (i : Nat)
    (hf : (lambda_region_step hash p P st i).shared.finish = false) :
    (lambda_region_step hash p P st i).shared.res = st.shared.res ∧
      st.shared.finish = false := by
  revert hf
  unfold lambda_region_step
  cases hk : st.workers.get? i with
  | none => intro hf; exact ⟨rfl, hf⟩
  | some k => intro hf; exact kangaroo_move_unfinished hash p P st.shared k hf

/-- While `finish` is not set, `res` holds the value it had when the region was
entered. -/
theorem lambda_region_unfinished (hash : Int → Nat) (g h p : Int) (nproc : Nat)
    (schedule : List Nat) (res : Int)
    (hf : (lambda_region hash g h p nproc schedule res).shared.finish = false) :
    (lambda_region hash g h p nproc schedule res).shared.res = res := by
  have key : ∀ (l : List Nat) (st : LambdaRegion),
      (l.foldl (lambda_region_step hash p (lambda_params g p nproc)) st).shared.finish = false →
      (l.foldl (lambda_region_step hash p (lambda_params g p nproc)) st).shared.res =
          st.shared.res ∧ st.shared.finish = false := by
    intro l
    induction l with
    | nil => intro st hst; exact ⟨rfl, hst⟩
    | cons m rest ih =>
      intro st hst
      obtain ⟨h1, h2⟩ := ih _ hst
      obtain ⟨h3, h4⟩ := lambda_region_step_unfinished hash p _ st m h2
      exact ⟨h1.trans h3, h4⟩
  exact (key schedule _ hf).1

/-! ## Every worker of the lambda region leaves its loop -/

theorem kangaroo_left_mono (P : LambdaParams) (s s1 : LambdaShared) (k : Kangaroo)
    (hs : s.finish = true → s1.finish = true) (hl : k.left P s = true) :
    k.left P s1 = true := by
  unfold Kangaroo.left at hl ⊢
  cases hw : k.waiting <;> cases hf : s.finish <;> cases hf1 : s1.finish <;>
    simp_all

/-- A move of a worker that has not left its loop adds to its progress; a worker
at the critical section has `step < order_g`. -/
theorem kangaroo_move_progress (hash : Int → Nat) (p : Int) (P : LambdaParams)
    (s : LambdaShared) (k : Kangaroo) (c : Int)
    (hinv : k.waiting = true → k.step < P.order_g)
    (hc : k.left P s = true ∨ c ≤ k.progress) :
    ((kangaroo_move hash p P s k).2.waiting = true →
        (kangaroo_move hash p P s k).2.step < P.order_g) ∧
      ((kangaroo_move hash p P s k).2.left P (kangaroo_move hash p P s k).1 = true ∨
        c + 1 ≤ (kangaroo_move hash p P s k).2.progress) := by
  unfold kangaroo_move
  by_cases hw : k.waiting = true
  · rw [if_pos hw]
    have hnl : ¬ k.left P s = true := by simp [Kangaroo.left, hw]
    have hc1 : c ≤ k.progress := hc.resolve_left hnl
    refine ⟨fun h => absurd h (by simp), Or.inr ?_⟩
    simp only [Kangaroo.progress, hw, if_true] at hc1
    simp only [Kangaroo.progress, Bool.false_eq_true, if_false]
    omega
  · rw [if_neg hw]
    have hw1 : k.waiting = false := by simpa using hw
    by_cases ha : k.step < P.order_g ∧ ¬ s.finish = true
    · rw [if_pos ha]
      have hnl : ¬ k.left P s = true := by
        have hf : s.finish = false := by simpa using ha.2
        simp [Kangaroo.left, hw1, ha.1, hf]
      have hc1 : c ≤ k.progress := hc.resolve_left hnl
      simp only [Kangaroo.progress, hw1, Bool.false_eq_true, if_false] at hc1
      simp only
      by_cases hd : mpz_sizeinbase (kangaroo_jump hash p P k).pos 2 < POLLARD_TRESHOLD
      · rw [if_pos hd]
        refine ⟨fun _ => ha.1, Or.inr ?_⟩
        simp only [Kangaroo.progress, kangaroo_jump, if_true]
        omega
      · rw [if_neg hd]
        refine ⟨fun h => ?_, Or.inr ?_⟩
        · simp only [kangaroo_jump] at h
          exact absurd h hw
        · simp only [Kangaroo.progress, kangaroo_jump, hw1, Bool.false_eq_true, if_false]
          omega
    · rw [if_neg ha]
      refine ⟨hinv, Or.inl ?_⟩
      have : k.step < P.order_g → s.finish = true := fun h => by
        by_contra hf
        exact ha ⟨h, hf⟩
      unfold Kangaroo.left
      by_cases hs : k.step < P.order_g
      · simp [hw1, this hs]
      · simp [hw1, hs]

/-- The invariant of the region behind its termination: there are `nproc`
workers, and worker `i` is at the critical section only with `step < order_g`
and has either left its loop or made progress `c i`. -/
theorem lambda_region_step_progress (hash : Int → Nat) (p : Int) (P : LambdaParams)
    (nproc : Nat) (st : LambdaRegion) (m : Nat) (c : Nat → Int)
    (hlen : st.workers.length = nproc)
    (hst : ∀ i k, st.workers.get? i = some k →
      (k.waiting = true → k.step < P.order_g) ∧
        (k.left P st.shared = true ∨ c i ≤ k.progress)) :
    (lambda_region_step hash p P st m).workers.length = nproc ∧
    ∀ i k, (lambda_region_step hash p P st m).workers.get? i = some k →
      (k.waiting = true → k.step < P.order_g) ∧
        (k.left P (lambda_region_step hash p P st m).shared = true ∨
          c i + (if i = m then 1 else 0) ≤ k.progress) := by
  unfold lambda_region_step
  cases hk : st.workers.get? m with
  | none =>
    refine ⟨hlen, fun i k hik => ?_⟩
    have hne : i ≠ m := by
      intro h
      rw [h, hk] at hik
      exact absurd hik (by simp)
    simp only [if_neg hne, add_zero]
    exact hst i k hik
  | some km =>
    simp only
    refine ⟨by rw [List.length_set]; exact hlen, fun i k hik => ?_⟩
    obtain ⟨hm1, hm2⟩ := kangaroo_move_progress hash p P st.shared km (c m)
      (hst m km hk).1 (hst m km hk).2
    by_cases him : i = m
    · subst him
      have hlt : i < st.workers.length := by
        rw [List.get?_eq_getElem?] at hk
        exact (List.getElem?_eq_some_iff.mp hk).1
      rw [List.get?_eq_getElem?, List.getElem?_set_self hlt] at hik
      have hk2 : k = (kangaroo_move hash p P st.shared km).2 := (Option.some.inj hik).symm
      rw [hk2, if_pos rfl]
      exact ⟨hm1, hm2⟩
    · rw [List.get?_eq_getElem?, List.getElem?_set_ne (Ne.symm him),
        ← List.get?_eq_getElem?] at hik
      rw [if_neg him, add_zero]
      obtain ⟨h1, h2⟩ := hst i k hik
      refine ⟨h1, ?_⟩
      rcases h2 with h2 | h2
      · exact Or.inl (kangaroo_left_mono P st.shared _ k
          (kangaroo_move_finish_mono hash p P st.shared km) h2)
      · exact Or.inr h2

theorem lambda_region_fold_progress (hash : Int → Nat) (p : Int) (P : LambdaParams)
    (nproc : Nat) :
    ∀ (l : List Nat) (st : LambdaRegion) (c : Nat → Int),
      st.workers.length = nproc →
      (∀ i k, st.workers.get? i = some k →
        (k.waiting = true → k.step < P.order_g) ∧
          (k.left P st.shared = true ∨ c i ≤ k.progress)) →
      (l.foldl (lambda_region_step hash p P) st).workers.length = nproc ∧
      ∀ i k, (l.foldl (lambda_region_step hash p P) st).workers.get? i = some k →
        (k.waiting = true → k.step < P.order_g) ∧
          (k.left P (l.foldl (lambda_region_step hash p P) st).shared = true ∨
            c i + (l.count i : Nat) ≤ k.progress) := by
  intro l
  induction l with
  | nil =>
    intro st c hlen hst
    refine ⟨hlen, fun i k hik => ?_⟩
    simpa using hst i k hik
  | cons m rest ih =>
    intro st c hlen hst
    obtain ⟨h1, h2⟩ := lambda_region_step_progress hash p P nproc st m c hlen hst
    obtain ⟨h3, h4⟩ := ih _ (fun i => c i + (if i = m then 1 else 0)) h1 h2
    refine ⟨h3, fun i k hik => ?_⟩
    obtain ⟨h5, h6⟩ := h4 i k hik
    refine ⟨h5, ?_⟩
    rcases h6 with h6 | h6
    · exact Or.inl h6
    · refine Or.inr ?_
      have hcount : ((List.count i (m :: rest) : Nat) : Int) =
          (if i = m then 1 else 0) + (List.count i rest : Nat) := by
        rw [List.count_cons]
        by_cases him : i = m
        · subst him; simp; ring
        · have : (m == i) = false := by simpa using Ne.symm him
          simp [him, this]
      rw [hcount]
      linarith

/-- Every worker leaves its loop: in a schedule in which each worker moves at
least `2 * order_g` times the region is complete. -/
theorem lambda_region_complete (hash : Int → Nat) (g h p : Int) (nproc : Nat)
    (schedule : List Nat) (res : Int)
    (hfair : ∀ i, i < nproc → 2 * (p - 1) ≤ (schedule.count i : Nat)) :
    (lambda_region hash g h p nproc schedule res).complete (lambda_params g p nproc) = true := by
  have hog : (lambda_params g p nproc).order_g = p - 1 := rfl
  obtain ⟨hlen, hall⟩ := lambda_region_fold_progress hash p (lambda_params g p nproc) nproc
    schedule
    { shared := { set := [], res := res, finish := false },
      workers := (List.range nproc).map (kangaroo_start g h p (lambda_params g p nproc)) }
    (fun _ => 0) (by simp)
    (fun i k hik => by
      rw [List.get?_eq_getElem?] at hik
      have hmem : k ∈ (List.range nproc).map (kangaroo_start g h p (lambda_params g p nproc)) :=
        List.mem_iff_getElem?.mpr ⟨i, hik⟩
      simp only [List.mem_map, List.mem_range] at hmem
      obtain ⟨tid, -, rfl⟩ := hmem
      refine ⟨fun hw => absurd hw (by simp [kangaroo_start]), Or.inr ?_⟩
      simp [Kangaroo.progress, kangaroo_start])
  unfold LambdaRegion.complete
  rw [List.all_eq_true]
  intro k hk
  obtain ⟨i, hik⟩ := List.mem_iff_getElem?.mp hk
  have hi : i < nproc := by
    rw [← hlen]
    exact (List.getElem?_eq_some_iff.mp hik).1
  rw [← List.get?_eq_getElem?] at hik
  obtain ⟨h1, h2⟩ := hall i k hik
  rcases h2 with h2 | h2
  · exact h2
  · have hf := hfair i hi
    simp only [zero_add] at h2
    unfold Kangaroo.left
    unfold Kangaroo.progress at h2
    rw [hog] at h1 ⊢
    cases hw : k.waiting with
    | true =>
      have := h1 hw
      simp only [hw, if_true] at h2
      omega
    | false =>
      simp only [hw, Bool.false_eq_true, if_false] at h2
      have : ¬ k.step < p - 1 := by omega
      simp [this]

/-! ## When the lambda routine has a jump size -/

theorem calculate_max_jumps_loop_ge (beta : Int) :
    ∀ fuel r : Nat, r ≤ calculate_max_jumps_loop beta fuel r := by
  intro fuel
  induction fuel with
  | zero => intro r; exact le_refl _
  | succ fuel ih =>
    intro r
    unfold calculate_max_jumps_loop
    simp only
    by_cases h : mpz_div (2 ^ r - 1) (r : Int) < beta
    · rw [if_pos h]
      exact le_trans (Nat.le_succ r) (ih (r + 1))
    · rw [if_neg h]
      exact Nat.le_succ r

/-- The routine `calculate_max_jumps` returns a positive number exactly for
`beta ≥ 2`. -/
theorem calculate_max_jumps_pos_iff (beta : Int) : 0 < calculate_max_jumps beta ↔ 2 ≤ beta := by
  have e1 : mpz_div (2 ^ 1 - 1) ((1 : Nat) : Int) = 1 := by decide
  have e2 : mpz_div (2 ^ (1 + 1) - 1) (((1 + 1 : Nat)) : Int) = 1 := by decide
  constructor
  · intro h
    by_contra hb
    have hb1 : ¬ (1 : Int) < beta := by omega
    have : calculate_max_jumps beta = 0 := by
      unfold calculate_max_jumps calculate_max_jumps_loop
      simp only [e1, if_neg hb1]
    omega
  · intro h
    have h1 : (1 : Int) < beta := by omega
    obtain ⟨m, hm⟩ : ∃ m : Nat, beta.toNat + 1 = m + 1 + 1 + 1 := ⟨beta.toNat - 2, by omega⟩
    have h3 : calculate_max_jumps_loop beta (beta.toNat + 1) 1 =
        calculate_max_jumps_loop beta (m + 1) (1 + 1 + 1) := by
      rw [hm, calculate_max_jumps_loop]
      simp only [e1, if_pos h1]
      rw [calculate_max_jumps_loop]
      simp only [e2, if_pos h1]
    have h4 := calculate_max_jumps_loop_ge beta (m + 1) (1 + 1 + 1)
    unfold calculate_max_jumps
    omega

/-- A successful `mpz_invert (inv, d, n)` gives `d * inv = 1` in `ZMod n`. -/
theorem mpz_invert_zmod (n : Nat) (hn : 1 < n) (d : Int) (hi : (mpz_invert 0 d n).1 ≠ 0) :
    (d : ZMod n) * (((mpz_invert 0 d n).2 : Int) : ZMod n) = 1 := by
  have hnz : (n : Int) ≠ 0 := by
    have : (0 : Int) < n := by exact_mod_cast (lt_trans Nat.zero_lt_one hn)
    exact ne_of_gt this
  have hgcd : Int.gcd d n = 1 := by
    by_contra hc
    rw [mpz_invert_not_coprime 0 d n hnz hc] at hi
    exact hi rfl
  obtain ⟨-, -, -, hmul⟩ := mpz_invert_coprime 0 d n hnz hgcd
  have := (ZMod.intCast_eq_intCast_iff _ _ n).mpr hmul
  push_cast at this
  exact this

/-- The sum computed by `eliptic_add` after a successful inversion is on the
curve, in `ZMod n`. -/
theorem eliptic_add_zmod (n : Nat) (hn : 1 < n) (E : ECurve) (hE : E.n = n) (P Q : Point)
    (hP : (P.y : ZMod n) ^ 2 = (P.x : ZMod n) ^ 3 + (E.a : ZMod n) * P.x + E.b)
    (hQ : (Q.y : ZMod n) ^ 2 = (Q.x : ZMod n) ^ 3 + (E.a : ZMod n) * Q.x + E.b)
    (hPQ : P.x ≠ Q.x ∨ P = Q) (t1 t2 : Int)
    (hs : eliptic_add_slope P Q E = some (t1, t2)) (inv : ZMod n)
    (hinv : (t2 : ZMod n) * inv = 1) :
    ((P.x - ((t1 : ZMod n) * t1 * inv * inv - P.x - Q.x)) * inv * t1 - P.y) ^ 2 =
      ((t1 : ZMod n) * t1 * inv * inv - P.x - Q.x) ^ 3 +
        (E.a : ZMod n) * ((t1 : ZMod n) * t1 * inv * inv - P.x - Q.x) + E.b := by
  rcases hPQ with hx | rfl
  · unfold eliptic_add_slope at hs
    rw [if_neg hx] at hs
    have h1 : t1 = mpz_mod (Q.y - P.y) E.n := by
      have := Option.some.inj hs
      exact (congrArg Prod.fst this).symm
    have h2 : t2 = mpz_mod (Q.x - P.x) E.n := by
      have := Option.some.inj hs
      exact (congrArg Prod.snd this).symm
    have ht1 : (t1 : ZMod n) = Q.y - P.y := by
      rw [h1, mpz_mod, hE, ZMod.intCast_mod]; push_cast; rfl
    have ht2 : (t2 : ZMod n) = Q.x - P.x := by
      rw [h2, mpz_mod, hE, ZMod.intCast_mod]; push_cast; rfl
    have hx2 : (Q.x : ZMod n) = P.x + t2 := by rw [ht2]; ring
    have hy2 : (Q.y : ZMod n) = P.y + (t1 : ZMod n) * inv * t2 := by
      rw [ht1]
      linear_combination (-((Q.y : ZMod n) - P.y)) * hinv
    have hQ1 : ((P.y : ZMod n) + (t1 : ZMod n) * inv * t2) ^ 2 =
        ((P.x : ZMod n) + t2) ^ 3 + (E.a : ZMod n) * ((P.x : ZMod n) + t2) + E.b := by
      rw [← hy2, ← hx2]; exact hQ
    have key := chord_on_curve (P.x : ZMod n) P.y t2 ((t1 : ZMod n) * inv) E.a E.b hP hQ1
      (isUnit_of_mul_eq_one _ _ hinv)
    rw [hx2]
    linear_combination key
  · unfold eliptic_add_slope at hs
    rw [if_pos rfl] at hs
    by_cases h0 : mpz_mod (P.y + P.y) E.n = 0
    · rw [if_pos h0] at hs
      exact absurd hs (by simp)
    · rw [if_neg h0] at hs
      have h1 : t1 = mpz_mod (P.x * P.x * 3 + E.a) E.n := by
        have := Option.some.inj hs
        exact (congrArg Prod.fst this).symm
      have h2 : t2 = mpz_mod (P.y * 2) E.n := by
        have := Option.some.inj hs
        exact (congrArg Prod.snd this).symm
      have ht1 : (t1 : ZMod n) = (P.x : ZMod n) * P.x * 3 + E.a := by
        rw [h1, mpz_mod, hE, ZMod.intCast_mod]; push_cast; rfl
      have ht2 : (t2 : ZMod n) = (P.y : ZMod n) * 2 := by
        rw [h2, mpz_mod, hE, ZMod.intCast_mod]; push_cast; rfl
      have hl : 2 * (P.y : ZMod n) * ((t1 : ZMod n) * inv) = 3 * (P.x : ZMod n) ^ 2 + E.a := by
        rw [ht2] at hinv
        rw [ht1]
        linear_combination ((P.x : ZMod n) * P.x * 3 + E.a) * hinv
      have key := tangent_on_curve (P.x : ZMod n) P.y ((t1 : ZMod n) * inv) E.a E.b hP hl
      linear_combination key

/-! ## The rho walk and the exception of GMP -/

theorem mpz_mod_checked_of_ne (n d : Int) (hd : d ≠ 0) :
    mpz_mod_checked n d = some (mpz_mod n d) := by
  unfold mpz_mod_checked
  rw [if_neg hd]

theorem f_f_checked_eq (subgrp x g h p : Int) (hp : p ≠ 0) :
    f_f_checked subgrp x g h p = some (f_f subgrp x g h p) := by
  unfold f_f_checked f_f
  simp only [mpz_mod_checked_of_ne _ p hp]
  split_ifs <;> rfl

theorem g_f_checked_eq (subgrp a q : Int) (hq : q ≠ 0) :
    g_f_checked subgrp a q = some (g_f subgrp a q) := by
  unfold g_f_checked g_f
  simp only [mpz_mod_checked_of_ne _ q hq]
  split_ifs <;> rfl

theorem h_f_checked_eq (subgrp b q : Int) (hq : q ≠ 0) :
    h_f_checked subgrp b q = some (h_f subgrp b q) := by
  unfold h_f_checked h_f
  simp only [mpz_mod_checked_of_ne _ q hq]
  split_ifs <;> rfl

theorem single_step_checked_eq (w : Walker) (g h p q : Int) (hp : p ≠ 0) (hq : q ≠ 0) :
    single_step_checked w g h p q = some (single_step w g h p q) := by
  unfold single_step_checked single_step
  simp only [f_f_checked_eq _ _ _ _ _ hp, g_f_checked_eq _ _ _ hq, h_f_checked_eq _ _ _ hq]

theorem rho_body_checked_eq (g h p q : Int) (hp : p ≠ 0) (hq : q ≠ 0) (s : RhoState) :
    rho_body_checked g h p q s = some (rho_body g h p q s) := by
  unfold rho_body_checked rho_body
  simp only [single_step_checked_eq _ _ _ _ _ hp hq]

theorem rho_loop_checked_eq (g h p q : Int) (hp : p ≠ 0) (hq : q ≠ 0) :
    ∀ (fuel : Nat) (s : RhoState),
      rho_loop_checked g h p q fuel s = some (rho_loop g h p q fuel s) := by
  intro fuel
  induction fuel with
  | zero => intro s; rfl
  | succ fuel ih =>
    intro s
    unfold rho_loop_checked rho_loop
    simp only [rho_body_checked_eq g h p q hp hq]
    by_cases hc : (rho_body g h p q s).rabbit.x = (rho_body g h p q s).tortoise.x
    · rw [if_pos hc, if_pos hc]
    · rw [if_neg hc, if_neg hc]
      exact ih _

/-- For `p ≥ 3` no step of the loop divides by zero: the walk with the exception
of GMP is the walk. -/
theorem rho_walk_checked_eq (g h p : Int) (hp : 3 ≤ p) :
    rho_walk_checked g h p = some (rho_walk g h p) := by
  have hq : mpz_div (p - 1) 2 ≠ 0 := by
    unfold mpz_div
    rw [Int.fdiv_eq_ediv _ (by norm_num : (0 : Int) ≤ 2)]
    omega
  unfold rho_walk_checked rho_walk
  exact rho_loop_checked_eq g h p _ (by omega) hq _ _

/-! ## The lambda routine with its region, and its shell -/

/-- The routine with its region returns what its shell returns on the value the
region publishes: when no worker has published, the shared `res` is the `res` on
entry. -/
theorem pollard_lambda_run_eq_shell (hash : Int → Nat) (g h p : Int) (nproc : Nat)
    (schedule : List Nat) (res : Int)
    (hc : (lambda_region hash g h p nproc schedule res).complete (lambda_params g p nproc) =
      true) :
    pollard_lambda_parallel_dicsrete_log_run hash g h p nproc schedule res =
      some (pollard_lambda_parallel_dicsrete_log
        (lambda_published (lambda_region hash g h p nproc schedule res)) g h p res) := by
  have hog : (lambda_params g p nproc).order_g = p - 1 := rfl
  unfold pollard_lambda_parallel_dicsrete_log_run pollard_lambda_parallel_dicsrete_log
  by_cases hgh : g = h
  · rw [if_pos hgh, if_pos hgh]
  · rw [if_neg hgh, if_neg hgh]
    simp only [hc, if_true, hog]
    unfold lambda_published
    cases hf : (lambda_region hash g h p nproc schedule res).shared.finish with
    | true => simp
    | false =>
      simp only [Bool.false_eq_true, if_false]
      rw [lambda_region_unfinished hash g h p nproc schedule res hf]

/-! ## `delete_zeros` on a trailing zero -/

theorem memmove_down_zero (a : List Int) (i : Nat) : memmove_down a i 0 = a := by
  unfold memmove_down
  simp

theorem delete_zeros_while_trailing (i : Nat) :
    ∀ (fuel : Nat) (f e : List Int) (len : Nat), i < len → len - i + 1 ≤ fuel →
      len ≤ e.length → e.getD (len - 1) 0 = 0 →
      delete_zeros_while i fuel f e len = none ∨
        ∃ (f1 e1 : List Int) (len1 : Nat),
          delete_zeros_while i fuel f e len = some (f1, e1, len1) ∧ i + 1 < len1 ∧
            len1 ≤ len ∧ len1 ≤ e1.length ∧ e1.getD (len1 - 1) 0 = 0 := by
  intro fuel
  induction fuel with
  | zero => intro f e len hi hfuel; omega
  | succ fuel ih =>
    intro f e len hi hfuel hel hlast
    by_cases hz : e.getD i 0 = 0
    · simp only [delete_zeros_while, if_pos hz, if_neg (by omega : ¬ len < i + 1)]
      by_cases hil : i + 1 = len
      · left
        obtain ⟨fuel1, rfl⟩ : ∃ m, fuel = m + 1 := ⟨fuel - 1, by omega⟩
        have h0 : len - i - 1 = 0 := by omega
        rw [h0, memmove_down_zero, memmove_down_zero]
        simp only [delete_zeros_while, if_pos hz, if_pos (by omega : len - 1 < i + 1)]
      · have hi1 : i < len - 1 := by omega
        have hlast1 : (memmove_down e i (len - i - 1)).getD (len - 1 - 1) 0 = 0 := by
          rw [getD_memmove_down e i len hi hel (len - 1 - 1) (by omega), if_neg (by omega),
            show len - 1 - 1 + 1 = len - 1 by omega]
          exact hlast
        rcases ih (memmove_down f i (len - i - 1)) (memmove_down e i (len - i - 1)) (len - 1)
            hi1 (by omega) (by rw [length_memmove_down e i len hi hel]; omega) hlast1 with
          h | ⟨f1, e1, len1, h1, h2, h3, h4, h5⟩
        · exact Or.inl h
        · exact Or.inr ⟨f1, e1, len1, h1, h2, by omega, h4, h5⟩
    · right
      have hne : i ≠ len - 1 := fun h => hz (h ▸ hlast)
      exact ⟨f, e, len, by simp only [delete_zeros_while, if_neg hz], by omega, le_refl _, hel,
        hlast⟩

theorem delete_zeros_for_trailing :
    ∀ (fuel i : Nat) (f e : List Int) (len : Nat), i < len → len - i ≤ fuel →
      len ≤ e.length → e.getD (len - 1) 0 = 0 → delete_zeros_for fuel i f e len = none := by
  intro fuel
  induction fuel with
  | zero => intro i f e len hi hfuel; omega
  | succ fuel ih =>
    intro i f e len hi hfuel hel hlast
    rcases delete_zeros_while_trailing i (len + 1) f e len hi (by omega) hel hlast with
      h | ⟨f1, e1, len1, h1, h2, h3, h4, h5⟩
    · simp only [delete_zeros_for, if_pos hi, h]
    · simp only [delete_zeros_for, if_pos hi, h1]
      exact ih (i + 1) f1 e1 len1 (by omega) (by omega) h4 h5

/-- When the last exponent is `0`, `delete_zeros` runs into the `memmove` with a
wrapped size. -/
theorem delete_zeros_trailing (f e : List Int) (len : Nat) (h0 : 0 < len)
    (hel : len ≤ e.length) (hlast : e.getD (len - 1) 0 = 0) : delete_zeros f e len = none :=
  delete_zeros_for_trailing len 0 f e len h0 (by omega) hel hlast

/-- With a correct factor list, `pohling_discrete_log` does not return when
`calculate_ord` leaves the exponent `0` for the last factor. -/
theorem pohling_dies (search : Nat → Nat → Int → Int → Option Int) (p : Nat)
    (hp : p.Prime) (hbits : Nat.log2 p < 2 ^ 64) (g h : Int) (hg0 : ¬ (p : Int) ∣ g)
    (factors exponents : List Int) (len : Nat) (hlen : 0 < len)
    (hel : exponents.length = len)
    (hprime : ∀ i, i < len → ∃ q : Nat, q.Prime ∧ factors.getD i 0 = q)
    (hexp : ∀ i, i < len → 1 ≤ exponents.getD i 0)
    (hprod : ord_product factors exponents len = p - 1) (x0 : Int)
    (hlast : (calculate_ord g p factors exponents len (p - 1)).1.getD (len - 1) 0 = 0) :
    pohling_discrete_log search g h p factors exponents len x0 = none := by
  have hl := calculate_ord_length p hp hbits g hg0 factors exponents len hel hprime hexp hprod
  have hdz := delete_zeros_trailing factors
    (calculate_ord g p factors exponents len (p - 1)).1 len hlen (by omega) hlast
  unfold pohling_discrete_log
  simp only [hdz]

/-! ## Claims on `crt` -/

/-- C2: at `r = [1, 3]`, `n = [4, 6]` the inverse of `24 / 4 = 6` modulo `4`
does not exist (`mpz_invert` returns `0`), yet `crt` returns `0`, with an `x`
that satisfies neither congruence. -/
theorem crt_missing_inverse_returns_zero :
    (mpz_invert 0 (mpz_div (crt_product [4, 6] 2) 4) 4).1 = 0 ∧
      crt (some [1, 3]) (some [4, 6]) 2 0 = (0, 0) := by
  decide

/-! ## Claims on the sequential rho routine -/

/-- C6: for a safe prime `p = 2 q + 1` and `g`, `h` in `[1, p)`, with `r = b - B`
taken when the loop ends, the routine returns a non-zero value if and only if
`r ≡ 0 (mod q)`, and otherwise it returns `0` and `x = inv * (A - a) mod q` for
an inverse `inv` of `r` modulo `q`. -/
theorem rho_returns_failure_iff (p q : Nat) (hp : p.Prime) (hq : q.Prime) (hpq : p = 2 * q + 1)
    (g h x0 : Int) (hg : 1 ≤ g ∧ g < p) (hh : 1 ≤ h ∧ h < p) :
    ((pollard_rho_dicsrete_log g h p x0).1 ≠ 0 ↔
      (rho_walk g h p).tortoise.b - (rho_walk g h p).rabbit.b ≡ 0 [ZMOD q]) ∧
    (¬ (rho_walk g h p).tortoise.b - (rho_walk g h p).rabbit.b ≡ 0 [ZMOD q] →
      (pollard_rho_dicsrete_log g h p x0).1 = 0 ∧
      ∃ inv : Int, ((rho_walk g h p).tortoise.b - (rho_walk g h p).rabbit.b) * inv ≡ 1 [ZMOD q] ∧
        (pollard_rho_dicsrete_log g h p x0).2 =
          inv * ((rho_walk g h p).rabbit.a - (rho_walk g h p).tortoise.a) % q) :=
  rho_outcome p q hq hpq g h x0

theorem rho_returns_failure_iff_witness :
    ((pollard_rho_dicsrete_log 2 5 ((23 : Nat) : Int) 0).1 ≠ 0 ↔
      (rho_walk 2 5 ((23 : Nat) : Int)).tortoise.b - (rho_walk 2 5 ((23 : Nat) : Int)).rabbit.b
        ≡ 0 [ZMOD ((11 : Nat) : Int)]) ∧
    (¬ (rho_walk 2 5 ((23 : Nat) : Int)).tortoise.b - (rho_walk 2 5 ((23 : Nat) : Int)).rabbit.b
        ≡ 0 [ZMOD ((11 : Nat) : Int)] →
      (pollard_rho_dicsrete_log 2 5 ((23 : Nat) : Int) 0).1 = 0 ∧
      ∃ inv : Int, ((rho_walk 2 5 ((23 : Nat) : Int)).tortoise.b -
          (rho_walk 2 5 ((23 : Nat) : Int)).rabbit.b) * inv ≡ 1 [ZMOD ((11 : Nat) : Int)] ∧
        (pollard_rho_dicsrete_log 2 5 ((23 : Nat) : Int) 0).2 =
          inv * ((rho_walk 2 5 ((23 : Nat) : Int)).rabbit.a -
            (rho_walk 2 5 ((23 : Nat) : Int)).tortoise.a) % ((11 : Nat) : Int)) :=
  rho_returns_failure_iff 23 11 (by norm_num) (by norm_num) (by norm_num) 2 5 0
    (by decide) (by decide)

theorem rho_solves_dlog_witness :
    HasOrder 2 11 ((23 : Nat) : Int) ∧ (pollard_rho_dicsrete_log 2 3 ((23 : Nat) : Int) 0).1 = 0 ∧
      (0 ≤ (pollard_rho_dicsrete_log 2 3 ((23 : Nat) : Int) 0).2 ∧
        (pollard_rho_dicsrete_log 2 3 ((23 : Nat) : Int) 0).2 < ((11 : Nat) : Int) ∧
        mpz_powm 2 (pollard_rho_dicsrete_log 2 3 ((23 : Nat) : Int) 0).2 ((23 : Nat) : Int) = 3) :=
  ⟨by unfold HasOrder; decide, by decide,
    rho_solves_dlog 23 11 (by norm_num) (by norm_num) (by norm_num) 2 3 0 (by decide) (by decide)
      (by unfold HasOrder; decide) ⟨8, by decide⟩ (by decide)⟩

/-- C4 (as amended): for a safe prime `p = 2 q + 1`, every `g` in `[1, p)` other
than `p - 1` (unless `q = 2`), every `x` in `[1, q)` and `h = g ^ x mod p`, when
the routine returns `0` its output `x'` satisfies `g ^ x' mod p = h`. -/
theorem rho_round_trip (p q : Nat) (hp : p.Prime) (hq : q.Prime) (hpq : p = 2 * q + 1)
    (g x0 : Int) (hg : 1 ≤ g ∧ g < p) (hne : g ≠ p - 1 ∨ q = 2) (x : Nat)
    (hx : 1 ≤ x ∧ x < q)
    (hret : (pollard_rho_dicsrete_log g (g ^ x % p) p x0).1 = 0) :
    mpz_powm g (pollard_rho_dicsrete_log g (g ^ x % p) p x0).2 p = g ^ x % p := by
  by_cases h1 : g = 1
  · subst h1
    rw [mpz_powm_of_nonneg _ _ _ (rho_result_range p q hq hpq _ _ x0 hret).1]
    simp
  · have hpi : Prime (p : Int) := Nat.prime_iff_prime_int.mp hp
    have hgd := not_dvd_of_mem_range p g hg.1 hg.2
    have hh := Finset.mem_Icc.mp
      (emod_mem_Icc p hp (g ^ x) (fun hd => hgd (hpi.dvd_of_dvd_pow hd)))
    obtain ⟨hm, h0, hlt⟩ := rho_solves p q hp hq hpq g (g ^ x % p) x0 hg
      ⟨hh.1, by omega⟩ x rfl (safe_prime_order p q hp hq hpq g hg h1 hne) hret
    have hxq : (x : Int) < q := by exact_mod_cast hx.2
    have heq : (pollard_rho_dicsrete_log g (g ^ x % p) p x0).2 = x := by
      have := hm
      unfold Int.ModEq at this
      rwa [Int.emod_eq_of_lt h0 hlt, Int.emod_eq_of_lt (by omega) hxq] at this
    rw [heq, mpz_powm_natCast]

set_option maxRecDepth 100000 in
theorem rho_round_trip_witness :
    (pollard_rho_dicsrete_log 5 (5 ^ 503 % ((1019 : Nat) : Int)) ((1019 : Nat) : Int) 0).1 = 0 ∧
      (5 : Int) ^ 503 % ((1019 : Nat) : Int) = 3 ∧
      mpz_powm 5 (pollard_rho_dicsrete_log 5 (5 ^ 503 % ((1019 : Nat) : Int))
        ((1019 : Nat) : Int) 0).2 ((1019 : Nat) : Int) = 5 ^ 503 % ((1019 : Nat) : Int) :=
  ⟨by decide, by decide,
    rho_round_trip 1019 509 (by norm_num) (by norm_num) (by norm_num) 5 0 (by decide)
      (Or.inl (by decide)) 503 (by decide) (by decide)⟩

/-- C4 (counterexample): for `p = 23`, `g = 2`, `x = 1` (so `h = 2`) the routine
returns a non-zero value and leaves an `x'` with `2 ^ x' mod 23 ≠ 2`; for `p = 7`,
`g = 6`, `x = 1` (so `h = 6`) it returns `0` and `x' = 2` with `6 ^ 2 mod 7 ≠ 6`. -/
theorem rho_round_trip_fails :
    ((pollard_rho_dicsrete_log 2 (2 ^ 1 % 23) 23 0).1 ≠ 0 ∧
      mpz_powm 2 (pollard_rho_dicsrete_log 2 (2 ^ 1 % 23) 23 0).2 23 ≠ 2 ^ 1 % 23) ∧
    (pollard_rho_dicsrete_log 6 (6 ^ 1 % 7) 7 0 = (0, 2) ∧ mpz_powm 6 2 7 ≠ 6 ^ 1 % 7) := by
  decide

theorem two_pow_mod_23 (k : Nat) : (2 : Int) ^ k % 23 = 2 ^ (k % 11) % 23 := by
  conv_lhs => rw [← Nat.div_add_mod k 11, pow_add, pow_mul]
  rw [Int.mul_emod, ← Int.emod_emod_of_dvd ((2 ^ 11 : Int) ^ (k / 11)) (dvd_refl (23 : Int))]
  have h : ∀ m : Nat, ((2 : Int) ^ 11) ^ m % 23 = 1 := by
    intro m
    induction m with
    | zero => rfl
    | succ m ih => rw [pow_succ, Int.mul_emod, ih]; rfl
  rw [h]
  simp

/-- C5 (as amended): on `g = 2`, `h = 5`, `p = 23` the routine returns `0` and
`x = 6`, with `2 ^ 6 mod 23 = 18`; no exponent `k` has `2 ^ k ≡ 5 (mod 23)`. -/
theorem rho_scenario_23 :
    (∀ x0 : Int, pollard_rho_dicsrete_log 2 5 23 x0 = (0, 6)) ∧ mpz_powm 2 6 23 = 18 ∧
      ∀ k : Nat, (2 : Int) ^ k % 23 ≠ 5 := by
  refine ⟨fun x0 => ?_, by decide, fun k => ?_⟩
  · show pollard_rho_dicsrete_log 2 5 23 0 = (0, 6)
    decide
  · rw [two_pow_mod_23]
    have hk : k % 11 < 11 := Nat.mod_lt _ (by norm_num)
    interval_cases (k % 11) <;> decide

/-- C5 (counterexample): the `x` returned on `g = 2`, `h = 5`, `p = 23` does not
satisfy `2 ^ x ≡ 5 (mod 23)`. -/
theorem rho_scenario_23_fails :
    mpz_powm 2 (pollard_rho_dicsrete_log 2 5 23 0).2 23 % 23 ≠ 5 % 23 := by
  decide

/-! ## Outputs on failure -/

theorem crt_failure_keeps_output (r n : Option (List Int)) (len : Nat) (x : Int)
    (hret : (crt r n len x).1 ≠ 0) : (crt r n len x).2 = x := by
  unfold crt at hret ⊢
  cases r with
  | none => rfl
  | some r =>
    cases n with
    | none => rfl
    | some n =>
      by_cases hl : len = 0
      · simp [hl]
      · simp [hl] at hret

theorem lenstra_ecm_failure_keeps_output (n : Int) (primes : List Nat) (limit : Nat)
    (factor : Int) (draws : Option (Int × Int)) (draw : Option Int)
    (hret : (lenstra_ecm n primes limit factor draws draw).1 ≠ 0) :
    (lenstra_ecm n primes limit factor draws draw).2 = factor := by
  unfold lenstra_ecm at hret ⊢
  cases hp : point_create_random n draws with
  | none => simp
  | some point =>
    simp only [hp] at hret ⊢
    cases he : ecurve_create point n draw with
    | none => simp
    | some ecurve =>
      simp only [he] at hret ⊢
      cases hl : ecm_primes_loop n ecurve limit primes point with
      | none => simp
      | some f => simp [hl] at hret

theorem rho_failure_output (g h p x : Int) (hret : (pollard_rho_dicsrete_log g h p x).1 ≠ 0) :
    (pollard_rho_dicsrete_log g h p x).2 = (rho_walk g h p).tortoise.x := by
  unfold pollard_rho_dicsrete_log at hret ⊢
  by_cases hr : (rho_walk g h p).tortoise.b - (rho_walk g h p).rabbit.b = 0
  · simp [hr]
  · simp [hr] at hret

/-- C7 (as amended): when `crt` or `lenstra_ecm` returns a non-zero value the
output operand holds the value it had on entry; when the sequential rho routine
returns a non-zero value its output `x` holds the position of the tortoise at
the end of the loop. -/
theorem outputs_on_failure :
    (∀ (r n : Option (List Int)) (len : Nat) (x : Int),
      (crt r n len x).1 ≠ 0 → (crt r n len x).2 = x) ∧
    (∀ (n : Int) (primes : List Nat) (limit : Nat) (factor : Int)
      (draws : Option (Int × Int)) (draw : Option Int),
      (lenstra_ecm n primes limit factor draws draw).1 ≠ 0 →
        (lenstra_ecm n primes limit factor draws draw).2 = factor) ∧
    (∀ g h p x : Int, (pollard_rho_dicsrete_log g h p x).1 ≠ 0 →
      (pollard_rho_dicsrete_log g h p x).2 = (rho_walk g h p).tortoise.x) :=
  ⟨crt_failure_keeps_output, lenstra_ecm_failure_keeps_output, rho_failure_output⟩

theorem outputs_on_failure_witness :
    ((crt (some [2, 3]) (some [3, 5]) 0 7).1 ≠ 0 ∧ (crt (some [2, 3]) (some [3, 5]) 0 7).2 = 7) ∧
    ((lenstra_ecm 8051 [2, 3] 5 42 (some (1, 1)) (some 1)).1 ≠ 0 ∧
      (lenstra_ecm 8051 [2, 3] 5 42 (some (1, 1)) (some 1)).2 = 42) ∧
    ((pollard_rho_dicsrete_log 2 2 23 0).1 ≠ 0 ∧
      (pollard_rho_dicsrete_log 2 2 23 0).2 = (rho_walk 2 2 23).tortoise.x) :=
  ⟨⟨by decide, outputs_on_failure.1 _ _ _ _ (by decide)⟩,
    ⟨by decide, outputs_on_failure.2.1 _ _ _ _ _ _ (by decide)⟩,
    ⟨by decide, outputs_on_failure.2.2 _ _ _ _ (by decide)⟩⟩

/-- C7 (counterexample): on `g = 2`, `h = 2`, `p = 23`, entered with `x = 0`, the
sequential rho routine returns a non-zero value and leaves `x = 4`. -/
theorem rho_failure_overwrites_output :
    (pollard_rho_dicsrete_log 2 2 23 0).1 ≠ 0 ∧ (pollard_rho_dicsrete_log 2 2 23 0).2 = 4 ∧
      (pollard_rho_dicsrete_log 2 2 23 0).2 ≠ 0 := by
  decide

/-! ## Claims on `pohling_discrete_log` -/

set_option maxRecDepth 100000 in
/-- C9: on `p = 251`, `g = 71`, `h = 210` with the factor list `{(2, 1), (5, 3)}`,
whatever the parallel searches deliver, `pohling_discrete_log` returns `0` with
`x = 31` and overwrites `g` and `h` with `250`; `71 ^ 31 mod 251 = 172`, not
`210`, while `71 ^ 197 mod 251 = 210`. -/
theorem pohling_scenario_251 (search : Nat → Nat → Int → Int → Option Int) (x0 : Int) :
    pohling_discrete_log search 71 210 251 [2, 5] [1, 3] 2 x0 =
      some { ret := 0, x := 31, g := 250, h := 250 } ∧
    mpz_powm 71 31 251 = 172 ∧ mpz_powm 71 197 251 = 210 := by
  have h1 : calculate_ord 71 251 [2, 5] [1, 3] 2 (251 - 1) = ([1, 3], 250) := by rfl
  have h2 : delete_zeros [2, 5] [1, 3] 2 = some ([2, 5], [1, 3], 2) := by rfl
  have h3 : mpz_powm 5 3 251 = 125 := by rfl
  have h4 : mpz_powm 71 125 251 = 250 := by rfl
  have h5 : mpz_powm 210 125 251 = 250 := by rfl
  have h6 : pohling_loop search 250 250 251 250 [2, 5] [1, 3] 2 = ([1, 31], [2, 125]) := by rfl
  have h7 : crt (some [1, 31]) (some [2, 125]) 2 x0 = (0, 31) := by rfl
  refine ⟨?_, by decide, by decide⟩
  simp only [pohling_discrete_log, h1, h2]
  simp [h3, h4, h5, h6, h7]
  rfl

/-- C10: for a prime `p`, `g` not divisible by `p`, `h = g ^ k mod p`, distinct
primes `f i` with exponents `e i ≥ 1` whose product of powers is `p - 1`, and
parallel searches that deliver a correct logarithm whenever one exists:
`pohling_discrete_log` returns whenever the exponent that `calculate_ord` leaves
for the last factor is not `0`, and whenever it returns, it returns `0` and the
`g` and `h` it left satisfy `g ^ x mod p = h`, so the check of `main` succeeds.
(Every `mpz_t` has fewer than `2 ^ 64` bits.) -/
theorem pohling_main_check_passes (search : Nat → Nat → Int → Int → Option Int) (p : Nat)
    (hp : p.Prime) (hbits : Nat.log2 p < 2 ^ 64) (g h : Int) (k : Nat)
    (hg0 : ¬ (p : Int) ∣ g) (hh : h = g ^ k % p)
    (factors exponents : List Int) (len : Nat)
    (hfl : factors.length = len) (hel : exponents.length = len)
    (hprime : ∀ i, i < len → ∃ q : Nat, q.Prime ∧ factors.getD i 0 = q)
    (hdist : ∀ i, i < len → ∀ j, j < len → i ≠ j → factors.getD i 0 ≠ factors.getD j 0)
    (hexp : ∀ i, i < len → 1 ≤ exponents.getD i 0)
    (hprod : ord_product factors exponents len = p - 1)
    (hs : SearchCorrect search p) (x0 : Int) :
    ((calculate_ord g p factors exponents len (p - 1)).1.getD (len - 1) 0 ≠ 0 →
      ∃ r : PohlingResult,
        pohling_discrete_log search g h p factors exponents len x0 = some r) ∧
    ∀ r : PohlingResult,
      pohling_discrete_log search g h p factors exponents len x0 = some r →
        r.ret = 0 ∧ mpz_powm r.g r.x p = r.h ∧ pohling_main_check r p = 0 := by
  refine ⟨fun hlast => ?_, fun r hr => ?_⟩
  · have hl := calculate_ord_length p hp hbits g hg0 factors exponents len hel hprime hexp hprod
    have hlen : 0 < len := by
      rcases Nat.eq_zero_or_pos len with h0 | h0
      · exfalso
        apply hlast
        rw [List.getD_eq_default _ _ (by omega)]
      · exact h0
    exact pohling_returns search p hp hbits g h hg0 factors exponents len hlen hfl hel hprime
      hexp hprod x0 hlast
  · obtain ⟨hret, hc⟩ := pohling_check_spec search p hp hbits g h k hg0 hh factors exponents len
      hfl hel hprime hdist hexp hprod hs x0 r hr
    exact ⟨hret, hc, by simp only [pohling_main_check, hc, if_true]⟩

set_option maxRecDepth 100000 in
theorem pohling_main_check_passes_witness :
    pohling_discrete_log (fun _ _ G H => least_log G H ((251 : Nat) : Int) (251 - 1) 0) 71 210
        ((251 : Nat) : Int) [5, 2] [3, 1] 2 0 = some { ret := 0, x := 197, g := 21, h := 175 } ∧
      ((PohlingResult.mk 0 197 21 175).ret = 0 ∧ mpz_powm 21 197 ((251 : Nat) : Int) = 175 ∧
        pohling_main_check { ret := 0, x := 197, g := 21, h := 175 } ((251 : Nat) : Int) = 0) :=
  ⟨by decide,
    (pohling_main_check_passes (fun _ _ G H => least_log G H ((251 : Nat) : Int) (251 - 1) 0) 251
      (by norm_num)
      (lt_trans ((Nat.log2_lt (by norm_num)).mpr (by norm_num : 251 < 2 ^ 8)) (by norm_num))
      71 210 197 (by decide) (by decide) [5, 2] [3, 1] 2 rfl rfl
      (fun i hi => by
        interval_cases i
        · exact ⟨5, by norm_num, rfl⟩
        · exact ⟨2, by norm_num, rfl⟩)
      (by decide) (by decide) (by decide)
      (least_log_searchCorrect 251 (by norm_num) (by norm_num)) 0).2
      { ret := 0, x := 197, g := 21, h := 175 } (by decide)⟩

/-! ## Claims on `ecm.c` -/

/-- C11: for `n > 1`, every list of primes, every bound and every outcome of the
random draws, whenever `lenstra_ecm` returns `0` its output `factor` satisfies
`1 < factor < n` and `n mod factor = 0`. -/
theorem lenstra_ecm_factor (n : Int) (hn : 1 < n) (primes : List Nat) (limit : Nat)
    (factor : Int) (draws : Option (Int × Int)) (draw : Option Int)
    (hret : (lenstra_ecm n primes limit factor draws draw).1 = 0) :
    1 < (lenstra_ecm n primes limit factor draws draw).2 ∧
      (lenstra_ecm n primes limit factor draws draw).2 < n ∧
      n % (lenstra_ecm n primes limit factor draws draw).2 = 0 := by
  unfold lenstra_ecm at hret ⊢
  cases hp : point_create_random n draws with
  | none => simp [hp, ERROR] at hret
  | some point =>
    have hz : point.z = 1 := by
      unfold point_create_random at hp
      cases draws with
      | none => simp at hp
      | some d =>
        simp only [Option.some.injEq] at hp
        rw [← hp]
    have hc : point.carries n := fun h => absurd h (by rw [hz]; decide)
    simp only [hp] at hret ⊢
    cases he : ecurve_create point n draw with
    | none => simp [he, ERROR] at hret
    | some ecurve =>
      have hE : ecurve.n = n := by
        unfold ecurve_create at he
        cases draw with
        | none => simp at he
        | some d =>
          simp only [Option.some.injEq] at he
          rw [← he]
      simp only [he] at hret ⊢
      cases hl : ecm_primes_loop n ecurve limit primes point with
      | none => simp [hl] at hret
      | some f =>
        obtain ⟨z, hz1, hzn, hg, hf⟩ :=
          ecm_primes_loop_spec n (by omega) ecurve hE limit primes point hc f hl
        simp only
        rw [hf]
        exact gcd_carried n z hz1 hzn hg

theorem lenstra_ecm_factor_witness :
    lenstra_ecm 8051 [2] 5 0 (some (0, 4)) (some 3) = (0, 83) ∧
      (1 < (lenstra_ecm 8051 [2] 5 0 (some (0, 4)) (some 3)).2 ∧
        (lenstra_ecm 8051 [2] 5 0 (some (0, 4)) (some 3)).2 < 8051 ∧
        8051 % (lenstra_ecm 8051 [2] 5 0 (some (0, 4)) (some 3)).2 = 0) :=
  ⟨by decide, lenstra_ecm_factor 8051 (by decide) [2] 5 0 (some (0, 4)) (some 3) (by decide)⟩

/-- C12: for `n > 1`, a point `P = (Px, Py, 1)` and a drawn value `d`,
`ecurve_create` returns the curve `(a, b, n)` with `a = d mod n` in `[0, n)` and
`b = (Py^2 - Px^3 - a Px) mod n`, so that `0 ≤ b < n` and `P` lies on the curve:
`Py^2 ≡ Px^3 + a Px + b (mod n)`. -/
theorem ecurve_create_on_curve (n : Int) (hn : 1 < n) (Px Py d : Int) :
    ∃ E : ECurve, ecurve_create { x := Px, y := Py, z := 1 } n (some d) = some E ∧
      E.n = n ∧ E.a = mpz_urandomm d n ∧ 0 ≤ E.a ∧ E.a < n ∧
      E.b = (Py ^ 2 - Px ^ 3 - E.a * Px) % n ∧ 0 ≤ E.b ∧ E.b < n ∧
      Py ^ 2 ≡ Px ^ 3 + E.a * Px + E.b [ZMOD n] := by
  have hn0 : n ≠ 0 := by omega
  have hpos : 0 < n := by omega
  refine ⟨_, rfl, rfl, rfl, ?_, ?_, ?_, ?_, ?_, ?_⟩
  · exact Int.emod_nonneg _ hn0
  · exact Int.emod_lt_of_pos _ hpos
  · simp only [mpz_mod]
    rw [mul_comm]
  · exact Int.emod_nonneg _ hn0
  · exact Int.emod_lt_of_pos _ hpos
  · simp only [mpz_mod]
    have h := Int.mod_modEq (Py ^ 2 - Px ^ 3 - Px * mpz_urandomm d n) n
    have h2 := (h.add_left (Px ^ 3 + mpz_urandomm d n * Px)).symm
    have e : Px ^ 3 + mpz_urandomm d n * Px + (Py ^ 2 - Px ^ 3 - Px * mpz_urandomm d n) =
        Py ^ 2 := by ring
    rw [e] at h2
    exact h2

theorem ecurve_create_on_curve_witness :
    ∃ E : ECurve, ecurve_create { x := 0, y := 4, z := 1 } 8051 (some 3) = some E ∧
      E.n = 8051 ∧ E.a = mpz_urandomm 3 8051 ∧ 0 ≤ E.a ∧ E.a < 8051 ∧
      E.b = (4 ^ 2 - 0 ^ 3 - E.a * 0) % 8051 ∧ 0 ≤ E.b ∧ E.b < 8051 ∧
      (4 : Int) ^ 2 ≡ 0 ^ 3 + E.a * 0 + E.b [ZMOD 8051] :=
  ecurve_create_on_curve 8051 (by decide) 0 4 3

/-- C13 (as amended): for `n > 1` and two points with `z` in `{0, 1}` and
coordinates in `[0, n)`, whenever `eliptic_add` cannot invert the slope
denominator `d` modulo `n` it sets the first point to `(0, 0, d)`; `d = 0`
exactly when the two points have the same `x` and `2 y` of the first point is `0`
modulo `n`, and then `gcd (d, n) = n`; in every other case
`1 < gcd (d, n) < n`. -/
theorem eliptic_add_failure_channel (n : Int) (hn : 1 < n) (P Q : Point) (E : ECurve)
    (hE : E.n = n) (hPz : P.z = 0 ∨ P.z = 1) (hQz : Q.z = 0 ∨ Q.z = 1)
    (hPx : 0 ≤ P.x ∧ P.x < n) (hPy : 0 ≤ P.y ∧ P.y < n)
    (hQx : 0 ≤ Q.x ∧ Q.x < n) (hQy : 0 ≤ Q.y ∧ Q.y < n)
    (t1 d : Int) (hP1 : P.z ≠ 0) (hQ1 : Q.z ≠ 0)
    (hs : eliptic_add_slope P Q E = some (t1, d)) (hi : (mpz_invert 0 d n).1 = 0) :
    eliptic_add P Q E = { x := 0, y := 0, z := d } ∧
      (d = 0 ↔ P.x = Q.x ∧ mpz_mod (P.y * 2) n = 0) ∧
      (d = 0 → (Int.gcd d n : Int) = n) ∧
      (d ≠ 0 → 1 < Int.gcd d n ∧ (Int.gcd d n : Int) < n) := by
  have hr := eliptic_add_slope_range P Q E (by rw [hE]; omega) t1 d hs
  have hg := mpz_invert_fails 0 d n (by omega) hi
  rw [hE] at hr
  have hd0 : d = 0 ↔ P.x = Q.x ∧ mpz_mod (P.y * 2) n = 0 := by
    have hs1 := hs
    unfold eliptic_add_slope at hs1
    by_cases hx : P.x = Q.x
    · by_cases hy : mpz_mod (P.y + Q.y) E.n = 0
      · simp [hx, hy] at hs1
      · rw [if_pos hx, if_neg hy] at hs1
        simp only [Option.some.injEq, Prod.mk.injEq, hE] at hs1
        rw [← hs1.2]
        exact ⟨fun h0 => ⟨hx, h0⟩, fun h0 => h0.2⟩
    · simp only [hx, if_false, Option.some.injEq, Prod.mk.injEq, mpz_mod, hE] at hs1
      refine ⟨fun h0 => ?_, fun h0 => absurd h0.1 hx⟩
      exfalso
      rw [← hs1.2] at h0
      have hdvd : n ∣ Q.x - P.x := Int.dvd_of_emod_eq_zero h0
      obtain ⟨c, hc⟩ := hdvd
      have hc0 : c ≠ 0 := by
        rintro rfl
        apply hx
        omega
      have hlt : |Q.x - P.x| < n := by
        rw [abs_lt]
        constructor <;> omega
      have hge : n ≤ |Q.x - P.x| := by
        rw [hc, abs_mul]
        have h1 : 1 ≤ |c| := Int.one_le_abs hc0
        have h2 : |n| = n := abs_of_pos (by omega)
        rw [h2]
        nlinarith
      omega
  have hres : eliptic_add P Q E = { x := 0, y := 0, z := d } := by
    rcases eliptic_add_cases P Q E hP1 hQ1 with ⟨h, -⟩ | ⟨a1, a2, h, -, h3⟩ | ⟨a1, a2, h, h2, -⟩
    · rw [hs] at h; cases h
    · rw [hs] at h
      simp only [Option.some.injEq, Prod.mk.injEq] at h
      rw [h3, h.2]
    · rw [hs] at h
      simp only [Option.some.injEq, Prod.mk.injEq] at h
      rw [← h.2, hE] at h2
      exact absurd hi h2
  refine ⟨hres, hd0, fun h0 => ?_, fun hne => ?_⟩
  · rw [h0, Int.gcd_zero_left]
    exact Int.natAbs_of_nonneg (by omega)
  · have hpos : 0 < Int.gcd d n := Int.gcd_pos_of_ne_zero_left n hne
    have hle : Int.gcd d n ≤ d.natAbs :=
      Nat.le_of_dvd (by omega) (Int.natCast_dvd.mp Int.gcd_dvd_left)
    exact ⟨by omega, by omega⟩

theorem eliptic_add_failure_channel_witness :
    ((3 : Int) ^ 2 % 105 = (0 ^ 3 + 0 * 0 + 9) % 105 ∧
      (18 : Int) ^ 2 % 105 = (0 ^ 3 + 0 * 0 + 9) % 105) ∧
    eliptic_add_slope { x := 0, y := 3, z := 1 } { x := 0, y := 18, z := 1 }
        { a := 0, b := 9, n := 105 } = some (0, 6) ∧
      (mpz_invert 0 6 105).1 = 0 ∧ Int.gcd 6 105 = 3 ∧
      (eliptic_add { x := 0, y := 3, z := 1 } { x := 0, y := 18, z := 1 }
          { a := 0, b := 9, n := 105 } = { x := 0, y := 0, z := 6 } ∧
        ((6 : Int) = 0 ↔ (0 : Int) = 0 ∧ mpz_mod (3 * 2) 105 = 0) ∧
        ((6 : Int) = 0 → (Int.gcd 6 105 : Int) = 105) ∧
        ((6 : Int) ≠ 0 → 1 < Int.gcd 6 105 ∧ (Int.gcd 6 105 : Int) < 105)) :=
  ⟨by decide, by decide, by decide, by decide,
    eliptic_add_failure_channel 105 (by decide) { x := 0, y := 3, z := 1 }
      { x := 0, y := 18, z := 1 } { a := 0, b := 9, n := 105 } rfl (Or.inr rfl) (Or.inr rfl)
      (by decide) (by decide) (by decide) (by decide) 0 6
      (by decide) (by decide) (by decide) (by decide)⟩

/-- C13 (counterexample): modulo `n = 8`, on the curve `y^2 = x^3 + x`, the points
`(0, 4, 1)` and `(0, 0, 1)` have the same `x` and `4 + 0` is not `0` modulo `8`:
`eliptic_add` takes the tangent, the denominator is `d = 2 * 4 mod 8 = 0`, the
inversion fails, the first point becomes `(0, 0, 0)` and `gcd (0, 8) = 8`. -/
theorem eliptic_add_zero_denominator :
    eliptic_add_slope { x := 0, y := 4, z := 1 } { x := 0, y := 0, z := 1 }
        { a := 1, b := 0, n := 8 } = some (1, 0) ∧
      (mpz_invert 0 0 8).1 = 0 ∧
      eliptic_add { x := 0, y := 4, z := 1 } { x := 0, y := 0, z := 1 }
        { a := 1, b := 0, n := 8 } = { x := 0, y := 0, z := 0 } ∧
      ¬ (1 < Int.gcd 0 8 ∧ (Int.gcd 0 8 : Int) < 8) := by
  decide

/-- C14: on the curve `y^2 = x^3 + x + 1` modulo `23` and the affine point
`P = (0, 1)` on it, `eliptic_mul (1, P)` makes one inversion, of the denominator
`2`, which succeeds, and leaves `(6, 19, 1)`, which is `2 P`, not
`1 P = (0, 1, 1)`; `eliptic_mul (3, P)` leaves `(18, 3, 1)`, which is `5 P`, not
`3 P = (3, 13, 1)`. -/
theorem eliptic_mul_not_k_fold :
    ((1 : Int) ^ 2 % 23 = (0 ^ 3 + 1 * 0 + 1) % 23 ∧
      eliptic_add_slope { x := 0, y := 1, z := 1 } { x := 0, y := 1, z := 1 }
        { a := 1, b := 1, n := 23 } = some (1, 2) ∧ (mpz_invert 0 2 23).1 = 1) ∧
      eliptic_mul 1 { x := 0, y := 1, z := 1 } { a := 1, b := 1, n := 23 } =
        { x := 6, y := 19, z := 1 } ∧
      k_fold_sum { x := 0, y := 1, z := 1 } { a := 1, b := 1, n := 23 } 1 =
        { x := 0, y := 1, z := 1 } ∧
      k_fold_sum { x := 0, y := 1, z := 1 } { a := 1, b := 1, n := 23 } 2 =
        { x := 6, y := 19, z := 1 } ∧
      eliptic_mul 3 { x := 0, y := 1, z := 1 } { a := 1, b := 1, n := 23 } =
        { x := 18, y := 3, z := 1 } ∧
      k_fold_sum { x := 0, y := 1, z := 1 } { a := 1, b := 1, n := 23 } 3 =
        { x := 3, y := 13, z := 1 } ∧
      k_fold_sum { x := 0, y := 1, z := 1 } { a := 1, b := 1, n := 23 } 5 =
        { x := 18, y := 3, z := 1 } := by
  decide

/-! ## Claims on the parallel routines -/

/-- C15: for a prime `p`, `g ≠ h` in `[1, p)`, any number of workers, any hash
function and any schedule of the workers (with at least one jump size, so that
the jump index is defined): once a worker has found a triple of the other type at
its position and has published `x = (a + b) / 2 + dTAME - dWILD`, the routine
returns `0` and a `res` with `0 ≤ res < p - 1` and `g ^ res mod p = h`. -/
theorem lambda_publishes_correct (hash : Int → Nat) (p : Nat) (hp : p.Prime) (g h : Int)
    (hg : 1 ≤ g ∧ g < p) (hh : 1 ≤ h ∧ h < p) (hne : g ≠ h) (nproc : Nat)
    (hr : 0 < (lambda_params g p nproc).r) (schedule : List Nat) (res0 : Int)
    (hfin : (lambda_region hash g h p nproc schedule res0).shared.finish = true) :
    (pollard_lambda_parallel_dicsrete_log
        (lambda_published (lambda_region hash g h p nproc schedule res0)) g h p res0).1 = 0 ∧
      0 ≤ (pollard_lambda_parallel_dicsrete_log
        (lambda_published (lambda_region hash g h p nproc schedule res0)) g h p res0).2 ∧
      (pollard_lambda_parallel_dicsrete_log
        (lambda_published (lambda_region hash g h p nproc schedule res0)) g h p res0).2 < p - 1 ∧
      mpz_powm g (pollard_lambda_parallel_dicsrete_log
        (lambda_published (lambda_region hash g h p nproc schedule res0)) g h p res0).2 p = h := by
  have hG : (g : ZMod p) ≠ 0 := by
    rw [Ne, ZMod.intCast_zmod_eq_zero_iff_dvd]
    exact not_dvd_of_mem_range p g hg.1 hg.2
  have hp1 : (0 : Int) < (p : Int) - 1 := by
    have : (2 : Int) ≤ p := by exact_mod_cast hp.two_le
    omega
  have hs := (lambda_region_sound hash p hp g h hG nproc hr schedule res0).1.2 hfin
  have hout : pollard_lambda_parallel_dicsrete_log
      (lambda_published (lambda_region hash g h p nproc schedule res0)) g h p res0 =
      (0, mpz_mod (lambda_region hash g h p nproc schedule res0).shared.res ((p : Int) - 1)) := by
    simp only [pollard_lambda_parallel_dicsrete_log, lambda_published, if_neg hne, hfin, if_true]
  rw [hout]
  have h0 : 0 ≤ mpz_mod (lambda_region hash g h p nproc schedule res0).shared.res
      ((p : Int) - 1) := Int.emod_nonneg _ (ne_of_gt hp1)
  refine ⟨rfl, h0, Int.emod_lt_of_pos _ hp1, ?_⟩
  simp only
  rw [mpz_powm_of_nonneg _ _ _ h0]
  have e := (pow_emod_eq_iff p g _ h).mpr hs
  rw [e]
  exact Int.emod_eq_of_lt (by omega) hh.2

theorem lambda_publishes_correct_witness :
    (lambda_region (fun pos => pos.natAbs) 2 9 ((13 : Nat) : Int) 3 [1, 1, 2, 2] 0).shared =
        { set := [{ type := kangaroo_t.KANGAROO_WILD, dist := 3, pos := 7 }], res := 8,
          finish := true } ∧
      ((pollard_lambda_parallel_dicsrete_log (lambda_published (lambda_region
          (fun pos => pos.natAbs) 2 9 ((13 : Nat) : Int) 3 [1, 1, 2, 2] 0)) 2 9
          ((13 : Nat) : Int) 0).1 = 0 ∧
        0 ≤ (pollard_lambda_parallel_dicsrete_log (lambda_published (lambda_region
          (fun pos => pos.natAbs) 2 9 ((13 : Nat) : Int) 3 [1, 1, 2, 2] 0)) 2 9
          ((13 : Nat) : Int) 0).2 ∧
        (pollard_lambda_parallel_dicsrete_log (lambda_published (lambda_region
          (fun pos => pos.natAbs) 2 9 ((13 : Nat) : Int) 3 [1, 1, 2, 2] 0)) 2 9
          ((13 : Nat) : Int) 0).2 < ((13 : Nat) : Int) - 1 ∧
        mpz_powm 2 (pollard_lambda_parallel_dicsrete_log (lambda_published (lambda_region
          (fun pos => pos.natAbs) 2 9 ((13 : Nat) : Int) 3 [1, 1, 2, 2] 0)) 2 9
          ((13 : Nat) : Int) 0).2 ((13 : Nat) : Int) = 9) :=
  ⟨by decide,
    lambda_publishes_correct (fun pos => pos.natAbs) 13 (by norm_num) 2 9 (by decide)
      (by decide) (by decide) 3 (by decide) [1, 1, 2, 2] 0 (by decide)⟩

/-- C16: for a safe prime `p = 2 q + 1`, `g` of order `q` modulo `p` and `h` in
the subgroup generated by `g`, in every execution of the parallel region of
`pollard_rho_parallel_dicsrete_log` (any number of workers, any draws, any
schedule): once a critical section has set the termination flag, `res` satisfies
`0 ≤ res < q` and `g ^ res mod p = h`. -/
theorem rho_parallel_publishes_correct (p q : Nat) (hp : p.Prime) (hq : q.Prime)
    (hpq : p = 2 * q + 1) (g h : Int) (hg : 1 ≤ g ∧ g < p) (hh : 1 ≤ h ∧ h < p)
    (hord : HasOrder g q p) (hsub : ∃ k : Nat, h = g ^ k % p) (nproc : Nat)
    (schedule : List (Nat × Int × Int)) (res0 : Int)
    (hdone : (rho_region g h p nproc schedule res0).shared.done = true) :
    0 ≤ (rho_region g h p nproc schedule res0).shared.res ∧
      (rho_region g h p nproc schedule res0).shared.res < q ∧
      mpz_powm g (rho_region g h p nproc schedule res0).shared.res p = h := by
  haveI : Fact p.Prime := ⟨hp⟩
  obtain ⟨k, hk⟩ := hsub
  have ho : orderOf (g : ZMod p) = q := (hasOrder_iff_orderOf p hp g q hq.pos).mp hord
  have hG : (g : ZMod p) ≠ 0 := by
    rw [Ne, ZMod.intCast_zmod_eq_zero_iff_dvd]
    exact not_dvd_of_mem_range p g hg.1 hg.2
  have hkz : (h : ZMod p) = (g : ZMod p) ^ k := by
    rw [hk, ZMod.intCast_mod, Int.cast_pow]
  obtain ⟨h0, h1, hm⟩ :=
    (rho_region_sound p q hp hq hpq g h hG k hkz (ho ▸ dvd_refl _) nproc schedule res0).1.2 hdone
  exact ⟨h0, h1, powm_of_residue p q hp g h hh k hk ho _ h0 hm⟩

theorem rho_parallel_publishes_correct_witness :
    (rho_region 2 3 ((23 : Nat) : Int) 2 [(0, 0, 3), (1, 1, 1), (0, 0, 0), (1, 0, 0)] 0).shared =
        { array := [{ x := 12, a := 0, b := 4 }], res := 8, done := true, writes := 1 } ∧
      (0 ≤ (rho_region 2 3 ((23 : Nat) : Int) 2
          [(0, 0, 3), (1, 1, 1), (0, 0, 0), (1, 0, 0)] 0).shared.res ∧
        (rho_region 2 3 ((23 : Nat) : Int) 2
          [(0, 0, 3), (1, 1, 1), (0, 0, 0), (1, 0, 0)] 0).shared.res < ((11 : Nat) : Int) ∧
        mpz_powm 2 (rho_region 2 3 ((23 : Nat) : Int) 2
          [(0, 0, 3), (1, 1, 1), (0, 0, 0), (1, 0, 0)] 0).shared.res ((23 : Nat) : Int) = 3) :=
  ⟨by decide,
    rho_parallel_publishes_correct 23 11 (by norm_num) (by norm_num) (by norm_num) 2 3
      (by decide) (by decide) (by unfold HasOrder; decide) ⟨8, by decide⟩ 2
      [(0, 0, 3), (1, 1, 1), (0, 0, 0), (1, 0, 0)] 0 (by decide)⟩

/-- C17: in the lambda routine a critical section that finds `finish` set changes
no shared variable.  In the parallel rho routine the critical section does not
look at `done`: with `g = 2`, `h = 3`, `p = 23` and three workers that have
sampled `(0, 3)`, `(1, 1)` and `(3, 3)` and walked to the position `12`, the
first critical section inserts its triple, the second sets `done` and writes
`res`, and the third writes `res` again. -/
theorem rho_result_written_twice :
    (∀ (P : LambdaParams) (set : List Pollard_triple) (res : Int) (t : Pollard_triple),
      lambda_critical P { set := set, res := res, finish := true } t =
        { set := set, res := res, finish := true }) ∧
    (rho_region 2 3 23 3
        [(0, 0, 3), (1, 1, 1), (2, 3, 3), (0, 0, 0), (1, 0, 0)] 0).shared =
      { array := [{ x := 12, a := 0, b := 4 }], res := 8, done := true, writes := 1 } ∧
    (rho_region 2 3 23 3
        [(0, 0, 3), (1, 1, 1), (2, 3, 3), (0, 0, 0), (1, 0, 0)] 0).workers =
      [none, none, some { x := 12, a := 6, b := 6 }] ∧
    (rho_region 2 3 23 3
        [(0, 0, 3), (1, 1, 1), (2, 3, 3), (0, 0, 0), (1, 0, 0), (2, 0, 0)] 0).shared =
      { array := [{ x := 12, a := 0, b := 4 }], res := 8, done := true, writes := 2 } := by
  refine ⟨fun P set res t => ?_, by decide, by decide, by decide⟩
  exact lambda_critical_finished P _ t rfl

/-- C18: for `p = 7` and the pairs `(2, 4)`, `(3, 1)` read from the command line,
`main` accumulates `(2^4 mod 7) * (3^1 mod 7) = 2 * 3 = 6 = p - 1` and goes on to
the call of `pohling_discrete_log`, although the product `2^4 * 3^1 = 48` is not
`p - 1`. -/
theorem main_accepts_wrong_factors :
    main_prod 7 [2, 3] [4, 1] 2 = 6 ∧ main_dispatches 7 [2, 3] [4, 1] 2 = true ∧
      ord_product [2, 3] [4, 1] 2 = 48 ∧ ord_product [2, 3] [4, 1] 2 ≠ 7 - 1 := by
  decide

/-- C19: with at least one jump size (`r > 0`), every entry `dists[index]` with
`index < r` is `2 ^ index ≥ 1`, and a jump of a worker, from any state and for any
hash function, leaves a distance strictly greater than the distance before. -/
theorem lambda_distance_increases (hash : Int → Nat) (g p : Int) (nproc : Nat)
    (hr : 0 < (lambda_params g p nproc).r) :
    (∀ index : Nat, index < (lambda_params g p nproc).r →
      (lambda_params g p nproc).dists.getD index 0 = 2 ^ index ∧
        1 ≤ (lambda_params g p nproc).dists.getD index 0) ∧
    ∀ k : Kangaroo, k.dist < (kangaroo_jump hash p (lambda_params g p nproc) k).dist := by
  have h1 : ∀ index : Nat, index < (lambda_params g p nproc).r →
      (lambda_params g p nproc).dists.getD index 0 = 2 ^ index ∧
        1 ≤ (lambda_params g p nproc).dists.getD index 0 := by
    intro index hi
    have e := (lambda_params_tables g p nproc index hi).1
    refine ⟨e, ?_⟩
    rw [e]
    exact one_le_pow₀ (by norm_num)
  refine ⟨h1, fun k => ?_⟩
  have h2 := (h1 (hash k.pos % (lambda_params g p nproc).r) (Nat.mod_lt _ hr)).2
  simp only [kangaroo_jump]
  omega

theorem lambda_distance_increases_witness :
    0 < (lambda_params 2 13 3).r ∧
      ((∀ index : Nat, index < (lambda_params 2 13 3).r →
        (lambda_params 2 13 3).dists.getD index 0 = 2 ^ index ∧
          1 ≤ (lambda_params 2 13 3).dists.getD index 0) ∧
      ∀ k : Kangaroo,
        k.dist < (kangaroo_jump (fun pos => pos.natAbs) 13 (lambda_params 2 13 3) k).dist) :=
  ⟨by decide, lambda_distance_increases (fun pos => pos.natAbs) 2 13 3 (by decide)⟩

/-! ## Claims on the start of the sequential rho routine -/

/-- C20 (as amended): both the tortoise and the rabbit of
`pollard_rho_dicsrete_log` start in the state `x = g * h` (the product, not reduced
modulo `p`), `a = 1`, `b = 1`; the loop runs from this state, and the first step
chooses its subset from `(g * h) mod 3`. -/
theorem rho_initial_state (g h p : Int) :
    (rho_start g h).tortoise = { x := g * h, a := 1, b := 1 } ∧
      (rho_start g h).rabbit = { x := g * h, a := 1, b := 1 } ∧
      rho_walk g h p = rho_loop g h p (mpz_div (p - 1) 2) (p - 1).toNat (rho_start g h) ∧
      ∀ q : Int, single_step (rho_start g h).tortoise g h p q =
        { x := f_f (g * h % 3) (g * h) g h p, a := g_f (g * h % 3) 1 q,
          b := h_f (g * h % 3) 1 q } :=
  ⟨rfl, rfl, rfl, fun _ => rfl⟩

/-- C20 (counterexample): for `g = 2`, `h = 5`, `p = 7` the walkers start at
`x = 10`, not at `10 mod 7 = 3`, and the first step takes the subset
`10 mod 3 = 1` (multiply by `h`), not `3 mod 3 = 0` (multiply by `g`). -/
theorem rho_initial_state_not_reduced :
    (rho_start 2 5).tortoise.x = 10 ∧ (rho_start 2 5).rabbit.x = 10 ∧
      (rho_start 2 5).tortoise.x ≠ 2 * 5 % 7 ∧
      (rho_start 2 5).tortoise.x % 3 = 1 ∧ (2 * 5 % 7 : Int) % 3 = 0 ∧
      single_step (rho_start 2 5).tortoise 2 5 7 3 = { x := 1, a := 1, b := 2 } ∧
      single_step { x := 2 * 5 % 7, a := 1, b := 1 } 2 5 7 3 = { x := 6, a := 2, b := 1 } := by
  decide

/-! ## Claims on the walk of the rho routines -/

/-- C21: for `p > 1`, `q ≥ 1` and `g`, `h` with `g ^ q ≡ 1` and `h ^ q ≡ 1 (mod p)`,
`single_step` preserves the relation `x ≡ g ^ a * h ^ b (mod p)`; the step is
`(x * g mod p, a + 1 mod q, b)` for `x mod 3 = 0`, `(x * h mod p, a, b + 1 mod q)`
for `x mod 3 = 1` and `(x * x mod p, 2 a mod q, 2 b mod q)` for `x mod 3 = 2`. -/
theorem single_step_preserves_relation (p q g h : Int) (hp : 1 < p) (hq : 1 ≤ q)
    (hgq : g ^ q.toNat ≡ 1 [ZMOD p]) (hhq : h ^ q.toNat ≡ 1 [ZMOD p]) (w : Walker)
    (hw : w.relation p g h) :
    (single_step w g h p q).relation p g h ∧
      (w.x % 3 = 0 → single_step w g h p q =
        { x := w.x * g % p, a := (w.a + 1) % q, b := w.b }) ∧
      (w.x % 3 = 1 → single_step w g h p q =
        { x := w.x * h % p, a := w.a, b := (w.b + 1) % q }) ∧
      (w.x % 3 = 2 → single_step w g h p q =
        { x := w.x * w.x % p, a := w.a * 2 % q, b := w.b * 2 % q }) := by
  refine ⟨single_step_relation p q g h hq hgq hhq w hw, fun h3 => ?_, fun h3 => ?_, fun h3 => ?_⟩
  · simp [single_step, f_f, g_f, h_f, h3, mpz_mod]
  · simp [single_step, f_f, g_f, h_f, h3, mpz_mod]
  · simp [single_step, f_f, g_f, h_f, h3, mpz_mod]

theorem single_step_preserves_relation_witness :
    Walker.relation 23 2 3 { x := 12, a := 2, b := 1 } ∧
      (Walker.relation 23 2 3 (single_step { x := 12, a := 2, b := 1 } 2 3 23 11) ∧
      (((12 : Int) % 3 = 0 → single_step { x := 12, a := 2, b := 1 } 2 3 23 11 =
        { x := 12 * 2 % 23, a := (2 + 1) % 11, b := 1 }) ∧
      ((12 : Int) % 3 = 1 → single_step { x := 12, a := 2, b := 1 } 2 3 23 11 =
        { x := 12 * 3 % 23, a := 2, b := (1 + 1) % 11 }) ∧
      ((12 : Int) % 3 = 2 → single_step { x := 12, a := 2, b := 1 } 2 3 23 11 =
        { x := 12 * 12 % 23, a := 2 * 2 % 11, b := 1 * 2 % 11 }))) :=
  ⟨by unfold Walker.relation; decide,
    single_step_preserves_relation 23 11 2 3 (by decide) (by decide) (by decide) (by decide)
      { x := 12, a := 2, b := 1 } (by unfold Walker.relation; decide)⟩

/-- C22 (as amended): for a prime `p ≥ 3` and `g`, `h` in `[1, p - 1]` no step of
the loop of `pollard_rho_dicsrete_log` divides by zero, and the loop ends by its
collision test: there is an `i` with `1 ≤ i < p` such that the loop ends after
`i` iterations, with the tortoise `i` steps and the rabbit `2 i` steps from the
start, at equal positions, and no earlier iteration ends at equal positions. -/
theorem rho_loop_ends_by_collision (p : Nat) (hp : p.Prime) (hp3 : 3 ≤ p) (g h : Int)
    (hg : 1 ≤ g ∧ g ≤ p - 1) (hh : 1 ≤ h ∧ h ≤ p - 1) :
    rho_walk_checked g h p = some (rho_walk g h p) ∧
    ∃ i : Nat, 1 ≤ i ∧ i < p ∧
      rho_walk g h p = (rho_body g h p (mpz_div (p - 1) 2))^[i] (rho_start g h) ∧
      (rho_walk g h p).tortoise =
        (fun v => single_step v g h p (mpz_div (p - 1) 2))^[i] (rho_start g h).tortoise ∧
      (rho_walk g h p).rabbit =
        (fun v => single_step v g h p (mpz_div (p - 1) 2))^[2 * i] (rho_start g h).rabbit ∧
      (rho_walk g h p).rabbit.x = (rho_walk g h p).tortoise.x ∧
      ∀ j : Nat, 1 ≤ j → j < i →
        ((rho_body g h p (mpz_div (p - 1) 2))^[j] (rho_start g h)).rabbit.x ≠
          ((rho_body g h p (mpz_div (p - 1) 2))^[j] (rho_start g h)).tortoise.x := by
  have hex := rho_collision_exists p hp g h ⟨hg.1, by omega⟩ ⟨hh.1, by omega⟩
    (mpz_div (p - 1) 2)
  obtain ⟨i, i1, i2, i3, i4, i5⟩ :=
    rho_loop_first_collision g h p (mpz_div (p - 1) 2) ((p : Int) - 1).toNat (rho_start g h) hex
  have hw : rho_walk g h p = (rho_body g h p (mpz_div (p - 1) 2))^[i] (rho_start g h) := i3
  have hpos : 0 < p := hp.pos
  refine ⟨rho_walk_checked_eq g h p (by exact_mod_cast hp3), i, i1, by omega, hw, ?_, ?_, ?_, i5⟩
  · rw [hw, rho_body_iterate]
  · rw [hw, rho_body_iterate]
  · rw [hw]; exact i4

theorem rho_loop_ends_by_collision_witness :
    rho_walk_checked 2 5 ((23 : Nat) : Int) = some (rho_walk 2 5 ((23 : Nat) : Int)) ∧
    ∃ i : Nat, 1 ≤ i ∧ i < 23 ∧
      rho_walk 2 5 ((23 : Nat) : Int) =
        (rho_body 2 5 ((23 : Nat) : Int) (mpz_div (((23 : Nat) : Int) - 1) 2))^[i]
          (rho_start 2 5) ∧
      (rho_walk 2 5 ((23 : Nat) : Int)).tortoise =
        (fun v => single_step v 2 5 ((23 : Nat) : Int) (mpz_div (((23 : Nat) : Int) - 1) 2))^[i]
          (rho_start 2 5).tortoise ∧
      (rho_walk 2 5 ((23 : Nat) : Int)).rabbit =
        (fun v => single_step v 2 5 ((23 : Nat) : Int)
          (mpz_div (((23 : Nat) : Int) - 1) 2))^[2 * i] (rho_start 2 5).rabbit ∧
      (rho_walk 2 5 ((23 : Nat) : Int)).rabbit.x = (rho_walk 2 5 ((23 : Nat) : Int)).tortoise.x ∧
      ∀ j : Nat, 1 ≤ j → j < i →
        ((rho_body 2 5 ((23 : Nat) : Int) (mpz_div (((23 : Nat) : Int) - 1) 2))^[j]
            (rho_start 2 5)).rabbit.x ≠
          ((rho_body 2 5 ((23 : Nat) : Int) (mpz_div (((23 : Nat) : Int) - 1) 2))^[j]
            (rho_start 2 5)).tortoise.x :=
  rho_loop_ends_by_collision 23 (by norm_num) (by norm_num) 2 5 (by decide) (by decide)

/-- C22 (counterexample): for the prime `p = 2` and `g = h = 1`, the only values
in `[1, p - 1]`, `q = (p - 1) / 2 = 0`; both walkers start at `x = 1`, and the
first step of the tortoise takes `subgrp = 1`, where `h_f` computes
`mpz_mod (b, b, q)` with `q = 0`: the program stops with a division by zero in
the first iteration, and the loop is not left through the collision test. -/
theorem rho_loop_divides_by_zero :
    Nat.Prime 2 ∧ ((1 : Int) ≤ 1 ∧ (1 : Int) ≤ 2 - 1) ∧
    mpz_div (2 - 1) 2 = 0 ∧
    (rho_start 1 1).tortoise = { x := 1, a := 1, b := 1 } ∧
    f_f_checked (1 % 3) 1 1 1 2 = some 1 ∧
    g_f_checked (1 % 3) 1 0 = some 1 ∧
    h_f_checked (1 % 3) 1 0 = none ∧
    single_step_checked (rho_start 1 1).tortoise 1 1 2 (mpz_div (2 - 1) 2) = none ∧
    rho_walk_checked 1 1 2 = none := by
  refine ⟨by norm_num, by decide, by decide, by decide, by decide, by decide, by decide,
    by decide, by decide⟩

/-- C23 (as amended): for a safe prime `p = 2 q + 1` and every sampled pair of
exponents, the triple `(x, a, b)` at the end of a walk of
`pollard_rho_parallel_dicsrete_log` has `x` in `[0, p)`, and each of `a`, `b` is in
`[0, q)` or is still the sampled exponent, which is in `[0, 2 ^ 16)`; so `a` and
`b` are in `[0, q)` when `q ≥ 2 ^ 16`. -/
theorem rho_triple_range (p q : Nat) (hp : p.Prime) (hq : q.Prime) (hpq : p = 2 * q + 1)
    (g h draw_a draw_b : Int) :
    (0 ≤ (rho_parallel_walk g h p draw_a draw_b).x ∧
      (rho_parallel_walk g h p draw_a draw_b).x < p) ∧
    ((0 ≤ (rho_parallel_walk g h p draw_a draw_b).a ∧
        (rho_parallel_walk g h p draw_a draw_b).a < q) ∨
      ((rho_parallel_walk g h p draw_a draw_b).a = mpz_urandomb draw_a POLLARD_RAND_MAX ∧
        0 ≤ (rho_parallel_walk g h p draw_a draw_b).a ∧
        (rho_parallel_walk g h p draw_a draw_b).a < 2 ^ 16)) ∧
    ((0 ≤ (rho_parallel_walk g h p draw_a draw_b).b ∧
        (rho_parallel_walk g h p draw_a draw_b).b < q) ∨
      ((rho_parallel_walk g h p draw_a draw_b).b = mpz_urandomb draw_b POLLARD_RAND_MAX ∧
        0 ≤ (rho_parallel_walk g h p draw_a draw_b).b ∧
        (rho_parallel_walk g h p draw_a draw_b).b < 2 ^ 16)) ∧
    (2 ^ 16 ≤ q →
      (0 ≤ (rho_parallel_walk g h p draw_a draw_b).a ∧
        (rho_parallel_walk g h p draw_a draw_b).a < q) ∧
      (0 ≤ (rho_parallel_walk g h p draw_a draw_b).b ∧
        (rho_parallel_walk g h p draw_a draw_b).b < q)) := by
  have hp0 : (0 : Int) < p := by exact_mod_cast hp.pos
  have hq0 : (0 : Int) < q := by exact_mod_cast hq.pos
  have hfuel : 0 < ((p : Int) - 1).toNat := by
    have : (2 : Int) ≤ p := by exact_mod_cast hp.two_le
    omega
  have ha0 := mpz_urandomb_nonneg draw_a POLLARD_RAND_MAX
  have hb0 := mpz_urandomb_nonneg draw_b POLLARD_RAND_MAX
  have ha1 : mpz_urandomb draw_a POLLARD_RAND_MAX < 2 ^ 16 := mpz_urandomb_lt draw_a 16
  have hb1 : mpz_urandomb draw_b POLLARD_RAND_MAX < 2 ^ 16 := mpz_urandomb_lt draw_b 16
  have hdiv : mpz_div ((p : Int) - 1) 2 = q := by rw [hpq]; exact mpz_div_two q
  obtain ⟨hx, ha, hb⟩ := rho_parallel_walk_loop_range g h p q hp0 hq0
    (mpz_urandomb draw_a POLLARD_RAND_MAX) (mpz_urandomb draw_b POLLARD_RAND_MAX)
    ((p : Int) - 1).toNat
    { x := mpz_powm g (mpz_urandomb draw_a POLLARD_RAND_MAX) p *
        mpz_powm h (mpz_urandomb draw_b POLLARD_RAND_MAX) p,
      a := mpz_urandomb draw_a POLLARD_RAND_MAX, b := mpz_urandomb draw_b POLLARD_RAND_MAX }
    hfuel (Or.inr rfl) (Or.inr rfl)
  have hw : rho_parallel_walk g h p draw_a draw_b =
      rho_parallel_walk_loop g h p q ((p : Int) - 1).toNat
        { x := mpz_powm g (mpz_urandomb draw_a POLLARD_RAND_MAX) p *
            mpz_powm h (mpz_urandomb draw_b POLLARD_RAND_MAX) p,
          a := mpz_urandomb draw_a POLLARD_RAND_MAX,
          b := mpz_urandomb draw_b POLLARD_RAND_MAX } := by
    simp only [rho_parallel_walk, hdiv]
  rw [hw]
  refine ⟨hx, ?_, ?_, fun h16 => ?_⟩
  · rcases ha with h1 | h1
    · exact Or.inl h1
    · exact Or.inr ⟨h1, by rw [h1]; exact ha0, by rw [h1]; exact ha1⟩
  · rcases hb with h1 | h1
    · exact Or.inl h1
    · exact Or.inr ⟨h1, by rw [h1]; exact hb0, by rw [h1]; exact hb1⟩
  · have h16z : (2 : Int) ^ 16 ≤ q := by exact_mod_cast h16
    constructor
    · rcases ha with h1 | h1
      · exact h1
      · rw [h1]; exact ⟨ha0, by omega⟩
    · rcases hb with h1 | h1
      · exact h1
      · rw [h1]; exact ⟨hb0, by omega⟩

theorem rho_triple_range_witness :
    rho_parallel_walk 2 3 ((23 : Nat) : Int) 0 3 = { x := 12, a := 0, b := 4 } ∧
    ((0 ≤ (rho_parallel_walk 2 3 ((23 : Nat) : Int) 0 3).x ∧
      (rho_parallel_walk 2 3 ((23 : Nat) : Int) 0 3).x < ((23 : Nat) : Int)) ∧
    ((0 ≤ (rho_parallel_walk 2 3 ((23 : Nat) : Int) 0 3).a ∧
        (rho_parallel_walk 2 3 ((23 : Nat) : Int) 0 3).a < ((11 : Nat) : Int)) ∨
      ((rho_parallel_walk 2 3 ((23 : Nat) : Int) 0 3).a = mpz_urandomb 0 POLLARD_RAND_MAX ∧
        0 ≤ (rho_parallel_walk 2 3 ((23 : Nat) : Int) 0 3).a ∧
        (rho_parallel_walk 2 3 ((23 : Nat) : Int) 0 3).a < 2 ^ 16)) ∧
    ((0 ≤ (rho_parallel_walk 2 3 ((23 : Nat) : Int) 0 3).b ∧
        (rho_parallel_walk 2 3 ((23 : Nat) : Int) 0 3).b < ((11 : Nat) : Int)) ∨
      ((rho_parallel_walk 2 3 ((23 : Nat) : Int) 0 3).b = mpz_urandomb 3 POLLARD_RAND_MAX ∧
        0 ≤ (rho_parallel_walk 2 3 ((23 : Nat) : Int) 0 3).b ∧
        (rho_parallel_walk 2 3 ((23 : Nat) : Int) 0 3).b < 2 ^ 16)) ∧
    (2 ^ 16 ≤ 11 →
      (0 ≤ (rho_parallel_walk 2 3 ((23 : Nat) : Int) 0 3).a ∧
        (rho_parallel_walk 2 3 ((23 : Nat) : Int) 0 3).a < ((11 : Nat) : Int)) ∧
      (0 ≤ (rho_parallel_walk 2 3 ((23 : Nat) : Int) 0 3).b ∧
        (rho_parallel_walk 2 3 ((23 : Nat) : Int) 0 3).b < ((11 : Nat) : Int)))) :=
  ⟨by decide, rho_triple_range 23 11 (by norm_num) (by norm_num) (by norm_num) 2 3 0 3⟩

/-- C23 (counterexample): for `p = 23 = 2 * 11 + 1`, `g = 2`, `h = 3` and the
sampled exponents `a = 0`, `b = 12`, the walk starts at `x = 1 * 3 = 3`, takes one
step of the first kind (`3 mod 3 = 0`) and ends with the triple `(6, 1, 12)`:
`b = 12` is not in `[0, 11)`. -/
theorem rho_triple_out_of_range :
    rho_parallel_walk 2 3 23 0 12 = { x := 6, a := 1, b := 12 } ∧
      ¬ ((rho_parallel_walk 2 3 23 0 12).b < 11) := by
  decide

/-! ## Claims on the set-up and the workers of the lambda routine -/

/-- C24: `calculate_max_jumps (1)` returns `0`: the loop stops at `r = 1`, where
`(2^1 - 1) / 1 = 1` is not below `beta = 1`.  The quotient `(2^R - 1) / R` is
above `1` first at `R = 3` (`1, 1, 2` in integers; at `R = 2` as a fraction,
`1, 3/2`), so the smallest such `R` minus one is `2` (or `1`), not `0`. -/
theorem calculate_max_jumps_at_one :
    calculate_max_jumps 1 = 0 ∧
      (mpz_div (2 ^ 1 - 1) 1 = 1 ∧ mpz_div (2 ^ 2 - 1) 2 = 1 ∧ mpz_div (2 ^ 3 - 1) 3 = 2) ∧
      (¬ (((2 : ℚ) ^ 1 - 1) / 1 > 1) ∧ ((2 : ℚ) ^ 2 - 1) / 2 > 1) ∧
      (lambda_params 2 13 2).beta = 1 ∧ (lambda_params 2 13 2).r = 0 := by
  refine ⟨by decide, by decide, ⟨by norm_num, by norm_num⟩, by decide, by decide⟩

/-- C25 (as amended): worker `k` of the lambda routine starts with the distance
`floor ((k + 2) / 2) * v`, and it is `TAME` when `k` is even and `WILD` when `k`
is odd. -/
theorem kangaroo_initial_distance (g h p : Int) (P : LambdaParams) (k : Nat) :
    (kangaroo_start g h p P k).dist = (((k + 2) / 2 : Nat) : Int) * P.v ∧
      (k % 2 = 0 → (kangaroo_start g h p P k).type = kangaroo_t.KANGAROO_TAME) ∧
      (k % 2 = 1 → (kangaroo_start g h p P k).type = kangaroo_t.KANGAROO_WILD) := by
  refine ⟨?_, fun h0 => ?_, fun h1 => ?_⟩
  · simp only [kangaroo_start, Nat.shiftRight_eq_div_pow, pow_one]
  · have : ODD k = false := by simp [ODD, h0]
    simp [kangaroo_start, this]
  · have : ODD k = true := by simp [ODD, h1]
    simp [kangaroo_start, this]

/-- C25 (counterexample): for `p = 13`, `g = 2` and three threads the stride is
`v = 2`, and worker `1` starts with the distance `1 * 2 = 2`, while
`ceil ((1 + 2) / 2) * v = 2 * 2 = 4`. -/
theorem kangaroo_initial_distance_not_ceil :
    (lambda_params 2 13 3).v = 2 ∧
      (kangaroo_start 2 9 13 (lambda_params 2 13 3) 1).dist = 2 ∧
      Int.ceil (((1 : ℚ) + 2) / 2) * (lambda_params 2 13 3).v = 4 ∧
      (kangaroo_start 2 9 13 (lambda_params 2 13 3) 1).dist ≠
        Int.ceil (((1 : ℚ) + 2) / 2) * (lambda_params 2 13 3).v := by
  have hc : Int.ceil (((1 : ℚ) + 2) / 2) = 2 := by
    rw [Int.ceil_eq_iff]
    constructor <;> norm_num
  have hv : (lambda_params 2 13 3).v = 2 := by decide
  have hd : (kangaroo_start 2 9 13 (lambda_params 2 13 3) 1).dist = 2 := by decide
  refine ⟨hv, hd, ?_, ?_⟩
  · rw [hc, hv]; rfl
  · rw [hc, hv, hd]; decide

/-- C26: for `p > 1`, any `g`, `h` and the interval `[a, b] = [0, p - 1]` (with at
least one jump size, so that the jump index is defined): every worker starts with
`pos ≡ g ^ ((a + b) / 2 + dist)` (tame) or `pos ≡ h * g ^ dist` (wild) modulo `p`,
the tables are `dists[i] = 2 ^ i` and `jumps[i] = g ^ (2 ^ i) mod p`, every jump
preserves the relation, and so it holds for every triple of the set in every
execution. -/
theorem kangaroo_invariant (hash : Int → Nat) (p : Nat) (hp : 1 < p) (g h : Int) (nproc : Nat)
    (hr : 0 < (lambda_params g p nproc).r) :
    ((lambda_params g p nproc).a = 0 ∧ (lambda_params g p nproc).b = p - 1) ∧
    (∀ i : Nat, i < (lambda_params g p nproc).r →
      (lambda_params g p nproc).dists.getD i 0 = 2 ^ i ∧
        (lambda_params g p nproc).jumps.getD i 0 = mpz_powm g (2 ^ i) p) ∧
    (∀ tid : Nat, (kangaroo_start g h p (lambda_params g p nproc) tid).triple.tracks p g h
      (mpz_div ((lambda_params g p nproc).a + (lambda_params g p nproc).b) 2)) ∧
    (∀ k : Kangaroo,
      k.triple.tracks p g h
        (mpz_div ((lambda_params g p nproc).a + (lambda_params g p nproc).b) 2) →
      (kangaroo_jump hash p (lambda_params g p nproc) k).triple.tracks p g h
        (mpz_div ((lambda_params g p nproc).a + (lambda_params g p nproc).b) 2)) ∧
    (∀ (schedule : List Nat) (res : Int),
      ∀ t ∈ (lambda_region hash g h p nproc schedule res).shared.set, t.tracks p g h
        (mpz_div ((lambda_params g p nproc).a + (lambda_params g p nproc).b) 2)) := by
  have hp1 : 1 ≤ p := by omega
  refine ⟨⟨rfl, rfl⟩, fun i hi => lambda_params_tables g p nproc i hi,
    fun tid => kangaroo_start_tracks g h p nproc tid hp1, fun k hk => ?_, fun schedule res => ?_⟩
  · exact kangaroo_jump_tracks hash g h _ p nproc hr (lambda_params_mid g p nproc hp1) k hk
  · exact (lambda_region_tracked hash p hp1 g h nproc hr schedule res).1

theorem kangaroo_invariant_witness :
    0 < (lambda_params 2 ((13 : Nat) : Int) 3).r ∧
    (((lambda_params 2 ((13 : Nat) : Int) 3).a = 0 ∧
      (lambda_params 2 ((13 : Nat) : Int) 3).b = ((13 : Nat) : Int) - 1) ∧
    (∀ i : Nat, i < (lambda_params 2 ((13 : Nat) : Int) 3).r →
      (lambda_params 2 ((13 : Nat) : Int) 3).dists.getD i 0 = 2 ^ i ∧
        (lambda_params 2 ((13 : Nat) : Int) 3).jumps.getD i 0 =
          mpz_powm 2 (2 ^ i) ((13 : Nat) : Int)) ∧
    (∀ tid : Nat, (kangaroo_start 2 9 ((13 : Nat) : Int)
        (lambda_params 2 ((13 : Nat) : Int) 3) tid).triple.tracks 13 2 9
      (mpz_div ((lambda_params 2 ((13 : Nat) : Int) 3).a +
        (lambda_params 2 ((13 : Nat) : Int) 3).b) 2)) ∧
    (∀ k : Kangaroo,
      k.triple.tracks 13 2 9
        (mpz_div ((lambda_params 2 ((13 : Nat) : Int) 3).a +
          (lambda_params 2 ((13 : Nat) : Int) 3).b) 2) →
      (kangaroo_jump (fun pos => pos.natAbs) ((13 : Nat) : Int)
          (lambda_params 2 ((13 : Nat) : Int) 3) k).triple.tracks 13 2 9
        (mpz_div ((lambda_params 2 ((13 : Nat) : Int) 3).a +
          (lambda_params 2 ((13 : Nat) : Int) 3).b) 2)) ∧
    (∀ (schedule : List Nat) (res : Int),
      ∀ t ∈ (lambda_region (fun pos => pos.natAbs) 2 9 ((13 : Nat) : Int) 3 schedule
          res).shared.set,
        t.tracks 13 2 9
          (mpz_div ((lambda_params 2 ((13 : Nat) : Int) 3).a +
            (lambda_params 2 ((13 : Nat) : Int) 3).b) 2))) :=
  ⟨by decide, kangaroo_invariant (fun pos => pos.natAbs) 13 (by decide) 2 9 3 (by decide)⟩

/-! ## Claims on the parts of `pohling_discrete_log` -/

/-- C27: on the arrays `f = [2, 3]`, `e = [1, 0]` of length `2`, which
`calculate_ord` leaves for `p = 7`, `g = 6`, the loop `while (e[i] == 0)` of
`delete_zeros` at `i = 1` first moves `0` entries and sets `len = 1`, then finds
`e[1]` still `0` and calls `memmove` with the size `len - i - 1` wrapped around:
undefined behaviour, no value is returned.  With the zero in front,
`e = [0, 1]`, the routine returns `1` and leaves `(3, 1)` at position `0`. -/
theorem delete_zeros_trailing_zero :
    calculate_ord 6 7 [2, 3] [1, 1] 2 (7 - 1) = ([1, 0], 2) ∧
      delete_zeros [2, 3] [1, 0] 2 = none ∧
      delete_zeros_while 1 3 [2, 3] [1, 0] 2 = none ∧
      delete_zeros [2, 3] [0, 1] 2 = some ([3, 3], [1, 1], 1) := by
  decide

/-- C28 (as amended): for a prime `p`, `g ≢ 0, 1 (mod p)`, any `h` and a correct
factor list of `p - 1`: `pohling_discrete_log` gets past order refinement and
compaction exactly when `calculate_ord` leaves a non-zero exponent for the last
factor (with the exponent `0` there it runs into undefined behaviour in
`delete_zeros` and returns nothing).  When it gets past them, it returns, and it
has replaced `g` by `g ^ Q mod p` and `h` by `h ^ Q mod p`, with
`Q = f_last ^ e_last` of the compacted list, if and only if `Q ≠ ord (g)`; when
`Q = ord (g)` it has left `g` and `h` unchanged.  (Every `mpz_t` has fewer than
`2 ^ 64` bits.) -/
theorem pohling_projection_condition (search : Nat → Nat → Int → Int → Option Int) (p : Nat)
    (hp : p.Prime) (hbits : Nat.log2 p < 2 ^ 64) (g h : Int)
    (hg0 : ¬ (p : Int) ∣ g) (hg1 : ¬ (p : Int) ∣ g - 1)
    (factors exponents : List Int) (len : Nat)
    (hfl : factors.length = len) (hel : exponents.length = len)
    (hprime : ∀ i, i < len → ∃ q : Nat, q.Prime ∧ factors.getD i 0 = q)
    (hdist : ∀ i, i < len → ∀ j, j < len → i ≠ j → factors.getD i 0 ≠ factors.getD j 0)
    (hexp : ∀ i, i < len → 1 ≤ exponents.getD i 0)
    (hprod : ord_product factors exponents len = p - 1) (x0 : Int) :
    ((calculate_ord g p factors exponents len (p - 1)).1.getD (len - 1) 0 = 0 →
      pohling_discrete_log search g h p factors exponents len x0 = none) ∧
    ((calculate_ord g p factors exponents len (p - 1)).1.getD (len - 1) 0 ≠ 0 →
      ∃ (r : PohlingResult) (n Q : Nat) (f1 e1 : List Int) (len1 : Nat),
        pohling_discrete_log search g h p factors exponents len x0 = some r ∧
        delete_zeros factors (calculate_ord g p factors exponents len (p - 1)).1 len =
          some (f1, e1, len1) ∧
        HasOrder g n p ∧
        (Q : Int) = f1.getD (len1 - 1) 0 ^ (e1.getD (len1 - 1) 0).toNat ∧
        (Q ≠ n → r.g = mpz_powm g Q p ∧ r.h = mpz_powm h Q p) ∧
        (Q = n → r.g = g ∧ r.h = h)) := by
  have hlen : 0 < len := by
    rcases Nat.eq_zero_or_pos len with h0 | h0
    · exfalso
      rw [h0] at hprod
      have hp2 : (p : Int) = 2 := by
        simp only [ord_product] at hprod
        omega
      rw [hp2] at hg0 hg1
      omega
    · exact h0
  refine ⟨fun hlast => ?_, fun hlast => ?_⟩
  · exact pohling_dies search p hp hbits g h hg0 factors exponents len hlen hel hprime hexp
      hprod x0 hlast
  · obtain ⟨r, hr⟩ := pohling_returns search p hp hbits g h hg0 factors exponents len hlen hfl
      hel hprime hexp hprod x0 hlast
    obtain ⟨n, Q, f1, e1, len1, h1, h2, h3, h4, h5⟩ :=
      pohling_projection search p hp hbits g h hg0 hg1 factors exponents len hfl hel hprime
        hdist hexp hprod x0 r hr
    exact ⟨r, n, Q, f1, e1, len1, hr, h1, h2, h3, h4, h5⟩

set_option maxRecDepth 100000 in
theorem pohling_projection_condition_witness :
    ((calculate_ord 71 ((251 : Nat) : Int) [5, 2] [3, 1] 2 (((251 : Nat) : Int) - 1)).1.getD
        (2 - 1) 0 ≠ 0 ∧
      pohling_discrete_log (fun _ _ G H => least_log G H ((251 : Nat) : Int) (251 - 1) 0) 71 210
        ((251 : Nat) : Int) [5, 2] [3, 1] 2 0 =
          some { ret := 0, x := 197, g := 21, h := 175 }) ∧
    (((calculate_ord 71 ((251 : Nat) : Int) [5, 2] [3, 1] 2 (((251 : Nat) : Int) - 1)).1.getD
        (2 - 1) 0 = 0 →
      pohling_discrete_log (fun _ _ G H => least_log G H ((251 : Nat) : Int) (251 - 1) 0) 71 210
        ((251 : Nat) : Int) [5, 2] [3, 1] 2 0 = none) ∧
    ((calculate_ord 71 ((251 : Nat) : Int) [5, 2] [3, 1] 2 (((251 : Nat) : Int) - 1)).1.getD
        (2 - 1) 0 ≠ 0 →
      ∃ (r : PohlingResult) (n Q : Nat) (f1 e1 : List Int) (len1 : Nat),
        pohling_discrete_log (fun _ _ G H => least_log G H ((251 : Nat) : Int) (251 - 1) 0) 71
          210 ((251 : Nat) : Int) [5, 2] [3, 1] 2 0 = some r ∧
        delete_zeros [5, 2]
            (calculate_ord 71 ((251 : Nat) : Int) [5, 2] [3, 1] 2
              (((251 : Nat) : Int) - 1)).1 2 =
          some (f1, e1, len1) ∧
        HasOrder 71 n ((251 : Nat) : Int) ∧
        (Q : Int) = f1.getD (len1 - 1) 0 ^ (e1.getD (len1 - 1) 0).toNat ∧
        (Q ≠ n → r.g = mpz_powm 71 Q ((251 : Nat) : Int) ∧
          r.h = mpz_powm 210 Q ((251 : Nat) : Int)) ∧
        (Q = n → r.g = 71 ∧ r.h = 210))) :=
  ⟨⟨by decide, by decide⟩,
    pohling_projection_condition (fun _ _ G H => least_log G H ((251 : Nat) : Int) (251 - 1) 0)
      251 (by norm_num)
      (lt_trans ((Nat.log2_lt (by norm_num)).mpr (by norm_num : 251 < 2 ^ 8)) (by norm_num))
      71 210 (by decide) (by decide) [5, 2] [3, 1] 2 rfl rfl
      (fun i hi => by
        interval_cases i
        · exact ⟨5, by norm_num, rfl⟩
        · exact ⟨2, by norm_num, rfl⟩)
      (by decide) (by decide) (by decide) 0⟩

set_option maxRecDepth 100000 in
/-- C28 (counterexample): for `p = 251` and `g = 71`, of order `250 = p - 1`, with
the factor list `{(2, 1), (5, 3)}` the routine replaces `g = 71` and `h = 210` by
their `125`-th powers, `250` and `250`. -/
theorem pohling_projects_full_order :
    HasOrder 71 250 ((251 : Nat) : Int) ∧
      pohling_discrete_log (fun _ _ _ _ => none) 71 210 251 [2, 5] [1, 3] 2 0 =
        some { ret := 0, x := 31, g := 250, h := 250 } ∧
      mpz_powm 71 (5 ^ 3) 251 = 250 ∧ mpz_powm 210 (5 ^ 3) 251 = 250 ∧ (250 : Int) ≠ 71 := by
  refine ⟨?_, by decide, by decide, by decide, by decide⟩
  exact hasOrder_of_calculate_ord 251 (by norm_num)
    (lt_trans ((Nat.log2_lt (by norm_num)).mpr (by norm_num : 251 < 2 ^ 8)) (by norm_num))
    71 (by decide) (by decide) [2, 5] [1, 3] 2 rfl
    (fun i hi => by
      interval_cases i
      · exact ⟨2, by norm_num, rfl⟩
      · exact ⟨5, by norm_num, rfl⟩)
    (by decide) (by decide) 250 (by decide)

/-- C29: for `p = 5`, `f = 2`, `e = 2`, `g = 2` (of order `4 = f ^ e`) and `h = 2`,
with a lambda solver that returns the logarithm `2` of `1` to the base `4` (a
correct logarithm in `[0, p - 1)`), `solve_discrete_subproblem` returns `0` with
`x = 1 + 2 * 2 = 5`, which is not in `[0, f ^ e) = [0, 4)`: the digit of the second
round is reduced modulo `f ^ 2`, not modulo `f`. -/
theorem solve_discrete_subproblem_out_of_range :
    HasOrder 2 4 5 ∧ (2 : Int) = 2 ^ 1 % 5 ∧
      (pollard_lambda_parallel_dicsrete_log (some 2) 4 1 5 0 = (0, 2) ∧ mpz_powm 4 2 5 = 1) ∧
      solve_discrete_subproblem (fun _ _ _ => some 2) 2 2 5 2 2 = (0, 5) ∧
      ¬ ((solve_discrete_subproblem (fun _ _ _ => some 2) 2 2 5 2 2).2 < 2 ^ 2) ∧
      mpz_powm 2 5 5 = 2 := by
  refine ⟨by unfold HasOrder; decide, by decide, by decide, by decide, by decide, by decide⟩

/-- C30: for a prime `p`, a prime `f` and `e ≥ 1` with `f ^ e` dividing `p - 1`, `g`
of order `f ^ e` modulo `p` and `h` in the subgroup generated by `g`, when every
inner call of the lambda routine yields a logarithm of its target,
`solve_discrete_subproblem` returns `0` and an `x ≥ 0` with `g ^ x mod p = h`, and
`x` is congruent modulo `f ^ e` to every logarithm of `h` to the base `g`. -/
theorem digit_recovery_correct (p : Nat) (hp : p.Prime) (f e : Nat) (hf : f.Prime) (he : 1 ≤ e)
    (hdvd : f ^ e ∣ p - 1) (g h : Int) (hord : HasOrder g (f ^ e) p)
    (hsub : ∃ k : Nat, h = g ^ k % p) (search : Nat → Int → Int → Option Int)
    (hsearch : ∀ (j : Nat) (G H : Int), G ≠ H → (∃ k : Nat, G ^ k % p = H % p) →
      ∃ y : Int, search j G H = some y ∧ G ^ (y % (p - 1)).toNat % p = H % p) :
    (solve_discrete_subproblem search g h p f e).1 = 0 ∧
      0 ≤ (solve_discrete_subproblem search g h p f e).2 ∧
      mpz_powm g (solve_discrete_subproblem search g h p f e).2 p = h ∧
      ∀ k : Nat, h = g ^ k % p →
        (solve_discrete_subproblem search g h p f e).2 ≡ k [ZMOD ((f ^ e : Nat) : Int)] := by
  haveI : Fact p.Prime := ⟨hp⟩
  have hpos : 0 < f ^ e := pow_pos hf.pos e
  have ho : orderOf (g : ZMod p) = f ^ e := (hasOrder_iff_orderOf p hp g _ hpos).mp hord
  have hGq : (g : ZMod p) ^ (f ^ e) = 1 := ho ▸ pow_orderOf_eq_one _
  have hG0 : (g : ZMod p) ≠ 0 := by
    intro h0
    rw [h0, zero_pow (ne_of_gt hpos)] at hGq
    exact zero_ne_one hGq
  have hg : ¬ (p : Int) ∣ g := by
    rw [← ZMod.intCast_zmod_eq_zero_iff_dvd]; exact hG0
  have hsmall : f ^ e < p := by
    have := Nat.le_of_dvd (by have := hp.two_le; omega) hdvd
    have := hp.two_le
    omega
  have hp0 : (0 : Int) < p := by exact_mod_cast hp.pos
  obtain ⟨k0, hk0⟩ := hsub
  have hH : (h : ZMod p) = (g : ZMod p) ^ k0 := by
    rw [hk0, ZMod.intCast_mod, Int.cast_pow]
  obtain ⟨xn, hx, hpow⟩ := solve_discrete_subproblem_spec p hp f e k0 hf he hsmall g h hg ho hH
    search hsearch
  rw [hx]
  refine ⟨rfl, Int.natCast_nonneg _, ?_, fun k hk => ?_⟩
  · rw [mpz_powm_natCast]
    have e1 := (pow_emod_eq_iff p g xn h).mpr hpow
    rw [e1, hk0]
    exact Int.emod_emod_of_dvd _ (dvd_refl _)
  · have hk1 : (h : ZMod p) = (g : ZMod p) ^ k := by
      rw [hk, ZMod.intCast_mod, Int.cast_pow]
    have hm := zmod_pow_eq_imp_modEq p (g : ZMod p) hG0 xn k (by rw [hpow, hk1])
    rw [ho] at hm
    exact Int.natCast_modEq_iff.mpr hm

set_option maxRecDepth 100000 in
theorem digit_recovery_correct_witness :
    solve_discrete_subproblem (fun _ G H => least_log G H ((251 : Nat) : Int) (251 - 1) 0)
        21 175 ((251 : Nat) : Int) ((5 : Nat) : Int) ((3 : Nat) : Int) = (0, 72) ∧
    ((solve_discrete_subproblem (fun _ G H => least_log G H ((251 : Nat) : Int) (251 - 1) 0)
        21 175 ((251 : Nat) : Int) ((5 : Nat) : Int) ((3 : Nat) : Int)).1 = 0 ∧
      0 ≤ (solve_discrete_subproblem (fun _ G H => least_log G H ((251 : Nat) : Int) (251 - 1) 0)
        21 175 ((251 : Nat) : Int) ((5 : Nat) : Int) ((3 : Nat) : Int)).2 ∧
      mpz_powm 21 (solve_discrete_subproblem
        (fun _ G H => least_log G H ((251 : Nat) : Int) (251 - 1) 0)
        21 175 ((251 : Nat) : Int) ((5 : Nat) : Int) ((3 : Nat) : Int)).2
        ((251 : Nat) : Int) = 175 ∧
      ∀ k : Nat, (175 : Int) = 21 ^ k % ((251 : Nat) : Int) →
        (solve_discrete_subproblem (fun _ G H => least_log G H ((251 : Nat) : Int) (251 - 1) 0)
          21 175 ((251 : Nat) : Int) ((5 : Nat) : Int) ((3 : Nat) : Int)).2 ≡ k
          [ZMOD ((5 ^ 3 : Nat) : Int)]) :=
  ⟨by decide,
    digit_recovery_correct 251 (by norm_num) 5 3 (by norm_num) (by norm_num) (by norm_num)
      21 175
      (hasOrder_of_calculate_ord 251 (by norm_num)
        (lt_trans ((Nat.log2_lt (by norm_num)).mpr (by norm_num : 251 < 2 ^ 8)) (by norm_num))
        21 (by decide) (by decide) [2, 5] [1, 3] 2 rfl
        (fun i hi => by
          interval_cases i
          · exact ⟨2, by norm_num, rfl⟩
          · exact ⟨5, by norm_num, rfl⟩)
        (by decide) (by decide) (5 ^ 3) (by decide))
      ⟨197, by decide⟩
      (fun _ G H => least_log G H ((251 : Nat) : Int) (251 - 1) 0)
      (fun j G H hne hex =>
        least_log_searchCorrect 251 (by norm_num) (by norm_num) 0 j G H hne hex)⟩

/-! ## The fallback of `calculate_ord` -/

/-- C31, amended: for a prime `p`, `g ≢ 0 (mod p)` and primes `f i` with exponents
`e i ≥ 1` whose product of powers is `p - 1`, the loop of `calculate_ord` ends
with `ord = 1`, so that the fallback is taken, exactly when `g ≡ 1 (mod p)`; for
`g` in `[2, p)` the fallback is not taken and `calculate_ord` returns what its
loop computed.  (Every `mpz_t` has fewer than `2 ^ 64` bits.) -/
theorem calculate_ord_fallback_iff (p : Nat) (hp : p.Prime) (hbits : Nat.log2 p < 2 ^ 64)
    (g : Int) (hg0 : ¬ (p : Int) ∣ g)
    (factors exponents : List Int) (len : Nat) (hel : exponents.length = len)
    (hprime : ∀ i, i < len → ∃ q : Nat, q.Prime ∧ factors.getD i 0 = q)
    (hexp : ∀ i, i < len → 1 ≤ exponents.getD i 0)
    (hprod : ord_product factors exponents len = p - 1) :
    ((calculate_ord_loop g p factors exponents (p - 1) len).2 = 1 ↔ (p : Int) ∣ g - 1) ∧
    (¬ (p : Int) ∣ g - 1 →
      calculate_ord g p factors exponents len (p - 1) =
        calculate_ord_loop g p factors exponents (p - 1) len) ∧
    ((p : Int) ∣ g - 1 →
      calculate_ord g p factors exponents len (p - 1) =
        ((calculate_ord_loop g p factors exponents (p - 1) len).1.set (len - 1) 1,
          factors.getD (len - 1) 0)) := by
  have hiff := calculate_ord_loop_eq_one_iff p hp g hg0 factors exponents len hel hprime hexp
    (exponents_small p hp hbits factors exponents len hprime hprod) hprod
  refine ⟨hiff, fun h1 => ?_, fun h1 => ?_⟩
  · simp only [calculate_ord, if_neg (fun h => h1 (hiff.mp h))]
  · simp only [calculate_ord, if_pos (hiff.mpr h1)]

set_option maxRecDepth 100000 in
theorem calculate_ord_fallback_iff_witness :
    ¬ ((251 : Nat) : Int) ∣ 5 - 1 ∧
    calculate_ord_loop 5 ((251 : Nat) : Int) [2, 5] [1, 3] (((251 : Nat) : Int) - 1) 2 =
      ([0, 2], 25) ∧
    (((calculate_ord_loop 5 ((251 : Nat) : Int) [2, 5] [1, 3] (((251 : Nat) : Int) - 1) 2).2 = 1 ↔
        ((251 : Nat) : Int) ∣ 5 - 1) ∧
      (¬ ((251 : Nat) : Int) ∣ 5 - 1 →
        calculate_ord 5 ((251 : Nat) : Int) [2, 5] [1, 3] 2 (((251 : Nat) : Int) - 1) =
          calculate_ord_loop 5 ((251 : Nat) : Int) [2, 5] [1, 3] (((251 : Nat) : Int) - 1) 2) ∧
      (((251 : Nat) : Int) ∣ 5 - 1 →
        calculate_ord 5 ((251 : Nat) : Int) [2, 5] [1, 3] 2 (((251 : Nat) : Int) - 1) =
          ((calculate_ord_loop 5 ((251 : Nat) : Int) [2, 5] [1, 3]
              (((251 : Nat) : Int) - 1) 2).1.set (2 - 1) 1,
            [2, 5].getD (2 - 1) 0))) :=
  ⟨by decide, by decide, calculate_ord_fallback_iff 251 (by norm_num)
    (lt_trans ((Nat.log2_lt (by norm_num)).mpr (by norm_num : 251 < 2 ^ 8)) (by norm_num))
    5 (by decide) [2, 5] [1, 3] 2 rfl
    (fun i hi => by
      interval_cases i
      · exact ⟨2, by norm_num, rfl⟩
      · exact ⟨5, by norm_num, rfl⟩)
    (fun i hi => by interval_cases i <;> decide)
    (by decide)⟩

/-- C31, as stated, fails at `g = 1`: for `p = 7`, `g = 1` and `6 = 2 * 3` the loop
drives `ord` down to `1` with both exponents `0`, and `calculate_ord` takes the
fallback: it returns `ord = 3` and the exponents `[0, 1]`. -/
theorem calculate_ord_fallback_taken :
    Nat.Prime 7 ∧ (1 : Int) ≤ 1 ∧ (1 : Int) < 7 ∧
    ord_product [2, 3] [1, 1] 2 = 7 - 1 ∧
    calculate_ord_loop 1 7 [2, 3] [1, 1] (7 - 1) 2 = ([0, 0], 1) ∧
    calculate_ord 1 7 [2, 3] [1, 1] 2 (7 - 1) = ([0, 1], 3) :=
  ⟨by norm_num, by decide, by decide, by decide, by decide, by decide⟩

/-! ## Scalar multiplication and a failed inversion -/

/-- C32 fails: on the curve `y^2 = x^3 + 3` modulo `35` and the affine point
`P = (27, 31)` on it, `eliptic_mul (3, P, E)` makes the step `r = P`,
`p = 2 P = (32, 19)`; in the second iteration `eliptic_add (r, p)` takes the
inversion-failure branch with the denominator `5` (`gcd (35, 5) = 5`) and leaves
`r = (0, 0, 5)`, after which `eliptic_add (p, r)` succeeds: the routine returns
`(12, 6, 1)` with `z = 1`.  With the point `(1, 2)` and `a = 0` drawn,
`lenstra_ecm (35, [2, 3], 4)` reaches this call and returns `1`, no factor. -/
theorem eliptic_mul_loses_failure :
    ((31 : Int) ^ 2 - (27 ^ 3 + 0 * 27 + 3)) % 35 = 0 ∧
    eliptic_mul 3 { x := 27, y := 31, z := 1 } { a := 0, b := 3, n := 35 } =
      eliptic_mul_loop { a := 0, b := 3, n := 35 } 2 1 { x := 27, y := 31, z := 1 }
        { x := 32, y := 19, z := 1 } ∧
    eliptic_add_slope { x := 27, y := 31, z := 1 } { x := 32, y := 19, z := 1 }
      { a := 0, b := 3, n := 35 } = some (23, 5) ∧
    (mpz_invert 0 5 35).1 = 0 ∧
    eliptic_add { x := 27, y := 31, z := 1 } { x := 32, y := 19, z := 1 }
      { a := 0, b := 3, n := 35 } = { x := 0, y := 0, z := 5 } ∧
    Int.gcd 35 5 = 5 ∧
    eliptic_mul_loop { a := 0, b := 3, n := 35 } 2 1 { x := 27, y := 31, z := 1 }
        { x := 32, y := 19, z := 1 } =
      eliptic_mul_loop { a := 0, b := 3, n := 35 } 1 0 { x := 0, y := 0, z := 5 }
        { x := 12, y := 6, z := 1 } ∧
    eliptic_mul 3 { x := 27, y := 31, z := 1 } { a := 0, b := 3, n := 35 } =
      { x := 12, y := 6, z := 1 } ∧
    ¬ 1 < (eliptic_mul 3 { x := 27, y := 31, z := 1 } { a := 0, b := 3, n := 35 }).z ∧
    point_create_random 35 (some (1, 2)) = some { x := 1, y := 2, z := 1 } ∧
    ecurve_create { x := 1, y := 2, z := 1 } 35 (some 0) = some { a := 0, b := 3, n := 35 } ∧
    eliptic_mul 2 { x := 1, y := 2, z := 1 } { a := 0, b := 3, n := 35 } =
      { x := 27, y := 31, z := 1 } ∧
    lenstra_ecm 35 [2, 3] 4 0 (some (1, 2)) (some 0) = (1, 0) := by
  decide

/-! ## The set-up of the lambda routine -/

/-- C34 fails: with one thread the divisor `nproc >> 1` of `v = beta / (nproc >> 1)`
is `0`; and `r = calculate_max_jumps (beta)` is `0` for `p = 13` with one thread
(`beta = 0`) and with two threads (`beta = 1`), and for `p = 3` with two threads
(`beta = 0`), so that the jump index `hash % r` is not defined. -/
theorem lambda_params_zero_divisors :
    Nat.Prime 13 ∧ Nat.Prime 3 ∧
    (1 >>> 1 : Nat) = 0 ∧
    (lambda_params 2 13 1).beta = 0 ∧ (lambda_params 2 13 1).r = 0 ∧
    (2 >>> 1 : Nat) = 1 ∧
    (lambda_params 2 13 2).beta = 1 ∧ (lambda_params 2 13 2).r = 0 ∧
    (lambda_params 2 3 2).beta = 0 ∧ (lambda_params 2 3 2).r = 0 ∧
    (lambda_params 2 13 2).dists = [] ∧ (lambda_params 2 13 2).jumps = [] := by
  refine ⟨by norm_num, by norm_num, by decide, by decide, by decide, by decide, by decide,
    by decide, by decide, by decide, by decide, by decide⟩

/-! ## The lambda routine without a publication -/

/-- C35: for `p ≥ 2`, `g ≠ h`, at least two threads and at least one jump size
(so that the routine reaches its parallel region and the jump index is defined),
any hash function and any schedule of the workers: in an execution in which no
worker finds a triple of the other type at its position (`finish` is never set)
the region leaves `res` as it was on entry, and
`pollard_lambda_parallel_dicsrete_log` returns `0` with `res` the value on entry
reduced modulo `p - 1`.  Such executions end: once every worker has moved
`2 * (p - 1)` times (a jump and a critical section for each of its `p - 1`
steps), every worker has left its loop. -/
theorem lambda_returns_entry_value (hash : Int → Nat) (g h p : Int) (hp : 2 ≤ p) (hne : g ≠ h)
    (nproc : Nat) (hnproc : 2 ≤ nproc) (hr : 0 < (lambda_params g p nproc).r)
    (schedule : List Nat) (res0 : Int)
    (hfin : (lambda_region hash g h p nproc schedule res0).shared.finish = false) :
    (lambda_region hash g h p nproc schedule res0).shared.res = res0 ∧
    ((lambda_region hash g h p nproc schedule res0).complete (lambda_params g p nproc) = true →
      pollard_lambda_parallel_dicsrete_log_run hash g h p nproc schedule res0 =
        some (0, mpz_mod res0 (p - 1))) ∧
    ((∀ i, i < nproc → 2 * (p - 1) ≤ (schedule.count i : Nat)) →
      (lambda_region hash g h p nproc schedule res0).complete (lambda_params g p nproc) =
        true) := by
  have hres := lambda_region_unfinished hash g h p nproc schedule res0 hfin
  have hog : (lambda_params g p nproc).order_g = p - 1 := rfl
  refine ⟨hres, fun hc => ?_, lambda_region_complete hash g h p nproc schedule res0⟩
  unfold pollard_lambda_parallel_dicsrete_log_run
  rw [if_neg hne]
  simp only [hc, if_true, hres, hog]

set_option maxRecDepth 1000000 in
theorem lambda_returns_entry_value_witness :
    ((lambda_region (fun pos => pos.natAbs) 5 3 17 4
        (List.replicate 32 0 ++ List.replicate 32 1 ++ List.replicate 32 2 ++ List.replicate 32 3)
        100).complete (lambda_params 5 17 4) = true ∧
      (∀ i, i < 4 → 2 * ((17 : Int) - 1) ≤ ((List.replicate 32 0 ++ List.replicate 32 1 ++
        List.replicate 32 2 ++ List.replicate 32 3).count i : Nat)) ∧
      pollard_lambda_parallel_dicsrete_log_run (fun pos => pos.natAbs) 5 3 17 4
        (List.replicate 32 0 ++ List.replicate 32 1 ++ List.replicate 32 2 ++ List.replicate 32 3)
        100 = some (0, 4) ∧
      mpz_mod 100 (17 - 1) = 4 ∧ mpz_powm 5 4 17 ≠ 3 ∧ mpz_powm 5 13 17 = 3) ∧
    ((lambda_region (fun pos => pos.natAbs) 5 3 17 4
        (List.replicate 32 0 ++ List.replicate 32 1 ++ List.replicate 32 2 ++ List.replicate 32 3)
        100).shared.res = 100 ∧
      ((lambda_region (fun pos => pos.natAbs) 5 3 17 4
          (List.replicate 32 0 ++ List.replicate 32 1 ++ List.replicate 32 2 ++
            List.replicate 32 3) 100).complete (lambda_params 5 17 4) = true →
        pollard_lambda_parallel_dicsrete_log_run (fun pos => pos.natAbs) 5 3 17 4
          (List.replicate 32 0 ++ List.replicate 32 1 ++ List.replicate 32 2 ++
            List.replicate 32 3) 100 = some (0, mpz_mod 100 (17 - 1))) ∧
      ((∀ i, i < 4 → 2 * ((17 : Int) - 1) ≤ ((List.replicate 32 0 ++ List.replicate 32 1 ++
          List.replicate 32 2 ++ List.replicate 32 3).count i : Nat)) →
        (lambda_region (fun pos => pos.natAbs) 5 3 17 4
          (List.replicate 32 0 ++ List.replicate 32 1 ++ List.replicate 32 2 ++
            List.replicate 32 3) 100).complete (lambda_params 5 17 4) = true)) :=
  ⟨⟨by decide, by decide, by decide, by decide, by decide, by decide⟩,
    lambda_returns_entry_value (fun pos => pos.natAbs) 5 3 17 (by decide) (by decide) 4
      (by decide) (by decide)
      (List.replicate 32 0 ++ List.replicate 32 1 ++ List.replicate 32 2 ++ List.replicate 32 3)
      100 (by decide)⟩

/-! ## Addition on the curve -/

/-- C33: for `n > 1`, a curve `(a, b, n)` and two affine points `P`, `Q` (`z = 1`)
that satisfy `y^2 ≡ x^3 + a x + b (mod n)`, with `P.x ≠ Q.x` or `P = Q`: when
`eliptic_add` computes a slope and the inversion of its denominator succeeds,
the result is `(x', y', 1)` with `0 ≤ x', y' < n` and
`y'^2 ≡ x'^3 + a x' + b (mod n)`.  (The coordinates of `P` and `Q` need not be
reduced.) -/
theorem eliptic_add_on_curve (n : Nat) (hn : 1 < n) (E : ECurve) (hE : E.n = n) (P Q : Point)
    (hPz : P.z = 1) (hQz : Q.z = 1)
    (hP : P.y ^ 2 ≡ P.x ^ 3 + E.a * P.x + E.b [ZMOD n])
    (hQ : Q.y ^ 2 ≡ Q.x ^ 3 + E.a * Q.x + E.b [ZMOD n])
    (hPQ : P.x ≠ Q.x ∨ P = Q) (t1 t2 : Int)
    (hs : eliptic_add_slope P Q E = some (t1, t2))
    (hi : (mpz_invert 0 t2 E.n).1 ≠ 0) :
    (eliptic_add P Q E).z = 1 ∧
    (0 ≤ (eliptic_add P Q E).x ∧ (eliptic_add P Q E).x < n) ∧
    (0 ≤ (eliptic_add P Q E).y ∧ (eliptic_add P Q E).y < n) ∧
    (eliptic_add P Q E).y ^ 2 ≡
      (eliptic_add P Q E).x ^ 3 + E.a * (eliptic_add P Q E).x + E.b [ZMOD n] := by
  have hn0 : (0 : Int) < n := by exact_mod_cast (lt_trans Nat.zero_lt_one hn)
  have hadd : eliptic_add P Q E =
      { x := mpz_mod (t1 * t1 * (mpz_invert 0 t2 E.n).2 * (mpz_invert 0 t2 E.n).2 - P.x - Q.x) E.n,
        y := mpz_mod ((P.x - mpz_mod (t1 * t1 * (mpz_invert 0 t2 E.n).2 *
          (mpz_invert 0 t2 E.n).2 - P.x - Q.x) E.n) * (mpz_invert 0 t2 E.n).2 * t1 - P.y) E.n,
        z := 1 } := by
    unfold eliptic_add
    simp only [hPz, hQz, one_ne_zero, if_false, hs, hi]
  rw [hadd]
  simp only [mpz_mod, hE]
  refine ⟨trivial, ⟨Int.emod_nonneg _ (ne_of_gt hn0), Int.emod_lt_of_pos _ hn0⟩,
    ⟨Int.emod_nonneg _ (ne_of_gt hn0), Int.emod_lt_of_pos _ hn0⟩, ?_⟩
  have hPc : (P.y : ZMod n) ^ 2 = (P.x : ZMod n) ^ 3 + (E.a : ZMod n) * P.x + E.b := by
    have := (ZMod.intCast_eq_intCast_iff _ _ n).mpr hP
    push_cast at this
    exact this
  have hQc : (Q.y : ZMod n) ^ 2 = (Q.x : ZMod n) ^ 3 + (E.a : ZMod n) * Q.x + E.b := by
    have := (ZMod.intCast_eq_intCast_iff _ _ n).mpr hQ
    push_cast at this
    exact this
  rw [hE] at hi
  have hinv := mpz_invert_zmod n hn t2 hi
  have key := eliptic_add_zmod n hn E hE P Q hPc hQc hPQ t1 t2 hs _ hinv
  apply (ZMod.intCast_eq_intCast_iff _ _ n).mp
  push_cast
  exact key

theorem eliptic_add_on_curve_witness :
    (eliptic_add { x := 0, y := 1, z := 1 } { x := 0, y := 1, z := 1 }
        { a := 1, b := 1, n := 23 } = { x := 6, y := 19, z := 1 } ∧
      eliptic_add { x := 0, y := 1, z := 1 } { x := 6, y := 19, z := 1 }
        { a := 1, b := 1, n := 23 } = { x := 3, y := 13, z := 1 }) ∧
    ((eliptic_add { x := 0, y := 1, z := 1 } { x := 0, y := 1, z := 1 }
          { a := 1, b := 1, n := 23 }).z = 1 ∧
      (0 ≤ (eliptic_add { x := 0, y := 1, z := 1 } { x := 0, y := 1, z := 1 }
          { a := 1, b := 1, n := 23 }).x ∧
        (eliptic_add { x := 0, y := 1, z := 1 } { x := 0, y := 1, z := 1 }
          { a := 1, b := 1, n := 23 }).x < (23 : Nat)) ∧
      (0 ≤ (eliptic_add { x := 0, y := 1, z := 1 } { x := 0, y := 1, z := 1 }
          { a := 1, b := 1, n := 23 }).y ∧
        (eliptic_add { x := 0, y := 1, z := 1 } { x := 0, y := 1, z := 1 }
          { a := 1, b := 1, n := 23 }).y < (23 : Nat)) ∧
      (eliptic_add { x := 0, y := 1, z := 1 } { x := 0, y := 1, z := 1 }
          { a := 1, b := 1, n := 23 }).y ^ 2 ≡
        (eliptic_add { x := 0, y := 1, z := 1 } { x := 0, y := 1, z := 1 }
          { a := 1, b := 1, n := 23 }).x ^ 3 +
          1 * (eliptic_add { x := 0, y := 1, z := 1 } { x := 0, y := 1, z := 1 }
            { a := 1, b := 1, n := 23 }).x + 1 [ZMOD (23 : Nat)]) :=
  ⟨by decide,
    eliptic_add_on_curve 23 (by decide) { a := 1, b := 1, n := 23 } rfl
      { x := 0, y := 1, z := 1 } { x := 0, y := 1, z := 1 } rfl rfl (by decide) (by decide)
      (Or.inr rfl) 1 2 (by decide) (by decide)⟩

end HCP
